import Mathlib

/-
Verification of the pdfmd transform + render pipeline (src/transform.py,
src/render.py) against its natural-language specification.

Python strings are modelled as lists of characters (`Str`).  Font sizes
(Python floats used only through arithmetic comparisons) are modelled as
rationals.  The dataclasses of models.py and the text utilities of utils.py
are not present under src/ and are modelled from the spec where needed; every
such definition carries a doc comment starting with "Modelled from the spec:".
All other definitions are translated from the Python source.
-/

namespace Pdfmd

/-- Python strings are modelled as lists of characters. -/
abbrev Str := List Char

/-- Characters treated as whitespace by Python's str.strip / regex \s
(ASCII whitespace plus the common Unicode whitespace code points). -/
def isPySpace (c : Char) : Bool :=
  c = ' ' || c = '\t' || c = '\n' || c = '\r' || c = '\x0b' || c = '\x0c' ||
  c = '\x1c' || c = '\x1d' || c = '\x1e' || c = '\x1f' || c = '\x85' ||
  c = '\xa0' || c = ' ' || (' ' ≤ c && c ≤ ' ') ||
  c = ' ' || c = ' ' || c = ' ' || c = ' ' || c = '　'

/-- ASCII decimal digit, as matched by the regex class \d on this input. -/
def isPyDigit (c : Char) : Bool := '0' ≤ c && c ≤ '9'

/-- ASCII alphabetic character (model of Python str.isalpha restricted to the
ASCII range handled by this pipeline). -/
def isPyAlpha (c : Char) : Bool := ('a' ≤ c && c ≤ 'z') || ('A' ≤ c && c ≤ 'Z')

/-- ASCII alphanumeric character (model of Python str.isalnum on ASCII). -/
def isPyAlnum (c : Char) : Bool := isPyAlpha c || isPyDigit c

/-- Model of Python str.lstrip() (no arguments): drop leading whitespace. -/
def pyLstrip (s : Str) : Str := s.dropWhile isPySpace

/-- Model of Python str.rstrip() (no arguments): drop trailing whitespace. -/
def pyRstrip (s : Str) : Str := (s.reverse.dropWhile isPySpace).reverse

/-- Model of Python str.strip() (no arguments). -/
def pyStrip (s : Str) : Str := pyRstrip (pyLstrip s)

/-- Model of Python str.rstrip("\n"): drop trailing newline characters. -/
def pyRstripNl (s : Str) : Str := (s.reverse.dropWhile (fun c => c = '\n')).reverse

/-- Embedding of render._fix_hyphenation: re.sub(r"-\n(\s*)", r"\1", text).
The regex deletes every (left-to-right, non-overlapping) occurrence of a
hyphen directly followed by a newline, keeping the following whitespace run
and resuming the scan after it.  Because the kept whitespace run contains no
hyphen, no match can begin inside it, so resuming the scan at the start of
that run produces the same output; this lets the scan be written structurally. -/
def fix_hyphenation : Str → Str
  | [] => []
  | [c] => [c]
  | a :: b :: rest =>
      if a = '-' ∧ b = '\n' then fix_hyphenation rest
      else a :: fix_hyphenation (b :: rest)

/-- Decides whether the string contains a hyphen directly followed by a
newline, i.e. whether the hyphenation-repair regex has a match. -/
def hasHyphNl : Str → Bool
  | a :: b :: rest => (a = '-' && b = '\n') || hasHyphNl (b :: rest)
  | _ => false

/-- Decides whether the string contains two consecutive hyphens. -/
def hasDashDash : Str → Bool
  | a :: b :: rest => (a = '-' && b = '-') || hasDashDash (b :: rest)
  | _ => false

/-- Induction on lists by looking at the first two elements, recursing both on
the tail and on the tail of the tail. -/
theorem pair_induction {P : Str → Prop} (h0 : P []) (h1 : ∀ c, P [c])
    (h2 : ∀ a b rest, P rest → P (b :: rest) → P (a :: b :: rest)) :
    ∀ l, P l := by
  have key : ∀ n : Nat, ∀ l : Str, l.length ≤ n → P l := by
    intro n
    induction n with
    | zero => intro l hl; cases l with
      | nil => exact h0
      | cons a t => simp at hl
    | succ n ih =>
      intro l hl
      match l with
      | [] => exact h0
      | [c] => exact h1 c
      | a :: b :: rest =>
        have hr : rest.length ≤ n := by
          simp only [List.length_cons] at hl; omega
        have hbr : (b :: rest).length ≤ n := by
          simp only [List.length_cons] at hl ⊢; omega
        exact h2 a b rest (ih rest hr) (ih (b :: rest) hbr)
  intro l
  exact key l.length l le_rfl

theorem fix_hyphenation_nil : fix_hyphenation [] = [] := by
  simp [fix_hyphenation]

theorem fix_hyphenation_single (c : Char) : fix_hyphenation [c] = [c] := by
  simp [fix_hyphenation]

theorem fix_hyphenation_cons_cons (a b : Char) (rest : Str) :
    fix_hyphenation (a :: b :: rest) =
      if a = '-' ∧ b = '\n' then fix_hyphenation rest
      else a :: fix_hyphenation (b :: rest) := by
  simp [fix_hyphenation]

/-- Strings with no hyphen-newline pair are fixed points of the repair. -/
theorem fix_hyphenation_of_no_match : ∀ s : Str, hasHyphNl s = false →
    fix_hyphenation s = s := by
  apply pair_induction
  · intro _; rfl
  · intro c _; exact fix_hyphenation_single c
  · intro a b rest _ ih2 h
    simp only [hasHyphNl, Bool.or_eq_false_iff, Bool.and_eq_false_iff] at h
    rw [fix_hyphenation_cons_cons]
    rw [if_neg]
    · rw [ih2 h.2]
    · intro hc
      rcases h.1 with h1 | h1 <;> simp [hc.1, hc.2] at h1

/-- Helper: on a nonempty string whose head does not begin a match, the repair
keeps the head. -/
theorem fix_hyphenation_cons_of_not_match (d : Char) (r : Str)
    (h : ¬ (d = '-' ∧ r.head? = some '\n')) :
    fix_hyphenation (d :: r) = d :: fix_hyphenation r := by
  cases r with
  | nil => exact fix_hyphenation_single d
  | cons b rest =>
    rw [fix_hyphenation_cons_cons, if_neg]
    intro hc
    exact h ⟨hc.1, by simp [hc.2]⟩

/-- Helper: the repaired string of a cons whose head is not a hyphen starts
with that head. -/
theorem fix_hyphenation_head_of_ne (d : Char) (r : Str) (hd : d ≠ '-') :
    (fix_hyphenation (d :: r)).head? = some d := by
  rw [fix_hyphenation_cons_of_not_match d r (by intro hc; exact hd hc.1)]
  rfl

/-- Strings without two consecutive hyphens repair to strings without any
hyphen-newline pair. -/
theorem hasHyphNl_fix_of_no_dash_dash : ∀ s : Str, hasDashDash s = false →
    hasHyphNl (fix_hyphenation s) = false := by
  apply pair_induction
  · intro _; rfl
  · intro c _; rw [fix_hyphenation_single]; rfl
  · intro a b rest ih1 ih2 h
    simp only [hasDashDash, Bool.or_eq_false_iff, Bool.and_eq_false_iff] at h
    rw [fix_hyphenation_cons_cons]
    by_cases hm : a = '-' ∧ b = '\n'
    · rw [if_pos hm]
      exact ih1 (by
        cases rest with
        | nil => rfl
        | cons x t =>
          have := h.2
          simp only [hasDashDash, Bool.or_eq_false_iff] at this
          exact this.2)
    · rw [if_neg hm]
      have htail : hasHyphNl (fix_hyphenation (b :: rest)) = false := ih2 h.2
      cases hfix : fix_hyphenation (b :: rest) with
      | nil => rfl
      | cons x t =>
        show ((a = '-' && x = '\n') || hasHyphNl (x :: t)) = false
        rw [hfix] at htail
        rw [htail, Bool.or_false]
        by_cases ha : a = '-'
        · have hb1 : ¬ b = '-' := by
            intro hb
            rcases h.1 with h1 | h1 <;> simp [ha, hb] at h1
          have hb2 : ¬ b = '\n' := by
            intro hb; exact hm ⟨ha, hb⟩
          have hx : x = b := by
            have := fix_hyphenation_head_of_ne b rest hb1
            rw [hfix] at this
            have hx : (some x : Option Char) = some b := by simpa using this
            simpa using hx
          simp [ha, hx, hb2]
        · simp [ha]

/-- C3 counterexample: hyphenation repair is not idempotent as claimed.  On
the input "--\n\nx" one application yields "-\nx" (the kept newline of the
whitespace group lands directly after the surviving hyphen), and a second
application yields "x". -/
theorem fix_hyphenation_not_idempotent_cex :
    fix_hyphenation (fix_hyphenation ("--\n\nx".toList)) ≠
      fix_hyphenation ("--\n\nx".toList) := by
  decide

/-- C3 (amended): hyphenation repair is idempotent on every input that
contains no two consecutive hyphens; applying the repair to the
already-repaired text yields the same text. -/
theorem fix_hyphenation_idempotent_no_double_dash (s : Str)
    (h : hasDashDash s = false) :
    fix_hyphenation (fix_hyphenation s) = fix_hyphenation s :=
  fix_hyphenation_of_no_match _ (hasHyphNl_fix_of_no_dash_dash s h)

/-- Witness for C3: the amended idempotence theorem applied to the concrete
wrapped word "auto-\nmated". -/
theorem fix_hyphenation_idempotent_no_double_dash_witness :
    fix_hyphenation (fix_hyphenation ("auto-\nmated".toList)) =
      fix_hyphenation ("auto-\nmated".toList) :=
  fix_hyphenation_idempotent_no_double_dash ("auto-\nmated".toList) (by decide)

/-- Modelled from the spec: Span record of models.py (absent from src/):
a run of text with uniform style; `size` is the font size (0 meaning "not a
sizing signal"), modelled as a rational. -/
structure Span where
  text : Str
  size : ℚ
  bold : Bool
  italic : Bool
deriving DecidableEq

/-- Modelled from the spec: Line record of models.py (absent from src/):
an ordered sequence of Spans. -/
structure Line where
  spans : List Span
deriving DecidableEq

/-- Modelled from the spec: Block record of models.py (absent from src/):
an ordered sequence of Lines. -/
structure Block where
  lines : List Line
deriving DecidableEq

/-- Modelled from the spec: PageText record of models.py (absent from src/):
an ordered sequence of Blocks. -/
structure PageText where
  blocks : List Block
deriving DecidableEq

/-- Modelled from the spec: the Pipeline Options record of models.py (absent
from src/).  The field modelling `heading_size_ratio` is spelled
`headingSizeFactor` here; all other field names follow the source. -/
structure Options where
  remove_headers_footers : Bool
  caps_to_headings : Bool
  defragment_short : Bool
  insert_page_breaks : Bool
  headingSizeFactor : ℚ
  orphan_max_len : Nat
deriving DecidableEq

/-- Embedding of transform._line_text: join all span texts in a line and
strip outer whitespace. -/
def line_text (ln : Line) : Str :=
  pyStrip ((ln.spans.map Span.text).flatten)

/-- Modelled from the spec: Block.is_empty of models.py (absent from src/):
a Block is empty if it has no Lines, or all Lines have empty/whitespace-only
joined text. -/
def Block.is_empty (b : Block) : Bool :=
  b.lines.isEmpty || b.lines.all (fun ln => (line_text ln).isEmpty)

/-- Embedding of transform._first_nonblank_line_text. -/
def first_nonblank_line_text (p : PageText) : Str :=
  match p.blocks.findSome? (fun blk =>
      blk.lines.findSome? (fun ln =>
        let t := line_text ln
        if t.isEmpty then none else some t)) with
  | some t => t
  | none => []

/-- Embedding of transform._last_nonblank_line_text. -/
def last_nonblank_line_text (p : PageText) : Str :=
  match p.blocks.reverse.findSome? (fun blk =>
      blk.lines.reverse.findSome? (fun ln =>
        let t := line_text ln
        if t.isEmpty then none else some t)) with
  | some t => t
  | none => []

/-- Modelled Python collections.Counter update: keys are kept in insertion
order (Python 3.7+ dict semantics); an existing key's count is bumped in
place, a new key is appended at the end. -/
def bump (counter : List (Str × Nat)) (k : Str) : List (Str × Nat) :=
  match counter with
  | [] => [(k, 1)]
  | (k2, c) :: rest => if k2 = k then (k2, c + 1) :: rest else (k2, c) :: bump rest k

/-- Builds the Counter of a list of candidate strings, in scan order. -/
def buildCounter (l : List Str) : List (Str × Nat) := l.foldl bump []

/-- Stable insertion of an entry into a count-descending list: the entry goes
before the first element whose count is not larger, so earlier-inserted
entries with an equal count stay first (Python sorted is stable). -/
def insertDesc (x : Str × Nat) : List (Str × Nat) → List (Str × Nat)
  | [] => [x]
  | y :: ys => if x.2 < y.2 then y :: insertDesc x ys else x :: y :: ys

/-- Modelled Counter.most_common(): the entries sorted by count, descending,
with Python's stable sort (ties keep insertion order). -/
def most_common (l : List (Str × Nat)) : List (Str × Nat) := l.foldr insertDesc []

/-- Embedding of the selection in transform.detect_repeating_edges (lines
103-104): the first entry of most_common with count at least min_pages and
non-empty text. -/
def select_candidate (mc : List (Str × Nat)) (min_pages : Nat) : Option Str :=
  (mc.find? (fun e => decide (min_pages ≤ e.2) && !e.1.isEmpty)).map (fun e => e.1)

/-- Head candidates of a page list: the first non-blank line text of each
page, empty candidates not counted (transform.detect_repeating_edges). -/
def headCandidates (pages : List PageText) : List Str :=
  (pages.map first_nonblank_line_text).filter (fun h => !h.isEmpty)

/-- Tail candidates of a page list (transform.detect_repeating_edges). -/
def tailCandidates (pages : List PageText) : List Str :=
  (pages.map last_nonblank_line_text).filter (fun t => !t.isEmpty)

/-- Embedding of transform.detect_repeating_edges. -/
def detect_repeating_edges (pages : List PageText) (min_pages : Nat) :
    Option Str × Option Str :=
  (select_candidate (most_common (buildCounter (headCandidates pages))) min_pages,
   select_candidate (most_common (buildCounter (tailCandidates pages))) min_pages)

/-- Dash-like characters of the footer patterns and bullet classes. -/
def dashChars : List Char := ['-', '–', '—']

/-- Embedding of transform._FOOTER_DASH_PATTERN, the full-string regex
match of "^[-–—]\s*[-–—]?\s*\d*\s*$" (a bare "$" also matches just before a
single final newline, which the greedy trailing \s* absorbs). -/
def matchFooterDash (s : Str) : Bool :=
  match s with
  | [] => false
  | c :: rest =>
      if c ∈ dashChars then
        let r1 := rest.dropWhile isPySpace
        let r2 := match r1 with
          | d :: r => if d ∈ dashChars then r else r1
          | [] => r1
        let r3 := r2.dropWhile isPySpace
        let r4 := r3.dropWhile isPyDigit
        (r4.dropWhile isPySpace).isEmpty
      else false

/-- Embedding of transform._FOOTER_PAGENUM_PATTERN, the regex "^\d+\s*$". -/
def matchFooterPageNum (s : Str) : Bool :=
  match s with
  | [] => false
  | c :: _ =>
      isPyDigit c && ((s.dropWhile isPyDigit).dropWhile isPySpace).isEmpty

/-- Lower-cases an ASCII letter (model of re.IGNORECASE on ASCII input). -/
def lowerAscii (c : Char) : Char :=
  if 'A' ≤ c ∧ c ≤ 'Z' then Char.ofNat (c.toNat + 32) else c

/-- Embedding of transform._FOOTER_PAGE_LABEL_PATTERN, the case-insensitive
regex "^Page\s+\d+\s*$". -/
def matchFooterPageLabel (s : Str) : Bool :=
  let t := s.map lowerAscii
  match t with
  | 'p' :: 'a' :: 'g' :: 'e' :: r =>
      match r with
      | c1 :: _ =>
          isPySpace c1 &&
          (match r.dropWhile isPySpace with
           | c2 :: _ =>
              isPyDigit c2 &&
              (((r.dropWhile isPySpace).dropWhile isPyDigit).dropWhile isPySpace).isEmpty
           | [] => false)
      | [] => false
  | _ => false

/-- Embedding of transform._is_footer_noise. -/
def transform_is_footer_noise (text : Str) : Bool :=
  let s := pyStrip text
  if s.isEmpty then false
  else matchFooterDash s || matchFooterPageNum s || matchFooterPageLabel s

/-- Decides the "if header and text == header" Python test: the optional
detected string must be present and non-empty (Python truthiness) and equal
to the line text. -/
def matchesDetected (detected : Option Str) (text : Str) : Bool :=
  match detected with
  | some h => !h.isEmpty && text = h
  | none => false

/-- Embedding of the per-page body of transform.remove_header_footer. -/
def remove_hf_page (header footer : Option Str) (p : PageText) : PageText :=
  let nb := p.blocks.length
  ⟨p.blocks.enum.filterMap (fun be =>
    let blk_idx := be.1
    let blk := be.2
    let num_lines := blk.lines.length
    let new_lines := blk.lines.enum.filter (fun le =>
      let ln_idx := le.1
      let text := line_text le.2
      !(matchesDetected header text) &&
      !(matchesDetected footer text) &&
      !(decide (blk_idx = nb - 1 ∧ 1 ≤ nb) && decide (num_lines - 3 ≤ ln_idx) &&
        transform_is_footer_noise text))
    if new_lines.isEmpty then none else some ⟨new_lines.map (fun le => le.2)⟩)⟩

/-- Embedding of transform.remove_header_footer. -/
def remove_header_footer (pages : List PageText) (header footer : Option Str) :
    List PageText :=
  pages.map (remove_hf_page header footer)

/-- Addition on the rationals computed through Rat.divInt so that the kernel
can evaluate it (the library operations are marked irreducible); it agrees
with field addition, see qadd_eq_add. -/
def qadd (a b : ℚ) : ℚ :=
  Rat.divInt (a.num * (b.den : Int) + b.num * (a.den : Int)) ((a.den : Int) * (b.den : Int))

/-- Multiplication on the rationals computed through Rat.divInt; it agrees
with field multiplication, see qmul_eq_mul. -/
def qmul (a b : ℚ) : ℚ :=
  Rat.divInt (a.num * b.num) ((a.den : Int) * (b.den : Int))

/-- Division on the rationals computed through Rat.divInt; it agrees with
field division (division by zero yields zero in both conventions), see
qdiv_eq_div. -/
def qdiv (a b : ℚ) : ℚ := Rat.divInt (a.num * (b.den : Int)) ((a.den : Int) * b.num)

theorem rat_num_eq (a : ℚ) : (a.num : ℚ) = a * (a.den : ℚ) := by
  have hda : ((a.den : ℚ)) ≠ 0 := Nat.cast_ne_zero.mpr a.den_nz
  exact (div_eq_iff hda).mp (Rat.num_div_den a)

theorem qadd_eq_add (a b : ℚ) : qadd a b = a + b := by
  unfold qadd
  have hda : ((a.den : ℚ)) ≠ 0 := Nat.cast_ne_zero.mpr a.den_nz
  have hdb : ((b.den : ℚ)) ≠ 0 := Nat.cast_ne_zero.mpr b.den_nz
  rw [Rat.divInt_eq_div]
  push_cast
  field_simp
  linear_combination ((b.den : ℚ)) * rat_num_eq a + ((a.den : ℚ)) * rat_num_eq b

theorem qmul_eq_mul (a b : ℚ) : qmul a b = a * b := by
  unfold qmul
  have hda : ((a.den : ℚ)) ≠ 0 := Nat.cast_ne_zero.mpr a.den_nz
  have hdb : ((b.den : ℚ)) ≠ 0 := Nat.cast_ne_zero.mpr b.den_nz
  rw [Rat.divInt_eq_div]
  push_cast
  field_simp
  linear_combination ((b.num : ℚ)) * rat_num_eq a + a * ((a.den : ℚ)) * rat_num_eq b

theorem qdiv_eq_div (a b : ℚ) : qdiv a b = a / b := by
  unfold qdiv
  by_cases hb : b = 0
  · subst hb
    simp
  · have hda : ((a.den : ℚ)) ≠ 0 := Nat.cast_ne_zero.mpr a.den_nz
    have hdb : ((b.den : ℚ)) ≠ 0 := Nat.cast_ne_zero.mpr b.den_nz
    have hbn : ((b.num : ℚ)) ≠ 0 := by
      simpa using Rat.num_ne_zero.mpr hb
    rw [Rat.divInt_eq_div]
    push_cast
    field_simp
    linear_combination ((b.den : ℚ)) * b * rat_num_eq a - a * ((a.den : ℚ)) * rat_num_eq b

/-- Ascending insertion used to model Python sorted() on numbers. -/
def insertAsc (x : ℚ) : List ℚ → List ℚ
  | [] => [x]
  | y :: ys => if y ≤ x then y :: insertAsc x ys else x :: y :: ys

/-- Model of Python sorted() on a list of numbers. -/
def sortAsc (l : List ℚ) : List ℚ := l.foldr insertAsc []

/-- Median with the statistics.median convention, as computed manually in
transform.strip_drop_caps_in_page and transform.estimate_body_size: middle
element for odd length, average of the two middle elements for even length.
Callers only invoke it on non-empty lists (the Python code guards with
"if sizes:"); the default 0 for the empty list is never reached there. -/
def pyMedian (l : List ℚ) : ℚ :=
  let s := sortAsc l
  let n := s.length
  if n % 2 = 1 then s.getD (n / 2) 0
  else qdiv (qadd (s.getD (n / 2 - 1) 0) (s.getD (n / 2) 0)) 2

/-- Embedding of the qualification test of transform.strip_drop_caps_in_page
(lines 207-227): the first span of the line is a single alphabetic character
with at least one following span, the remaining spans have at least one
positive size, and the first span's size is at least 1.6 times the median of
those positive sizes. -/
def drop_cap_qualifies (ln : Line) : Bool :=
  match ln.spans with
  | [] => false
  | first :: rest =>
      let core := first.text
      if (!core.isEmpty) && decide ((pyStrip core).length = 1) &&
          (pyStrip core).all isPyAlpha && !rest.isEmpty then
        let sizes := (rest.map Span.size).filter (fun q => decide (0 < q))
        if sizes.isEmpty then false
        else decide (qmul (pyMedian sizes) (Rat.divInt 8 5) ≤ first.size)
      else false

/-- Drops the decorative first span of a line (replace(ln, spans=rest)). -/
def dropFirstSpan (ln : Line) : Line := ⟨ln.spans.tail⟩

/-- Embedding of the per-block scan of transform.strip_drop_caps_in_page:
lines are scanned in order and at most the first qualifying line is
modified; after a modification the remaining lines pass through unchanged. -/
def strip_block_lines : List Line → List Line
  | [] => []
  | ln :: rest =>
      if drop_cap_qualifies ln then dropFirstSpan ln :: rest
      else ln :: strip_block_lines rest

/-- Embedding of transform.strip_drop_caps_in_page. -/
def strip_drop_caps_in_page (p : PageText) : PageText :=
  ⟨p.blocks.map (fun blk => ⟨strip_block_lines blk.lines⟩)⟩

/-- Embedding of transform.strip_drop_caps. -/
def strip_drop_caps (pages : List PageText) : List PageText :=
  pages.map strip_drop_caps_in_page

/-- Bullet glyph characters of transform and render. -/
def bulletGlyphs : List Char := ['•', '○', '◦', '·', '-', '–', '—']

/-- Embedding of transform._BULLET_ONLY_PATTERN, the regex
"^[•○◦·\-–—]\s*$" as a full-line match. -/
def bulletOnly (t : Str) : Bool :=
  match t with
  | [] => false
  | c :: rest => (c ∈ bulletGlyphs) && (rest.dropWhile isPySpace).isEmpty

/-- Embedding of the line-merging loop of
transform._merge_bullet_lines_in_page. -/
def merge_lines : List Line → List Line
  | [] => []
  | [ln] => [ln]
  | ln :: nxt :: rest =>
      if bulletOnly (line_text ln) then
        let nxt_spans := match nxt.spans with
          | [] => ([] : List Span)
          | fs :: more =>
              (if fs.text.head? = some ' ' then fs
               else { fs with text := ' ' :: fs.text }) :: more
        Line.mk (ln.spans ++ nxt_spans) :: merge_lines rest
      else ln :: merge_lines (nxt :: rest)

/-- Embedding of transform._merge_bullet_lines_in_page. -/
def merge_bullet_lines_in_page (p : PageText) : PageText :=
  ⟨p.blocks.map (fun blk => ⟨merge_lines blk.lines⟩)⟩

/-- Embedding of transform.merge_bullet_lines. -/
def merge_bullet_lines (pages : List PageText) : List PageText :=
  pages.map merge_bullet_lines_in_page

/-- Size collection of transform.estimate_body_size over a span list: every
span size that is positive and whose text is not blank. -/
def pageSpanSizes (spans : List Span) : List ℚ :=
  spans.filterMap (fun sp =>
    if decide (0 < sp.size) && !(pyStrip sp.text).isEmpty then some sp.size else none)

/-- Sizes collected per page by transform.estimate_body_size. -/
def page_sizes (p : PageText) : List ℚ :=
  pageSpanSizes ((((p.blocks.map Block.lines).flatten).map Line.spans).flatten)

/-- Embedding of transform.estimate_body_size. -/
def estimate_body_size (pages : List PageText) : List ℚ :=
  pages.map (fun p =>
    let sizes := page_sizes p
    if sizes.isEmpty then 11 else pyMedian sizes)

/-- Embedding of transform.is_all_caps_line. -/
def is_all_caps_line (s : Str) : Bool :=
  let core := s.filter isPyAlpha
  !core.isEmpty && core.all Char.isUpper

/-- Embedding of transform.is_mostly_caps with its default threshold 0.75. -/
def is_mostly_caps (s : Str) : Bool :=
  let letters := s.filter isPyAlpha
  if letters.isEmpty then false
  else decide (Rat.divInt 3 4 ≤
    qdiv ((letters.filter Char.isUpper).length : ℚ) ((letters.length : ℚ)))

/-- Embedding of transform.transform_pages. -/
def transform_pages (pages : List PageText) (options : Options) :
    List PageText × Option Str × Option Str × List ℚ :=
  let pages_t := strip_drop_caps pages
  let hf := if options.remove_headers_footers
    then detect_repeating_edges pages_t 3 else (none, none)
  let pages_t2 := if options.remove_headers_footers
    then remove_header_footer pages_t hf.1 hf.2 else pages_t
  let pages_t3 := merge_bullet_lines pages_t2
  (pages_t3, hf.1, hf.2, estimate_body_size pages_t3)

/-- Count associated with a key in a counter (0 when absent). -/
def countOf (counter : List (Str × Nat)) (k : Str) : Nat :=
  ((counter.find? (fun e => e.1 = k)).map (fun e => e.2)).getD 0

/-- Largest count appearing in a counter (0 when empty). -/
def maxCount (counter : List (Str × Nat)) : Nat :=
  counter.foldl (fun m e => max m e.2) 0

/-- Selection characterised directly: the first-inserted entry whose count is
the leading count, provided that count reaches min_pages. -/
def select_earliest_max (l : List Str) (min_pages : Nat) : Option Str :=
  let counter := buildCounter l
  let M := maxCount counter
  if min_pages ≤ M then (counter.find? (fun e => e.2 = M)).map (fun e => e.1)
  else none

/-- Modelled from the spec: the tie-break rule the spec asserts, "first
candidate to reach the leading count in page-scan order".  The scan keeps
running counts and returns the first candidate whose running count attains
the final leading count. -/
def reachScan (M : Nat) : List (Str × Nat) → List Str → Option Str
  | _, [] => none
  | counter, x :: rest =>
      let c2 := bump counter x
      if countOf c2 x = M then some x else reachScan M c2 rest

/-- Modelled from the spec: full "first to reach the leading count" selection
over a candidate list, guarded by the min_pages threshold. -/
def spec_first_to_reach (l : List Str) (min_pages : Nat) : Option Str :=
  let M := maxCount (buildCounter l)
  if min_pages ≤ M ∧ 0 < M then reachScan M [] l else none

theorem foldl_max_init_le : ∀ (l : List (Str × Nat)) (a : Nat),
    a ≤ l.foldl (fun m e => max m e.2) a := by
  intro l
  induction l with
  | nil => intro a; exact le_rfl
  | cons x xs ih =>
    intro a
    calc a ≤ max a x.2 := le_max_left _ _
      _ ≤ _ := ih (max a x.2)

theorem foldl_max_mem_le : ∀ (l : List (Str × Nat)) (a : Nat), ∀ e ∈ l,
    e.2 ≤ l.foldl (fun m e2 => max m e2.2) a := by
  intro l
  induction l with
  | nil => intro a e he; cases he
  | cons x xs ih =>
    intro a e he
    rcases List.mem_cons.mp he with he | he
    · subst he
      calc e.2 ≤ max a e.2 := le_max_right _ _
        _ ≤ _ := foldl_max_init_le xs (max a e.2)
    · exact ih (max a x.2) e he

theorem foldl_max_attained : ∀ (l : List (Str × Nat)) (a : Nat),
    l.foldl (fun m e => max m e.2) a = a ∨
    ∃ e ∈ l, l.foldl (fun m e2 => max m e2.2) a = e.2 := by
  intro l
  induction l with
  | nil => intro a; exact Or.inl rfl
  | cons x xs ih =>
    intro a
    rcases ih (max a x.2) with h | ⟨e, he, h⟩
    · by_cases hx : x.2 ≤ a
      · left
        simp only [List.foldl_cons, max_eq_left hx] at h ⊢
        exact h
      · right
        refine ⟨x, List.mem_cons_self _ _, ?_⟩
        simp only [List.foldl_cons]
        rw [h, max_eq_right (le_of_not_le hx)]
    · exact Or.inr ⟨e, List.mem_cons_of_mem _ he, h⟩

/-- When the counter is non-empty some entry attains the leading count. -/
theorem maxCount_attained (counter : List (Str × Nat)) (h : counter ≠ []) :
    ∃ e ∈ counter, e.2 = maxCount counter := by
  rcases foldl_max_attained counter 0 with h0 | ⟨e, he, hval⟩
  · cases counter with
    | nil => exact absurd rfl h
    | cons x xs =>
      refine ⟨x, List.mem_cons_self _ _, ?_⟩
      have hle := foldl_max_mem_le (x :: xs) 0 x (List.mem_cons_self _ _)
      unfold maxCount
      rw [h0] at hle ⊢
      omega
  · exact ⟨e, he, hval.symm⟩

theorem maxCount_le (counter : List (Str × Nat)) :
    ∀ e ∈ counter, e.2 ≤ maxCount counter :=
  fun e he => foldl_max_mem_le counter 0 e he

/-- Membership is preserved in both directions by insertDesc. -/
theorem mem_insertDesc (x y : Str × Nat) : ∀ l, (y ∈ insertDesc x l) ↔
    (y = x ∨ y ∈ l) := by
  intro l
  induction l with
  | nil => simp [insertDesc]
  | cons z zs ih =>
    unfold insertDesc
    by_cases h : x.2 < z.2
    · rw [if_pos h]
      rw [List.mem_cons, ih, List.mem_cons]
      tauto
    · rw [if_neg h]
      simp only [List.mem_cons]

theorem mem_most_common (y : Str × Nat) : ∀ l, y ∈ most_common l ↔ y ∈ l := by
  intro l
  induction l with
  | nil => simp [most_common]
  | cons x xs ih =>
    show y ∈ insertDesc x (most_common xs) ↔ _
    rw [mem_insertDesc, ih]
    simp

/-- insertDesc passes over a prefix of entries with strictly larger counts. -/
theorem insertDesc_append_of_lt (x : Str × Nat) :
    ∀ (a b : List (Str × Nat)), (∀ y ∈ a, x.2 < y.2) →
      insertDesc x (a ++ b) = a ++ insertDesc x b := by
  intro a
  induction a with
  | nil => intro b _; rfl
  | cons z zs ih =>
    intro b hlt
    have hz : x.2 < z.2 := hlt z (List.mem_cons_self _ _)
    simp only [List.cons_append, insertDesc, if_pos hz]
    exact congrArg (fun t => z :: t) (ih b (fun y hy => hlt y (List.mem_cons_of_mem _ hy)))

/-- Stable descending sorting groups the entries carrying the leading count
in front, in their original order, followed by the sorted remainder. -/
theorem most_common_max_front (M : Nat) : ∀ (l : List (Str × Nat)),
    (∀ e ∈ l, e.2 ≤ M) →
    most_common l = l.filter (fun e => e.2 = M) ++
      most_common (l.filter (fun e => ¬ e.2 = M)) := by
  intro l
  induction l with
  | nil => intro _; rfl
  | cons x xs ih =>
    intro hle
    have hxs : ∀ e ∈ xs, e.2 ≤ M := fun e he => hle e (List.mem_cons_of_mem _ he)
    show insertDesc x (most_common xs) = _
    rw [ih hxs]
    by_cases hx : x.2 = M
    · have hfront : insertDesc x (xs.filter (fun e => e.2 = M) ++
          most_common (xs.filter (fun e => ¬ e.2 = M))) =
          x :: (xs.filter (fun e => e.2 = M) ++
            most_common (xs.filter (fun e => ¬ e.2 = M))) := by
        cases hxf : xs.filter (fun e => e.2 = M) ++
            most_common (xs.filter (fun e => ¬ e.2 = M)) with
        | nil => rfl
        | cons z zs =>
          have hzmem : z ∈ xs.filter (fun e => e.2 = M) ∨
              z ∈ most_common (xs.filter (fun e => ¬ e.2 = M)) := by
            have : z ∈ xs.filter (fun e => e.2 = M) ++
                most_common (xs.filter (fun e => ¬ e.2 = M)) := by
              rw [hxf]; exact List.mem_cons_self _ _
            exact List.mem_append.mp this
          have hzle : z.2 ≤ M := by
            rcases hzmem with hz | hz
            · exact hxs z (List.mem_of_mem_filter hz)
            · exact hxs z (List.mem_of_mem_filter ((mem_most_common z _).mp hz))
          show insertDesc x (z :: zs) = _
          unfold insertDesc
          rw [if_neg (by omega)]
      rw [hfront]
      have hfilx : (x :: xs).filter (fun e => e.2 = M) =
          x :: xs.filter (fun e => e.2 = M) := by
        simp [List.filter_cons, hx]
      have hfilnx : (x :: xs).filter (fun e => ¬ e.2 = M) =
          xs.filter (fun e => ¬ e.2 = M) := by
        simp [List.filter_cons, hx]
      rw [hfilx, hfilnx]
      simp
    · have hxlt : x.2 < M := lt_of_le_of_ne (hle x (List.mem_cons_self _ _)) hx
      rw [insertDesc_append_of_lt x _ _ (fun y hy => by
        have := List.of_mem_filter hy
        simp only [decide_eq_true_eq] at this
        omega)]
      have hfilx : (x :: xs).filter (fun e => e.2 = M) =
          xs.filter (fun e => e.2 = M) := by
        simp [List.filter_cons, hx]
      have hfilnx : (x :: xs).filter (fun e => ¬ e.2 = M) =
          x :: xs.filter (fun e => ¬ e.2 = M) := by
        simp [List.filter_cons, hx]
      rw [hfilx, hfilnx]
      rfl

theorem find?_eq_head?_of_all {α : Type} (p : α → Bool) : ∀ l : List α,
    (∀ e ∈ l, p e = true) → l.find? p = l.head? := by
  intro l
  induction l with
  | nil => intro _; rfl
  | cons x xs _ =>
    intro hall
    rw [List.find?_cons, hall x (List.mem_cons_self _ _)]
    rfl

theorem find?_append_some {α : Type} (p : α → Bool) (a : α) :
    ∀ l1 l2 : List α, l1.find? p = some a → (l1 ++ l2).find? p = some a := by
  intro l1
  induction l1 with
  | nil => intro l2 h; cases h
  | cons x xs ih =>
    intro l2 h
    rw [List.cons_append, List.find?_cons] at *
    cases hp : p x with
    | true => rw [hp] at h; simpa [hp] using h
    | false =>
      rw [hp] at h
      simp only [hp]
      exact ih l2 h

theorem head?_filter_eq_find? {α : Type} (p : α → Bool) : ∀ l : List α,
    (l.filter p).head? = l.find? p := by
  intro l
  induction l with
  | nil => rfl
  | cons x xs ih =>
    rw [List.filter_cons, List.find?_cons]
    cases hp : p x with
    | true => rfl
    | false => simp only [Bool.false_eq_true, if_false]; exact ih

/-- Every key of a bumped counter is the bumped key or a key already there. -/
theorem mem_bump (k : Str) (e : Str × Nat) : ∀ c, e ∈ bump c k →
    e.1 = k ∨ ∃ e2 ∈ c, e.1 = e2.1 := by
  intro c
  induction c with
  | nil =>
    intro h
    simp only [bump, List.mem_singleton] at h
    exact Or.inl (by rw [h])
  | cons y ys ih =>
    intro h
    unfold bump at h
    by_cases hk : y.1 = k
    · rw [if_pos hk] at h
      rcases List.mem_cons.mp h with h | h
      · exact Or.inr ⟨y, List.mem_cons_self _ _, by rw [h]⟩
      · exact Or.inr ⟨e, List.mem_cons_of_mem _ h, rfl⟩
    · rw [if_neg hk] at h
      rcases List.mem_cons.mp h with h | h
      · exact Or.inr ⟨y, List.mem_cons_self _ _, by rw [h]⟩
      · rcases ih h with h2 | ⟨e2, he2, h2⟩
        · exact Or.inl h2
        · exact Or.inr ⟨e2, List.mem_cons_of_mem _ he2, h2⟩

/-- Every key of a built counter occurs in the scanned candidate list. -/
theorem buildCounter_keys : ∀ (l : List Str) (acc : List (Str × Nat))
    (e : Str × Nat), e ∈ l.foldl bump acc →
    (∃ e2 ∈ acc, e.1 = e2.1) ∨ e.1 ∈ l := by
  intro l
  induction l with
  | nil => intro acc e h; exact Or.inl ⟨e, h, rfl⟩
  | cons x xs ih =>
    intro acc e h
    rcases ih (bump acc x) e h with ⟨e2, he2, hk⟩ | hk
    · rcases mem_bump x e2 acc he2 with h2 | ⟨e3, he3, h3⟩
      · exact Or.inr (by rw [hk, h2]; exact List.mem_cons_self _ _)
      · exact Or.inl ⟨e3, he3, by rw [hk, h3]⟩
    · exact Or.inr (List.mem_cons_of_mem _ hk)

/-- Selection over the stably sorted counter equals the direct
earliest-first-occurrence-among-the-leading-count characterisation. -/
theorem select_candidate_eq (counter : List (Str × Nat)) (m : Nat)
    (hkeys : ∀ e ∈ counter, e.1 ≠ []) :
    select_candidate (most_common counter) m =
      (if m ≤ maxCount counter then
        (counter.find? (fun e => e.2 = maxCount counter)).map (fun e => e.1)
       else none) := by
  set M := maxCount counter with hM
  have hsplit := most_common_max_front M counter (maxCount_le counter)
  unfold select_candidate
  rw [hsplit]
  by_cases hm : m ≤ M
  · rw [if_pos hm]
    cases hc : counter with
    | nil =>
      subst hc
      rfl
    | cons c0 cs =>
      have hne : counter ≠ [] := by rw [hc]; exact List.cons_ne_nil _ _
      rw [← hc]
      obtain ⟨e0, he0, hval⟩ := maxCount_attained counter hne
      have he0f : e0 ∈ counter.filter (fun e => decide (e.2 = M)) :=
        List.mem_filter.mpr ⟨he0, by simpa using hval⟩
      have hAne : counter.filter (fun e => decide (e.2 = M)) ≠ [] := by
        intro hnil; rw [hnil] at he0f; cases he0f
      have hall : ∀ e ∈ counter.filter (fun e => decide (e.2 = M)),
          (decide (m ≤ e.2) && !e.1.isEmpty) = true := by
        intro e he
        have hmem := List.mem_of_mem_filter he
        have hcount : e.2 = M := by
          have := List.of_mem_filter he
          simpa using this
        have hkey : e.1 ≠ [] := hkeys e hmem
        simp only [Bool.and_eq_true, decide_eq_true_eq]
        constructor
        · omega
        · simpa [List.isEmpty_iff] using hkey
      have hfindA : (counter.filter (fun e => decide (e.2 = M))).find?
            (fun e => decide (m ≤ e.2) && !e.1.isEmpty) =
          (counter.filter (fun e => decide (e.2 = M))).head? :=
        find?_eq_head?_of_all _ _ hall
      cases hhead : (counter.filter (fun e => decide (e.2 = M))).head? with
      | none =>
        exact absurd (List.head?_eq_none_iff.mp hhead) hAne
      | some a =>
        rw [hhead] at hfindA
        rw [find?_append_some _ a _ _ hfindA]
        rw [← head?_filter_eq_find?, hhead]
  · rw [if_neg hm]
    have hnone : (counter.filter (fun e => decide (e.2 = M)) ++
        most_common (counter.filter (fun e => decide ¬ e.2 = M))).find?
          (fun e => decide (m ≤ e.2) && !e.1.isEmpty) = none := by
      rw [List.find?_eq_none]
      intro e he
      have hle : e.2 ≤ M := by
        rcases List.mem_append.mp he with h | h
        · exact maxCount_le counter e (List.mem_of_mem_filter h)
        · exact maxCount_le counter e
            (List.mem_of_mem_filter ((mem_most_common e _).mp h))
      simp only [Bool.and_eq_true, decide_eq_true_eq, not_and]
      intro hge
      omega
    rw [hnone]
    rfl

/-- Page with a single block containing a single one-span line of the given
text, at font size 12. -/
def onePage (t : Str) : PageText :=
  PageText.mk [Block.mk [Line.mk [Span.mk t 12 false false]]]

/-- Six pages whose head-line texts are A, B, B, A, B, A. -/
def tiebreakPages : List PageText :=
  [onePage ("A".toList), onePage ("B".toList), onePage ("B".toList),
   onePage ("A".toList), onePage ("B".toList), onePage ("A".toList)]

/-- C4 counterexample: the tie-break is not "first candidate to reach the
leading count".  Over six pages with head texts A, B, B, A, B, A both
candidates end at count 3; B reaches count 3 on page 5 and A only on page 6,
yet the code (Counter.most_common with Python's stable sort and
insertion-ordered keys) selects A, the candidate whose first occurrence is
earliest. -/
theorem detect_repeating_edges_tiebreak_cex :
    (detect_repeating_edges tiebreakPages 3).1 = some ("A".toList) ∧
    spec_first_to_reach (headCandidates tiebreakPages) 3 = some ("B".toList) ∧
    ("A".toList : Str) ≠ "B".toList := by
  refine ⟨?_, ?_, ?_⟩ <;> decide

/-- C4 (amended): header/footer candidate selection is deterministic and, on
a tie at the leading count, picks the candidate whose FIRST OCCURRENCE is
earliest in page-scan order (Counter keys are insertion-ordered and Python's
sort is stable): for every page list and threshold, the detected header and
footer equal the first-inserted counter entry carrying the leading count,
provided that count reaches min_pages. -/
theorem detect_repeating_edges_tiebreak_first_occurrence
    (pages : List PageText) (min_pages : Nat) :
    detect_repeating_edges pages min_pages =
      (select_earliest_max (headCandidates pages) min_pages,
       select_earliest_max (tailCandidates pages) min_pages) := by
  unfold detect_repeating_edges select_earliest_max
  have hkey : ∀ (cands : List Str), (∀ x ∈ cands, x ≠ []) →
      ∀ e ∈ buildCounter cands, e.1 ≠ [] := by
    intro cands hc e he
    rcases buildCounter_keys cands [] e he with ⟨e2, he2, _⟩ | hk
    · cases he2
    · exact hc e.1 hk
  have hhead : ∀ x ∈ headCandidates pages, x ≠ [] := by
    intro x hx
    have := List.of_mem_filter hx
    simpa [List.isEmpty_iff] using this
  have htail : ∀ x ∈ tailCandidates pages, x ≠ [] := by
    intro x hx
    have := List.of_mem_filter hx
    simpa [List.isEmpty_iff] using this
  rw [select_candidate_eq _ min_pages (hkey _ hhead),
      select_candidate_eq _ min_pages (hkey _ htail)]

theorem strip_block_lines_of_none : ∀ lines : List Line,
    (∀ ln ∈ lines, drop_cap_qualifies ln = false) →
    strip_block_lines lines = lines := by
  intro lines
  induction lines with
  | nil => intro _; rfl
  | cons ln rest ih =>
    intro h
    unfold strip_block_lines
    rw [h ln (List.mem_cons_self _ _), ih (fun l2 hl2 => h l2 (List.mem_cons_of_mem _ hl2))]
    simp

theorem strip_block_lines_first_qualifying :
    ∀ (pre : List Line) (ln : Line) (post : List Line),
    (∀ l2 ∈ pre, drop_cap_qualifies l2 = false) → drop_cap_qualifies ln = true →
    strip_block_lines (pre ++ ln :: post) = pre ++ dropFirstSpan ln :: post := by
  intro pre
  induction pre with
  | nil =>
    intro ln post _ hq
    simp only [List.nil_append]
    unfold strip_block_lines
    rw [hq]
    simp
  | cons l2 rest ih =>
    intro ln post hpre hq
    rw [List.cons_append]
    unfold strip_block_lines
    rw [hpre l2 (List.mem_cons_self _ _)]
    simp only [Bool.false_eq_true, if_false]
    rw [ih ln post (fun l3 hl3 => hpre l3 (List.mem_cons_of_mem _ hl3)) hq]
    simp

theorem drop_cap_qualifies_no_positive (ln : Line)
    (h : ∀ sp ∈ ln.spans.tail, sp.size ≤ 0) :
    drop_cap_qualifies ln = false := by
  rcases ln with ⟨spans⟩
  cases spans with
  | nil => rfl
  | cons first rest =>
    simp only [List.tail_cons] at h
    unfold drop_cap_qualifies
    simp only
    split
    · have hfil : ((rest.map Span.size).filter (fun q => decide (0 < q))) = [] := by
        rw [List.filter_eq_nil_iff]
        intro q hq
        rcases List.mem_map.mp hq with ⟨sp, hsp, hval⟩
        have hle := h sp hsp
        simp only [decide_eq_true_eq]
        rw [← hval]
        exact not_lt.mpr hle
      rw [hfil]
      rfl
    · rfl

/-- C5: drop-cap stripping.  (i) strip_drop_caps_in_page rewrites every block
through the line scan; (ii) a block none of whose lines qualifies is returned
unchanged; (iii) in a block the FIRST qualifying line loses exactly its first
span while every other line (before and after) is untouched, so at most one
span is removed per block; (iv) a line whose remaining spans have no positive
size never qualifies; (v) a first span at 1.59 times the median of the
remaining sizes does not trigger, while 1.6 times does.  The qualification
test drop_cap_qualifies is the source condition: single alphabetic trimmed
character, at least one following span, and size at least 1.6 times the
median of the remaining positive sizes. -/
theorem strip_drop_caps_spec :
    (∀ p : PageText, strip_drop_caps_in_page p =
        PageText.mk (p.blocks.map (fun b => Block.mk (strip_block_lines b.lines)))) ∧
    (∀ lines : List Line, (∀ ln ∈ lines, drop_cap_qualifies ln = false) →
        strip_block_lines lines = lines) ∧
    (∀ (pre : List Line) (ln : Line) (post : List Line),
        (∀ l2 ∈ pre, drop_cap_qualifies l2 = false) → drop_cap_qualifies ln = true →
        strip_block_lines (pre ++ ln :: post) = pre ++ dropFirstSpan ln :: post) ∧
    (∀ ln : Line, (∀ sp ∈ ln.spans.tail, sp.size ≤ 0) →
        drop_cap_qualifies ln = false) ∧
    drop_cap_qualifies (Line.mk [Span.mk ['W'] (Rat.divInt 159 10) false false,
        Span.mk "orld".toList 10 false false]) = false ∧
    drop_cap_qualifies (Line.mk [Span.mk ['W'] 16 false false,
        Span.mk "orld".toList 10 false false]) = true := by
  refine ⟨fun p => rfl, strip_block_lines_of_none, ?_, drop_cap_qualifies_no_positive, by decide, by decide⟩
  intro pre ln post h1 h2
  exact strip_block_lines_first_qualifying pre ln post h1 h2

/-- Witness for C5: the drop-cap theorem applied to a concrete block whose
single line carries an oversized one-letter first span. -/
theorem strip_drop_caps_spec_witness :
    strip_block_lines [Line.mk [Span.mk ['W'] 16 false false,
        Span.mk "orld".toList 10 false false]] =
      [Line.mk [Span.mk "orld".toList 10 false false]] := by
  have h := strip_drop_caps_spec
  have happ := h.2.2.1 [] (Line.mk [Span.mk ['W'] 16 false false,
      Span.mk "orld".toList 10 false false]) []
    (by intro l2 hl2; cases hl2) h.2.2.2.2.2
  simpa [dropFirstSpan] using happ

theorem countOf_nil (k : Str) : countOf [] k = 0 := rfl

theorem countOf_bump_self (k : Str) : ∀ acc, countOf (bump acc k) k = countOf acc k + 1 := by
  intro acc
  induction acc with
  | nil => simp [bump, countOf]
  | cons y ys ih =>
    by_cases hk : y.1 = k
    · simp [bump, hk, countOf, List.find?_cons]
    · unfold bump
      rw [if_neg hk]
      unfold countOf at ih ⊢
      rw [List.find?_cons, List.find?_cons]
      have hd : (decide (y.1 = k)) = false := by simpa using hk
      rw [hd]
      exact ih

theorem countOf_bump_other (k x : Str) (hkx : k ≠ x) :
    ∀ acc, countOf (bump acc x) k = countOf acc k := by
  intro acc
  induction acc with
  | nil =>
    simp only [bump, countOf, List.find?_cons, List.find?_nil]
    have hd : (decide (x = k)) = false := by simpa using (Ne.symm hkx)
    rw [hd]
  | cons y ys ih =>
    by_cases hx : y.1 = x
    · unfold bump
      rw [if_pos hx]
      unfold countOf
      rw [List.find?_cons, List.find?_cons]
      have hd : (decide (y.1 = k)) = false := by
        simp only [decide_eq_false_iff_not]
        rw [hx]
        exact Ne.symm hkx
      rw [hd]
    · unfold bump
      rw [if_neg hx]
      unfold countOf at ih ⊢
      rw [List.find?_cons, List.find?_cons]
      cases hd : (decide (y.1 = k)) with
      | true => rfl
      | false => exact ih

theorem countOf_foldl_bump (k : Str) : ∀ (l : List Str) (acc : List (Str × Nat)),
    countOf (l.foldl bump acc) k = countOf acc k + l.count k := by
  intro l
  induction l with
  | nil => intro acc; simp [List.count_nil]
  | cons x xs ih =>
    intro acc
    rw [List.foldl_cons, ih (bump acc x)]
    by_cases hk : x = k
    · subst hk
      rw [countOf_bump_self]
      rw [List.count_cons_self]
      omega
    · rw [countOf_bump_other k x (Ne.symm hk)]
      rw [List.count_cons_of_ne (Ne.symm hk)]

/-- The built counter records the number of occurrences of each candidate. -/
theorem countOf_buildCounter (l : List Str) (k : Str) :
    countOf (buildCounter l) k = l.count k := by
  unfold buildCounter
  rw [countOf_foldl_bump k l []]
  simp [countOf]

theorem keys_bump (x : Str) : ∀ acc, (bump acc x).map Prod.fst =
    (if x ∈ acc.map Prod.fst then acc.map Prod.fst else acc.map Prod.fst ++ [x]) := by
  intro acc
  induction acc with
  | nil => simp [bump]
  | cons y ys ih =>
    by_cases hx : y.1 = x
    · subst hx
      simp [bump]
    · unfold bump
      rw [if_neg hx]
      simp only [List.map_cons, ih]
      by_cases hmem : x ∈ ys.map Prod.fst
      · rw [if_pos hmem, if_pos (List.mem_cons_of_mem _ hmem)]
      · rw [if_neg hmem, if_neg (by
          intro hc
          rcases List.mem_cons.mp hc with hc | hc
          · exact hx hc.symm
          · exact hmem hc)]
        simp

theorem nodup_keys_bump (x : Str) (acc : List (Str × Nat))
    (h : (acc.map Prod.fst).Nodup) : ((bump acc x).map Prod.fst).Nodup := by
  rw [keys_bump]
  by_cases hmem : x ∈ acc.map Prod.fst
  · rw [if_pos hmem]; exact h
  · rw [if_neg hmem]
    rw [List.nodup_append]
    exact ⟨h, List.nodup_singleton x, by simpa using hmem⟩

theorem nodup_keys_buildCounter (l : List Str) :
    ((buildCounter l).map Prod.fst).Nodup := by
  unfold buildCounter
  have key : ∀ (l2 : List Str) (acc : List (Str × Nat)),
      (acc.map Prod.fst).Nodup → ((l2.foldl bump acc).map Prod.fst).Nodup := by
    intro l2
    induction l2 with
    | nil => intro acc h; exact h
    | cons x xs ih => intro acc h; exact ih (bump acc x) (nodup_keys_bump x acc h)
  exact key l [] List.nodup_nil

/-- In a counter with distinct keys, membership determines the lookup. -/
theorem countOf_of_mem_nodup : ∀ (counter : List (Str × Nat)),
    (counter.map Prod.fst).Nodup → ∀ e ∈ counter, countOf counter e.1 = e.2 := by
  intro counter
  induction counter with
  | nil => intro _ e he; cases he
  | cons y ys ih =>
    intro hnd e he
    have hnd2 : (ys.map Prod.fst).Nodup := (List.nodup_cons.mp (by simpa using hnd)).2
    have hy : y.1 ∉ ys.map Prod.fst := (List.nodup_cons.mp (by simpa using hnd)).1
    rcases List.mem_cons.mp he with he | he
    · subst he
      unfold countOf
      rw [List.find?_cons]
      simp
    · have hne : (decide (y.1 = e.1)) = false := by
        simp only [decide_eq_false_iff_not]
        intro hc
        exact hy (hc ▸ List.mem_map_of_mem Prod.fst he)
      unfold countOf at ih ⊢
      rw [List.find?_cons, hne]
      exact ih hnd2 e he

/-- Candidate selection succeeds only with a non-empty text counted on at
least min_pages pages. -/
theorem select_candidate_bound (cands : List Str) (m : Nat) (h : Str)
    (hsel : select_candidate (most_common (buildCounter cands)) m = some h) :
    h ≠ [] ∧ m ≤ cands.count h := by
  unfold select_candidate at hsel
  cases hfind : (most_common (buildCounter cands)).find?
      (fun e => decide (m ≤ e.2) && !e.1.isEmpty) with
  | none => rw [hfind] at hsel; cases hsel
  | some e =>
    rw [hfind] at hsel
    have hhe : e.1 = h := by
      simpa using hsel
    have hpred := List.find?_some hfind
    have hmem : e ∈ buildCounter cands :=
      (mem_most_common e _).mp (List.mem_of_find?_eq_some hfind)
    simp only [Bool.and_eq_true, decide_eq_true_eq] at hpred
    have hcount : countOf (buildCounter cands) e.1 = e.2 :=
      countOf_of_mem_nodup _ (nodup_keys_buildCounter cands) e hmem
    rw [countOf_buildCounter] at hcount
    constructor
    · rw [← hhe]
      simpa [List.isEmpty_iff] using hpred.2
    · rw [← hhe, hcount]
      exact hpred.1

/-- Lines surviving the removal pass never carry the detected header or
footer text. -/
theorem remove_header_footer_complete (pages : List PageText)
    (header footer : Option Str) :
    ∀ p2 ∈ remove_header_footer pages header footer, ∀ b ∈ p2.blocks,
      ∀ ln ∈ b.lines, matchesDetected header (line_text ln) = false ∧
        matchesDetected footer (line_text ln) = false := by
  intro p2 hp2 b hb ln hln
  rcases List.mem_map.mp hp2 with ⟨p0, _, hp0⟩
  subst hp0
  unfold remove_hf_page at hb
  simp only at hb
  rcases List.mem_filterMap.mp hb with ⟨be, _, hbe⟩
  by_cases hnil : (be.2.lines.enum.filter (fun le =>
      !(matchesDetected header (line_text le.2)) &&
      !(matchesDetected footer (line_text le.2)) &&
      !(decide (be.1 = p0.blocks.length - 1 ∧ 1 ≤ p0.blocks.length) &&
        decide (be.2.lines.length - 3 ≤ le.1) &&
        transform_is_footer_noise (line_text le.2)))).isEmpty
  · rw [if_pos hnil] at hbe; cases hbe
  · rw [if_neg hnil] at hbe
    obtain rfl := Option.some.inj hbe
    rcases List.mem_map.mp hln with ⟨le, hle, hle2⟩
    have hpred := List.of_mem_filter hle
    simp only [Bool.and_eq_true, Bool.not_eq_true'] at hpred
    rw [← hle2]
    exact ⟨hpred.1.1, hpred.1.2⟩

/-- C6: header/footer removal thresholds and completeness.  (i) A detected
header (resp. footer) is non-empty and occurs as the first (resp. last)
non-blank line text of at least min_pages pages; (ii) with the default
min_pages = 3, a candidate counted on exactly 2 pages is never selected for
removal; (iii) once a header or footer string is detected, every line whose
joined text equals it is deleted wherever it occurs. -/
theorem header_footer_removal_spec :
    (∀ (pages : List PageText) (m : Nat) (h : Str),
        (detect_repeating_edges pages m).1 = some h →
        h ≠ [] ∧ m ≤ (pages.map first_nonblank_line_text).count h) ∧
    (∀ (pages : List PageText) (m : Nat) (f : Str),
        (detect_repeating_edges pages m).2 = some f →
        f ≠ [] ∧ m ≤ (pages.map last_nonblank_line_text).count f) ∧
    (∀ (pages : List PageText) (x : Str),
        (pages.map first_nonblank_line_text).count x = 2 →
        (detect_repeating_edges pages 3).1 ≠ some x) ∧
    (∀ (pages : List PageText) (x : Str),
        (pages.map last_nonblank_line_text).count x = 2 →
        (detect_repeating_edges pages 3).2 ≠ some x) ∧
    (∀ (pages : List PageText) (hh : Str) (footer : Option Str),
        hh ≠ [] → ∀ p2 ∈ remove_header_footer pages (some hh) footer,
        ∀ b ∈ p2.blocks, ∀ ln ∈ b.lines, line_text ln ≠ hh) ∧
    (∀ (pages : List PageText) (ff : Str) (header : Option Str),
        ff ≠ [] → ∀ p2 ∈ remove_header_footer pages header (some ff),
        ∀ b ∈ p2.blocks, ∀ ln ∈ b.lines, line_text ln ≠ ff) := by
  have hhead : ∀ (pages : List PageText) (m : Nat) (h : Str),
      (detect_repeating_edges pages m).1 = some h →
      h ≠ [] ∧ m ≤ (pages.map first_nonblank_line_text).count h := by
    intro pages m h hsel
    unfold detect_repeating_edges at hsel
    simp only at hsel
    have hb := select_candidate_bound (headCandidates pages) m h hsel
    refine ⟨hb.1, le_trans hb.2 ?_⟩
    unfold headCandidates
    exact (List.filter_sublist _).count_le _
  have htail : ∀ (pages : List PageText) (m : Nat) (f : Str),
      (detect_repeating_edges pages m).2 = some f →
      f ≠ [] ∧ m ≤ (pages.map last_nonblank_line_text).count f := by
    intro pages m f hsel
    unfold detect_repeating_edges at hsel
    simp only at hsel
    have hb := select_candidate_bound (tailCandidates pages) m f hsel
    refine ⟨hb.1, le_trans hb.2 ?_⟩
    unfold tailCandidates
    exact (List.filter_sublist _).count_le _
  refine ⟨hhead, htail, ?_, ?_, ?_, ?_⟩
  · intro pages x hc hsel
    have := (hhead pages 3 x hsel).2
    omega
  · intro pages x hc hsel
    have := (htail pages 3 x hsel).2
    omega
  · intro pages hh footer hne p2 hp2 b hb ln hln
    have hm := (remove_header_footer_complete pages (some hh) footer p2 hp2 b hb ln hln).1
    intro hc
    unfold matchesDetected at hm
    rw [hc] at hm
    simp [List.isEmpty_iff, hne] at hm
  · intro pages ff header hne p2 hp2 b hb ln hln
    have hm := (remove_header_footer_complete pages header (some ff) p2 hp2 b hb ln hln).2
    intro hc
    unfold matchesDetected at hm
    rw [hc] at hm
    simp [List.isEmpty_iff, hne] at hm

/-- Witness for C6: the removal theorem applied to three concrete pages whose
repeated head line "Company Confidential" is detected and removed. -/
theorem header_footer_removal_spec_witness :
    (detect_repeating_edges [onePage ("Company Confidential".toList),
        onePage ("Company Confidential".toList),
        onePage ("Company Confidential".toList)] 3).1 =
      some ("Company Confidential".toList) ∧
    ("Company Confidential".toList ≠ ([] : Str)) ∧
    3 ≤ ([onePage ("Company Confidential".toList),
        onePage ("Company Confidential".toList),
        onePage ("Company Confidential".toList)].map
          first_nonblank_line_text).count ("Company Confidential".toList) := by
  have hdet : (detect_repeating_edges [onePage ("Company Confidential".toList),
      onePage ("Company Confidential".toList),
      onePage ("Company Confidential".toList)] 3).1 =
      some ("Company Confidential".toList) := by decide
  have hb := header_footer_removal_spec.1 _ 3 _ hdet
  exact ⟨hdet, hb.1, hb.2⟩

/-- Markdown-significant characters escaped by the escape utility (the grave
accent is written by code point to keep the source plain). -/
def mdSpecialChars : List Char := ['\\', Char.ofNat 96, '*', '_', '#', '[', ']']

/-- Modelled from the spec: utils.escape_markdown (absent from src/), the
black-box "character escaping for the output format": each Markdown
significant character is preceded by a backslash, all other characters pass
through. -/
def escape_markdown (s : Str) : Str :=
  (s.map (fun c => if c ∈ mdSpecialChars then ['\\', c] else [c])).flatten

/-- Modelled from the spec: utils.normalize_punctuation (absent from src/),
consumed as a pure black-box string function; modelled as the identity. -/
def normalize_punctuation (s : Str) : Str := s

/-- Modelled from the spec: utils.linkify_urls (absent from src/), consumed
as a pure black-box string function; modelled as the identity. -/
def linkify_urls (s : Str) : Str := s

/-- Embedding of render._wrap_inline. -/
def wrap_inline (text : Str) (bold italic : Bool) : Str :=
  if (pyStrip text).isEmpty then text
  else if bold && italic then "***".toList ++ text ++ "***".toList
  else if bold then "**".toList ++ text ++ "**".toList
  else if italic then "*".toList ++ text ++ "*".toList
  else text

/-- Does the line end with two space characters (Markdown hard break)? -/
def endsTwoSpaces (l : Str) : Bool :=
  match l.reverse with
  | ' ' :: ' ' :: _ => true
  | _ => false

/-- Appends the flushed paragraph buffer (space-joined and stripped) to the
output, as the inner flush() of render._unwrap_hard_breaks. -/
def flushBuf (out : List Str) (buf : List Str) : List Str :=
  if buf.isEmpty then out else out ++ [pyStrip (List.intercalate [' '] buf)]

/-- Loop of render._unwrap_hard_breaks over the input lines. -/
def unwrapAux : List Str → List Str → List Str → List Str
  | out, buf, [] => flushBuf out buf
  | out, buf, raw :: rest =>
      let line := pyRstripNl raw
      if (pyStrip line).isEmpty then unwrapAux (flushBuf out buf ++ [[]]) [] rest
      else if endsTwoSpaces line then unwrapAux (flushBuf out (buf ++ [pyRstrip line])) [] rest
      else unwrapAux out (buf ++ [pyStrip line]) rest

/-- Embedding of render._unwrap_hard_breaks. -/
def unwrap_hard_breaks (lines : List Str) : Str :=
  List.intercalate ['\n'] (unwrapAux [] [] lines)

/-- Line-boundary characters recognised by Python str.splitlines (besides
the \r\n pair, handled separately). -/
def lineBoundaryChars : List Char :=
  ['\n', '\r', '\x0b', '\x0c', '\x1c', '\x1d', '\x1e', '\x85', ' ', ' ']

/-- Worker for the model of Python str.splitlines: cur holds the current
line reversed; afterCR records that the previous character was a carriage
return, so that a directly following newline closes no extra line (the \r\n
pair is one boundary). -/
def pySplitlinesAux (afterCR : Bool) (cur : Str) : Str → List Str
  | [] => if cur.isEmpty then [] else [cur.reverse]
  | c :: rest =>
      if c = '\r' then cur.reverse :: pySplitlinesAux true [] rest
      else if c = '\n' then
        (if afterCR then pySplitlinesAux false cur rest
         else cur.reverse :: pySplitlinesAux false [] rest)
      else if c ∈ lineBoundaryChars then cur.reverse :: pySplitlinesAux false [] rest
      else pySplitlinesAux false (c :: cur) rest

/-- Model of Python str.splitlines(): split at line boundaries, boundaries
dropped, no trailing empty line for a string ending in a boundary. -/
def pySplitlines (s : Str) : List Str := pySplitlinesAux false [] s

/-- Attaches an orphan line to the nearest preceding non-blank line of the
(reversed) output, as res[j] = (res[j].rstrip() + " " + line.strip()).strip()
in render._defragment_orphans; none when every preceding line is blank. -/
def attachOrphan (x : Str) : List Str → Option (List Str)
  | [] => none
  | r :: rs =>
      if (pyStrip r).isEmpty then (attachOrphan x rs).map (fun rs2 => r :: rs2)
      else some (pyStrip (pyRstrip r ++ ' ' :: pyStrip x) :: rs)

/-- Loop of render._defragment_orphans: revRes is the output so far
(reversed), prev is the previous original line (the Python lines[i-1]); when
skip is set the head of the remaining list is the blank line consumed
together with the orphan just attached (the Python i += 2), so it is dropped
and only becomes the new previous line. -/
def defragAux (maxLen : Nat) : List Str → Option Str → Bool → List Str → List Str
  | revRes, _, _, [] => revRes.reverse
  | revRes, _, true, y :: rest => defragAux maxLen revRes (some y) false rest
  | revRes, prev, false, x :: rest =>
      let strx := pyStrip x
      let isOrph :=
        (match prev with | some p => (pyStrip p).isEmpty | none => false) &&
        (match rest with | y :: _ => (pyStrip y).isEmpty | [] => false) &&
        decide (0 < strx.length) && decide (strx.length ≤ maxLen) &&
        !(strx.head? = some '#')
      if isOrph then
        match attachOrphan x revRes with
        | some revRes2 => defragAux maxLen revRes2 prev true rest
        | none => defragAux maxLen (x :: revRes) (some x) false rest
      else defragAux maxLen (x :: revRes) (some x) false rest

/-- Embedding of render._defragment_orphans. -/
def defragment_orphans (md : Str) (maxLen : Nat) : Str :=
  List.intercalate ['\n'] (defragAux maxLen [] none false (pySplitlines md))

/-- Loop of render._safe_join_texts: acc is the accumulated string. -/
def safeJoinAux : Str → List Str → Str
  | acc, [] => acc
  | acc, t :: ts =>
      if t.isEmpty then safeJoinAux acc ts
      else
        let needSpace := match acc.getLast?, t.head? with
          | some pl, some cf =>
              !isPySpace pl && !isPySpace cf && isPyAlnum pl && isPyAlnum cf
          | _, _ => false
        if needSpace then safeJoinAux (acc ++ ' ' :: t) ts
        else safeJoinAux (acc ++ t) ts

/-- Embedding of render._safe_join_texts. -/
def safe_join_texts (parts : List Str) : Str :=
  match parts with
  | [] => []
  | p0 :: rest => safeJoinAux p0 rest

/-- Embedding of render._is_footer_noise (the render-time net): the stripped
line fully consists of dashes, whitespace, dots and digits, with at least two
dash characters. -/
def render_is_footer_noise (line : Str) : Bool :=
  let s := pyStrip line
  if s.isEmpty then false
  else if s.all (fun c => c = '-' || isPySpace c || c = '.' || isPyDigit c) then
    decide (2 ≤ s.count '-')
  else false

/-- Embedding of render._normalize_list_line. -/
def punctThenSpace (l : Str) : Bool :=
  match l with
  | p :: r2 => (p = '.' || p = ')') &&
      (match r2 with | w :: _ => isPySpace w | [] => false)
  | [] => false

def normalize_list_line (ln : Str) : Str :=
  let s := pyLstrip ln
  match s with
  | c :: rest =>
      if decide (c ∈ bulletGlyphs) &&
          (match rest with | w :: _ => isPySpace w | [] => false) then
        "- ".toList ++ rest.dropWhile isPySpace
      else
        let digits := s.takeWhile isPyDigit
        let afterDigits := s.dropWhile isPyDigit
        if !digits.isEmpty && punctThenSpace afterDigits then
          digits ++ '.' :: ' ' :: (afterDigits.tail.dropWhile isPySpace)
        else if isPyAlpha c && punctThenSpace rest then
          "- ".toList ++ rest.tail.dropWhile isPySpace
        else pyStrip ln
  | [] => pyStrip ln

/-- Collapses every whitespace run to a single space character, the global
substitution re.sub(r"\s+", " ", text) used for heading text. -/
def collapseWsAux : Bool → Str → Str
  | _, [] => []
  | inWs, c :: rest =>
      if isPySpace c then
        (if inWs then collapseWsAux true rest else ' ' :: collapseWsAux true rest)
      else c :: collapseWsAux false rest

def collapseWs (s : Str) : Str := collapseWsAux false s

/-- Characters stripped from heading-text edges by .strip(" -:–—"). -/
def headingStripChars : List Char := [' ', '-', ':', '–', '—']

/-- Model of Python str.strip(" -:–—"). -/
def stripEdge (s : Str) : Str :=
  ((s.dropWhile (fun c => c ∈ headingStripChars)).reverse.dropWhile
    (fun c => c ∈ headingStripChars)).reverse

/-- Rendered (escaped and styled) text of one line. -/
def line_fmt (ln : Line) : Str :=
  safe_join_texts (ln.spans.map (fun sp =>
    wrap_inline (escape_markdown sp.text) sp.bold sp.italic))

/-- Raw (unstyled) text of one line. -/
def line_raw (ln : Line) : Str :=
  safe_join_texts (ln.spans.map Span.text)

/-- Sizes collected for one line by render._block_to_lines: every span size
that is non-zero (Python float truthiness). -/
def line_sizes_r (ln : Line) : List ℚ :=
  (ln.spans.map Span.size).filter (fun q => !(decide (q = 0)))

/-- Per-line entries of render._block_to_lines: the rendered text, the raw
text, and the collected sizes, for every line whose rendered text is not
blank. -/
def block_entries (blk : Block) : List (Str × Str × List ℚ) :=
  blk.lines.filterMap (fun ln =>
    let fmt := line_fmt ln
    if (pyStrip fmt).isEmpty then none else some (fmt, line_raw ln, line_sizes_r ln))

/-- Per-line size medians of render._block_to_lines (only lines that carry
sizes contribute). -/
def block_line_sizes (blk : Block) : List ℚ :=
  (block_entries blk).filterMap (fun e =>
    if e.2.2.isEmpty then none else some (pyMedian e.2.2))

/-- Representative block size: median of the per-line medians, body size
when no line has sizing data. -/
def block_avg_size (blk : Block) (body_size : ℚ) : ℚ :=
  if (block_line_sizes blk).isEmpty then body_size else pyMedian (block_line_sizes blk)

/-- Flattened raw text of the block used by the caps heuristics. -/
def block_text_flat (blk : Block) : Str :=
  pyStrip (List.intercalate [' '] ((block_entries blk).map (fun e => e.2.1)))

/-- Caps trigger of render._block_to_lines. -/
def block_heading_by_caps (blk : Block) (caps_to_headings : Bool) : Bool :=
  caps_to_headings &&
    (is_all_caps_line (block_text_flat blk) || is_mostly_caps (block_text_flat blk))

/-- Size trigger of render._block_to_lines. -/
def block_heading_by_size (blk : Block) (body_size factor : ℚ) : Bool :=
  decide (qmul body_size factor ≤ block_avg_size blk body_size)

/-- Heading level of render._block_to_lines: none when the block stays a
paragraph, some 1 / some 2 for the two heading levels. -/
def block_heading_level (blk : Block) (body_size : ℚ) (caps_to_headings : Bool)
    (factor : ℚ) : Option Nat :=
  if block_heading_by_size blk body_size factor ||
      block_heading_by_caps blk caps_to_headings then
    some (if decide (qmul body_size (Rat.divInt 8 5) ≤ block_avg_size blk body_size) ||
        block_heading_by_caps blk caps_to_headings then 1 else 2)
  else none

/-- Paragraph-side line filtering of render._block_to_lines: blank lines
kept as separators, footer noise dropped, other lines list-normalised. -/
def para_filter_lines (t : Str) : List Str :=
  (pySplitlines t).foldr (fun ln acc =>
    if (pyStrip ln).isEmpty then [] :: acc
    else if render_is_footer_noise ln then acc
    else normalize_list_line ln :: acc) []

/-- Paragraph assembly applied to a list of rendered lines. -/
def para_of_rendered (rendered : List Str) : Str :=
  linkify_urls (normalize_punctuation (unwrap_hard_breaks
    (para_filter_lines (fix_hyphenation (List.intercalate ['\n'] rendered)))))

/-- Heading line text of render._block_to_lines. -/
def block_heading_line (blk : Block) (level : Nat) : Str :=
  List.replicate level '#' ++ ' ' ::
    normalize_punctuation (stripEdge (collapseWs
      (escape_markdown (((block_entries blk).map (fun e => e.2.1)).headD []))))

/-- Embedding of render._block_to_lines. -/
def block_to_lines (blk : Block) (body_size : ℚ) (caps_to_headings : Bool)
    (factor : ℚ) : List Str :=
  let entries := block_entries blk
  if entries.isEmpty then []
  else
    match block_heading_level blk body_size caps_to_headings factor with
    | some level =>
        let heading_line := block_heading_line blk level
        if entries.length = 1 then [heading_line, []]
        else
          let para := para_of_rendered ((entries.map (fun e => e.1)).tail)
          if (pyStrip para).isEmpty then [heading_line, []]
          else [heading_line, [], para, []]
    | none => [para_of_rendered (entries.map (fun e => e.1)), []]

/-- Body-size baseline for page i as looked up by render.render_document
(line 373): body_sizes[i] when present, else the fallback 11.0 (an empty or
missing list is falsy in Python, which coincides with the out-of-range
default). -/
def bodyFor (body_sizes : Option (List ℚ)) (i : Nat) : ℚ :=
  match body_sizes with
  | none => 11
  | some l => l.getD i 11

/-- Markdown lines contributed by one page (empty blocks skipped). -/
def page_md_lines (p : PageText) (body : ℚ) (caps_to_headings : Bool)
    (factor : ℚ) : List Str :=
  p.blocks.foldr (fun blk acc =>
    if blk.is_empty then acc
    else block_to_lines blk body caps_to_headings factor ++ acc) []

/-- Page loop of render.render_document: contributions of the pages in
order, with the "---" page rule and a blank line after every page but the
last when insert_page_breaks is set. -/
def renderPagesAux (options : Options) (body_sizes : Option (List ℚ))
    (total : Nat) : Nat → List PageText → List Str
  | _, [] => []
  | i, p :: rest =>
      page_md_lines p (bodyFor body_sizes i) options.caps_to_headings
          options.headingSizeFactor ++
        (if options.insert_page_breaks && decide (i < total - 1)
         then [['-', '-', '-'], []] else []) ++
        renderPagesAux options body_sizes total (i + 1) rest

/-- Collapse of runs of 3 or more newlines to exactly two, the substitution
re.sub(r"\n{3,}", "\n\n", md): k counts the newlines of the current run
already seen, only the first two are kept. -/
def capNlAux : Nat → Str → Str
  | _, [] => []
  | k, c :: rest =>
      if c = '\n' then
        (if k < 2 then '\n' :: capNlAux (k + 1) rest else capNlAux (k + 1) rest)
      else c :: capNlAux 0 rest

def collapse_blank_runs (s : Str) : Str := capNlAux 0 s

/-- Suffixes reachable by the greedy-first alternatives of a regex \s* item,
in engine preference order (most characters consumed first). -/
def wsAlts : Str → List Str
  | [] => [[]]
  | c :: rest => if isPySpace c then wsAlts rest ++ [c :: rest] else [c :: rest]

/-- Suffixes reachable by a regex -+ item, greedy first; empty when the
input does not start with a dash. -/
def dashAlts : Str → List Str
  | [] => []
  | c :: rest => if c = '-' then dashAlts rest ++ [rest] else []

/-- Suffixes reachable by a regex \d* item, greedy first. -/
def digitAlts : Str → List Str
  | [] => [[]]
  | c :: rest => if isPyDigit c then digitAlts rest ++ [c :: rest] else [c :: rest]

/-- End-of-line position as matched by "$" under re.MULTILINE: the end of
the string or a position directly before a newline. -/
def atEol (g : Str) : Bool := g.isEmpty || g.head? = some '\n'

/-- Backtracking match of the trailing-artifact pattern
"\s*-+\s*-+\s*\d*\s*$" at the start of the given suffix, following the
Python engine preference order; returns the suffix after the match. -/
def matchArtifact (l : Str) : Option Str :=
  (wsAlts l).findSome? fun a =>
    (dashAlts a).findSome? fun b =>
      (wsAlts b).findSome? fun c =>
        (dashAlts c).findSome? fun d =>
          (wsAlts d).findSome? fun e =>
            (digitAlts e).findSome? fun f =>
              (wsAlts f).findSome? fun g =>
                if atEol g then some g else none

theorem length_wsAlts : ∀ (l : Str), ∀ x ∈ wsAlts l, x.length ≤ l.length := by
  intro l
  induction l with
  | nil => intro x hx; simp only [wsAlts, List.mem_singleton] at hx; simp [hx]
  | cons c rest ih =>
    intro x hx
    unfold wsAlts at hx
    by_cases hc : isPySpace c
    · rw [if_pos hc] at hx
      rcases List.mem_append.mp hx with hx | hx
      · calc x.length ≤ rest.length := ih x hx
          _ ≤ (c :: rest).length := by simp
      · simp only [List.mem_singleton] at hx; simp [hx]
    · rw [if_neg hc] at hx
      simp only [List.mem_singleton] at hx; simp [hx]

theorem length_dashAlts : ∀ (l : Str), ∀ x ∈ dashAlts l, x.length < l.length := by
  intro l
  induction l with
  | nil => intro x hx; cases hx
  | cons c rest ih =>
    intro x hx
    unfold dashAlts at hx
    by_cases hc : c = '-'
    · rw [if_pos hc] at hx
      rcases List.mem_append.mp hx with hx | hx
      · calc x.length < rest.length := ih x hx
          _ < (c :: rest).length := by simp
      · simp only [List.mem_singleton] at hx
        simp [hx]
    · rw [if_neg hc] at hx
      cases hx

theorem length_digitAlts : ∀ (l : Str), ∀ x ∈ digitAlts l, x.length ≤ l.length := by
  intro l
  induction l with
  | nil => intro x hx; simp only [digitAlts, List.mem_singleton] at hx; simp [hx]
  | cons c rest ih =>
    intro x hx
    unfold digitAlts at hx
    by_cases hc : isPyDigit c
    · rw [if_pos hc] at hx
      rcases List.mem_append.mp hx with hx | hx
      · calc x.length ≤ rest.length := ih x hx
          _ ≤ (c :: rest).length := by simp
      · simp only [List.mem_singleton] at hx; simp [hx]
    · rw [if_neg hc] at hx
      simp only [List.mem_singleton] at hx; simp [hx]

theorem findSome?_prop {α β : Type} (f : α → Option β) (P : β → Prop) :
    ∀ (l : List α), (∀ a ∈ l, ∀ b, f a = some b → P b) →
    ∀ b, l.findSome? f = some b → P b := by
  intro l
  induction l with
  | nil => intro _ b hb; cases hb
  | cons x xs ih =>
    intro hall b hb
    rw [List.findSome?_cons] at hb
    cases hf : f x with
    | some v =>
      rw [hf] at hb
      have : v = b := by simpa using hb
      exact this ▸ hall x (List.mem_cons_self _ _) v hf
    | none =>
      rw [hf] at hb
      exact ih (fun a ha => hall a (List.mem_cons_of_mem _ ha)) b hb

/-- A successful match of the trailing-artifact pattern consumes at least
one character (its two dash items are non-empty). -/
theorem matchArtifact_length (l : Str) (k : Str) (h : matchArtifact l = some k) :
    k.length < l.length := by
  unfold matchArtifact at h
  refine findSome?_prop _ (fun k2 => k2.length < l.length) _ ?_ k h
  intro a ha k2 h2
  have hal := length_wsAlts l a ha
  refine findSome?_prop _ (fun k3 => k3.length < l.length) _ ?_ k2 h2
  intro b hb k3 h3
  have hbl := length_dashAlts a b hb
  refine findSome?_prop _ (fun k4 => k4.length < l.length) _ ?_ k3 h3
  intro c hc k4 h4
  have hcl := length_wsAlts b c hc
  refine findSome?_prop _ (fun k5 => k5.length < l.length) _ ?_ k4 h4
  intro d hd k5 h5
  have hdl := length_dashAlts c d hd
  refine findSome?_prop _ (fun k6 => k6.length < l.length) _ ?_ k5 h5
  intro e he k6 h6
  have hel := length_wsAlts d e he
  refine findSome?_prop _ (fun k7 => k7.length < l.length) _ ?_ k6 h6
  intro f hf k7 h7
  have hfl := length_digitAlts e f hf
  refine findSome?_prop _ (fun k8 => k8.length < l.length) _ ?_ k7 h7
  intro g hg k8 h8
  have hgl := length_wsAlts f g hg
  have hk8 : g = k8 := by
    by_cases hae : atEol g
    · rw [if_pos hae] at h8; simpa using h8
    · rw [if_neg hae] at h8; cases h8
  subst hk8
  omega

/-- Scan of re.sub(r"\s*-+\s*-+\s*\d*\s*$", "", md, flags=re.MULTILINE):
left to right, a match is deleted and the scan resumes after it.  The fuel
only bounds the recursion so that it is structural (every step consumes at
least one character, see matchArtifact_length, so a fuel of the string
length never runs out; stripArtifactsAux_eq below proves the fuel
irrelevant). -/
def stripArtifactsAux : Nat → Str → Str
  | 0, l => l
  | _, [] => []
  | fuel + 1, c :: rest =>
      match matchArtifact (c :: rest) with
      | some k => stripArtifactsAux fuel k
      | none => c :: stripArtifactsAux fuel rest

def strip_artifacts (s : Str) : Str := stripArtifactsAux s.length s

/-- With enough fuel, the artifact scan does not depend on the exact fuel. -/
theorem stripArtifactsAux_eq : ∀ (f1 : Nat), ∀ (l : Str), l.length ≤ f1 →
    ∀ (f2 : Nat), l.length ≤ f2 → stripArtifactsAux f1 l = stripArtifactsAux f2 l := by
  intro f1
  induction f1 with
  | zero =>
    intro l hl f2 _
    have : l = [] := List.length_eq_zero.mp (Nat.le_zero.mp hl)
    subst this
    cases f2 <;> rfl
  | succ f ih =>
    intro l hl f2 hl2
    cases l with
    | nil => cases f2 <;> rfl
    | cons c rest =>
      cases f2 with
      | zero => simp at hl2
      | succ f3 =>
        show (match matchArtifact (c :: rest) with
          | some k => stripArtifactsAux f k
          | none => c :: stripArtifactsAux f rest) =
          (match matchArtifact (c :: rest) with
          | some k => stripArtifactsAux f3 k
          | none => c :: stripArtifactsAux f3 rest)
        cases hm : matchArtifact (c :: rest) with
        | some k =>
          have hk := matchArtifact_length _ _ hm
          simp only [List.length_cons] at hl hl2 hk
          have hrec := ih k (by omega) f3 (by omega)
          simpa using hrec
        | none =>
          simp only [List.length_cons] at hl hl2
          have hrec := ih rest (by omega) f3 (by omega)
          simpa using hrec

/-- Punctuation characters tightened by re.sub(r"\s+([,.;:?!])", r"\1"). -/
def tightPunctChars : List Char := [',', '.', ';', ':', '?', '!']

/-- Scan of the punctuation-tightening substitution: pend holds (reversed)
pending whitespace, which is dropped when a tight punctuation character
follows directly and emitted otherwise. -/
def punctTightenAux : Str → Str → Str
  | pend, [] => pend.reverse
  | pend, c :: rest =>
      if isPySpace c then punctTightenAux (c :: pend) rest
      else if c ∈ tightPunctChars then c :: punctTightenAux [] rest
      else pend.reverse ++ c :: punctTightenAux [] rest

def tighten_punctuation (s : Str) : Str := punctTightenAux [] s

/-- Embedding of render.render_document (the progress callback is a
side-effect-only parameter and is omitted). -/
def render_document (pages : List PageText) (options : Options)
    (body_sizes : Option (List ℚ)) : Str :=
  let md1 := List.intercalate ['\n']
    (renderPagesAux options body_sizes pages.length 0 pages)
  let md2 := pyStrip (collapse_blank_runs md1) ++ ['\n']
  let md3 := if options.defragment_short
    then defragment_orphans md2 options.orphan_max_len else md2
  tighten_punctuation (strip_artifacts md3)

/-- Options with header/footer removal and caps headings off, the default
size factor 1.3 and orphan length 45; the two flags select page breaks and
orphan defragmentation. -/
def plainOptions (pb df : Bool) : Options :=
  Options.mk false false df pb (Rat.divInt 13 10) 45

/-- C2: the page-break contract is broken by the final artifact-stripping
substitution.  Two pages with the texts Hello and World and
insert_page_breaks set render to "Hello\nWorld\n": the inserted "---" page
rule matches re.sub(r"\s*-+\s*-+\s*\d*\s*$", "", md, re.MULTILINE) (the two
dash items split the rule, the surrounding \s* swallow the blank lines) and
is deleted together with its surrounding blank lines, so the output contains
no "---" line at all instead of the claimed N-1 markers. -/
theorem render_document_page_break_marker_deleted :
    render_document [onePage ("Hello".toList), onePage ("World".toList)]
        (plainOptions true false) none = "Hello\nWorld\n".toList ∧
    ¬ (['-', '-', '-'] ∈ pySplitlines (render_document
        [onePage ("Hello".toList), onePage ("World".toList)]
        (plainOptions true false) none)) := by
  constructor
  · decide
  · decide

/-- C10: the body-size baseline of render_document.  Pages without an entry
in body_sizes (a missing list or an index beyond its length) use exactly
11.0; pages with an entry use that entry; consequently a one-page render
with no body_sizes equals the same render with the explicit baseline [11]. -/
theorem body_size_fallback_spec :
    (∀ i : Nat, bodyFor none i = 11) ∧
    (∀ (l : List ℚ) (i : Nat), l.length ≤ i → bodyFor (some l) i = 11) ∧
    (∀ (l : List ℚ) (i : Nat) (h : i < l.length), bodyFor (some l) i = l.get ⟨i, h⟩) ∧
    (∀ (p : PageText) (options : Options),
      render_document [p] options none = render_document [p] options (some [11])) := by
  refine ⟨fun i => rfl, ?_, ?_, ?_⟩
  · intro l i hle
    unfold bodyFor
    exact List.getD_eq_default l 11 hle
  · intro l i h
    show l.getD i 11 = l.get ⟨i, h⟩
    rw [List.getD_eq_getElem l 11 h]
    simp
  · intro p options
    rfl

/-- Witness for C10: the fallback theorem applied to a one-entry list probed
in and out of range. -/
theorem body_size_fallback_spec_witness :
    bodyFor (some [12]) 5 = 11 ∧ bodyFor (some [12]) 0 = 12 := by
  have h := body_size_fallback_spec
  refine ⟨h.2.1 [12] 5 (by decide), ?_⟩
  have h2 := h.2.2.1 [12] 0 (by decide)
  simpa using h2

/-- C8 counterexample: a span with zero size is not skipped by the renderer;
its text reaches the output.  A page whose only span is "Hello" at size 0
renders to "Hello\n", while the same page without that span renders to the
bare newline document. -/
theorem zero_size_span_contributes_cex :
    render_document [PageText.mk [Block.mk [Line.mk
        [Span.mk ("Hello".toList) 0 false false]]]] (plainOptions false false)
        none = "Hello\n".toList ∧
    render_document [PageText.mk [Block.mk [Line.mk []]]]
        (plainOptions false false) none = "\n".toList ∧
    ("Hello\n".toList : Str) ≠ "\n".toList := by
  refine ⟨by decide, by decide, by decide⟩

/-- Rendering a block only depends on its per-line entries. -/
theorem block_to_lines_congr (b1 b2 : Block)
    (h : block_entries b1 = block_entries b2) (body factor : ℚ) (c : Bool) :
    block_to_lines b1 body c factor = block_to_lines b2 body c factor := by
  unfold block_to_lines block_heading_level block_heading_by_size
    block_heading_by_caps block_avg_size block_line_sizes block_text_flat
    block_heading_line
  rw [h]

theorem page_md_lines_filter_empty : ∀ (bs : List Block) (body factor : ℚ)
    (c : Bool),
    page_md_lines (PageText.mk (bs.filter (fun b => !b.is_empty))) body c factor =
      page_md_lines (PageText.mk bs) body c factor := by
  intro bs
  induction bs with
  | nil => intro body factor c; rfl
  | cons b rest ih =>
    intro body factor c
    unfold page_md_lines at ih ⊢
    simp only [List.filter_cons]
    cases hb : b.is_empty with
    | true => simp [hb, ih body factor c]
    | false => simp [hb, ih body factor c]

/-- C8 (amended): totality and skipping of degenerate entities.  The
pipeline is total (every embedded stage is a total function); the empty
collection transforms and renders without error; empty Blocks contribute
nothing to a page's output; a Line without Spans contributes nothing to a
block's output; a Span with zero size contributes nothing to the render-time
line sizes nor to body-size estimation — its TEXT however is still rendered,
which is what the counterexample exhibits, so "contribute nothing" only
holds for the sizing signal of zero-size spans and for entities with no
renderable text. -/
theorem degenerate_entities_spec :
    (∀ options : Options, transform_pages [] options = ([], none, none, [])) ∧
    (∀ (options : Options) (bs : Option (List ℚ)),
        render_document [] options bs =
          if options.defragment_short then [] else ['\n']) ∧
    (∀ (p : PageText) (body factor : ℚ) (c : Bool),
        page_md_lines (PageText.mk (p.blocks.filter (fun b => !b.is_empty)))
            body c factor = page_md_lines p body c factor) ∧
    (∀ (pre post : List Line) (body factor : ℚ) (c : Bool),
        block_to_lines (Block.mk (pre ++ Line.mk [] :: post)) body c factor =
          block_to_lines (Block.mk (pre ++ post)) body c factor) ∧
    (∀ (pre post : List Span) (sp : Span), sp.size = 0 →
        line_sizes_r (Line.mk (pre ++ sp :: post)) =
          line_sizes_r (Line.mk (pre ++ post))) ∧
    (∀ (pre post : List Span) (sp : Span), sp.size = 0 →
        pageSpanSizes (pre ++ sp :: post) = pageSpanSizes (pre ++ post)) := by
  refine ⟨?_, ?_, ?_, ?_, ?_, ?_⟩
  · intro options
    rcases options with ⟨rh, ch, df, ip, f, om⟩
    cases rh <;> rfl
  · intro options bs
    rcases options with ⟨rh, ch, df, ip, f, om⟩
    cases df <;> rfl
  · intro p body factor c
    exact page_md_lines_filter_empty p.blocks body factor c
  · intro pre post body factor c
    refine block_to_lines_congr _ _ ?_ body factor c
    unfold block_entries
    rw [List.append_cons, List.filterMap_append, List.filterMap_append,
        List.filterMap_append]
    have hmid : ([Line.mk []].filterMap (fun ln =>
        let fmt := line_fmt ln
        if List.isEmpty (pyStrip fmt) = true then none
        else some (fmt, line_raw ln, line_sizes_r ln))) = [] := rfl
    rw [hmid]
    simp
  · intro pre post sp hsp
    unfold line_sizes_r
    simp only [List.map_append, List.map_cons, List.filter_append, List.filter_cons,
      hsp]
    simp
  · intro pre post sp hsp
    unfold pageSpanSizes
    rw [List.append_cons, List.filterMap_append, List.filterMap_append,
        List.filterMap_append]
    have hmid : ([sp].filterMap (fun sp2 =>
        if decide (0 < sp2.size) && !(pyStrip sp2.text).isEmpty
        then some sp2.size else none)) = [] := by
      simp [hsp]
    rw [hmid]
    simp

/-- Witness for C8: the degeneracy theorem applied to a concrete zero-size
span and a concrete spanless line. -/
theorem degenerate_entities_spec_witness :
    line_sizes_r (Line.mk [Span.mk ("Hi".toList) 0 false false]) =
      line_sizes_r (Line.mk []) ∧
    pageSpanSizes [Span.mk ("Hi".toList) 0 false false] = pageSpanSizes [] := by
  have h := degenerate_entities_spec
  exact ⟨h.2.2.2.2.1 [] [] (Span.mk ("Hi".toList) 0 false false) rfl,
         h.2.2.2.2.2 [] [] (Span.mk ("Hi".toList) 0 false false) rfl⟩

/-- In the heading branch the first emitted line is the heading line. -/
theorem block_to_lines_head_of_level (blk : Block) (body factor : ℚ) (c : Bool)
    (hne : block_entries blk ≠ []) (lvl : Nat)
    (hl : block_heading_level blk body c factor = some lvl) :
    (block_to_lines blk body c factor).head? = some (block_heading_line blk lvl) := by
  unfold block_to_lines
  have hie : (block_entries blk).isEmpty = false := by
    simpa [List.isEmpty_iff] using hne
  simp only [hie, Bool.false_eq_true, if_false, hl]
  split
  · simp
  · split <;> simp

/-- C7 (amended): heading level assignment of the classifier, for a
non-negative body size and a size factor of at most 1.6.  With avg the
block's representative size: avg at least body times 1.6, or a caps trigger,
gives a level-1 heading whose emitted first line is the level-1 heading
line; avg in the half-open band from body times the factor up to body times
1.6 with no caps trigger gives a level-2 heading; avg below body times the
factor with no caps trigger leaves the block on the paragraph path. -/
theorem heading_level_spec (blk : Block) (body factor : ℚ) (c : Bool)
    (hne : block_entries blk ≠ []) (hbody : 0 ≤ body)
    (hfac : factor ≤ Rat.divInt 8 5) :
    ((qmul body (Rat.divInt 8 5) ≤ block_avg_size blk body ∨
        block_heading_by_caps blk c = true) →
      block_heading_level blk body c factor = some 1 ∧
      (block_to_lines blk body c factor).head? = some (block_heading_line blk 1)) ∧
    ((qmul body factor ≤ block_avg_size blk body ∧
        block_avg_size blk body < qmul body (Rat.divInt 8 5) ∧
        block_heading_by_caps blk c = false) →
      block_heading_level blk body c factor = some 2 ∧
      (block_to_lines blk body c factor).head? = some (block_heading_line blk 2)) ∧
    ((block_avg_size blk body < qmul body factor ∧
        block_heading_by_caps blk c = false) →
      block_heading_level blk body c factor = none ∧
      block_to_lines blk body c factor =
        [para_of_rendered ((block_entries blk).map (fun e => e.1)), []]) := by
  have hmono : qmul body factor ≤ qmul body (Rat.divInt 8 5) := by
    rw [qmul_eq_mul, qmul_eq_mul]
    exact mul_le_mul_of_nonneg_left hfac hbody
  refine ⟨?_, ?_, ?_⟩
  · intro hcond
    have hlevel : block_heading_level blk body c factor = some 1 := by
      unfold block_heading_level
      rcases hcond with hsz | hcaps
      · have hs : block_heading_by_size blk body factor = true := by
          unfold block_heading_by_size
          simp only [decide_eq_true_eq]
          exact le_trans hmono hsz
        rw [hs]
        simp only [Bool.true_or, if_true]
        have hd : decide (qmul body (Rat.divInt 8 5) ≤ block_avg_size blk body) = true := by
          simpa using hsz
        rw [hd]
        simp
      · rw [hcaps]
        simp
    exact ⟨hlevel, block_to_lines_head_of_level blk body factor c hne 1 hlevel⟩
  · intro hcond
    obtain ⟨h1, h2, h3⟩ := hcond
    have hlevel : block_heading_level blk body c factor = some 2 := by
      unfold block_heading_level
      have hs : block_heading_by_size blk body factor = true := by
        unfold block_heading_by_size
        simpa using h1
      rw [hs, h3]
      simp only [Bool.true_or, if_true, Bool.or_false]
      have hd : decide (qmul body (Rat.divInt 8 5) ≤ block_avg_size blk body) = false := by
        simpa using not_le.mpr h2
      rw [hd]
      simp
    exact ⟨hlevel, block_to_lines_head_of_level blk body factor c hne 2 hlevel⟩
  · intro hcond
    obtain ⟨h1, h2⟩ := hcond
    have hlevel : block_heading_level blk body c factor = none := by
      unfold block_heading_level
      have hs : block_heading_by_size blk body factor = false := by
        unfold block_heading_by_size
        simpa using not_le.mpr h1
      rw [hs, h2]
      simp
    refine ⟨hlevel, ?_⟩
    unfold block_to_lines
    have hie : (block_entries blk).isEmpty = false := by
      simpa [List.isEmpty_iff] using hne
    simp only [hie, Bool.false_eq_true, if_false, hlevel]

/-- Block consisting of the single all-caps line "HELLO WORLD" at size 14. -/
def capsBlock : Block :=
  Block.mk [Line.mk [Span.mk ("HELLO WORLD".toList) 14 false false]]

/-- C7 counterexample: the claim's level-2 clause is unconditional on the
caps trigger, but the code promotes a caps-triggered block to level 1 even
when its representative size lies inside [body x ratio, body x 1.6).  With
body 10, ratio 1.3, caps_to_headings on and the all-caps block of size 14
(13 <= 14 < 16), the classifier yields level 1 and the first output line is
"# HELLO WORLD", not a level-2 heading. -/
theorem heading_level_caps_cex :
    (qmul 10 (Rat.divInt 13 10) ≤ block_avg_size capsBlock 10 ∧
      block_avg_size capsBlock 10 < qmul 10 (Rat.divInt 8 5)) ∧
    block_heading_level capsBlock 10 true (Rat.divInt 13 10) = some 1 ∧
    (block_to_lines capsBlock 10 true (Rat.divInt 13 10)).head? =
      some ("# HELLO WORLD".toList) ∧
    ("# HELLO WORLD".toList).take 3 ≠ "## ".toList := by
  refine ⟨⟨by decide, by decide⟩, by decide, by decide, by decide⟩

/-- Witness for C7: the heading theorem applied to the concrete caps block,
whose caps trigger forces level 1. -/
theorem heading_level_spec_witness :
    block_heading_level capsBlock 10 true (Rat.divInt 13 10) = some 1 ∧
    (block_to_lines capsBlock 10 true (Rat.divInt 13 10)).head? =
      some (block_heading_line capsBlock 1) := by
  have h := heading_level_spec capsBlock 10 (Rat.divInt 13 10) true
    (by decide) (by decide) (by decide)
  exact h.1 (Or.inr (by decide))

/-- Does the string contain a run of three or more newlines? -/
def hasTripleNl : Str → Bool
  | a :: b :: c :: r =>
      (a = '\n' && b = '\n' && c = '\n') || hasTripleNl (b :: c :: r)
  | _ => false

/-- Does the string start with two newlines? -/
def startsNlNl : Str → Bool
  | a :: b :: _ => a = '\n' && b = '\n'
  | _ => false

/-- Does the string end with two newlines? -/
def endsTwoNl (s : Str) : Bool := startsNlNl s.reverse

/-- Length of the leading newline run. -/
def nlRun : Str → Nat
  | '\n' :: r => nlRun r + 1
  | _ => 0

theorem nlRun_cons (c : Char) (r : Str) :
    nlRun (c :: r) = if c = '\n' then nlRun r + 1 else 0 := by
  by_cases hc : c = '\n'
  · subst hc; rw [if_pos rfl]; rfl
  · rw [if_neg hc]
    unfold nlRun
    split
    · rename_i heq
      injection heq with h1 h2
      exact absurd h1 hc
    · rfl

theorem startsNlNl_iff_nlRun (s : Str) : startsNlNl s = true ↔ 2 ≤ nlRun s := by
  match s with
  | [] => simp [startsNlNl, nlRun]
  | [a] =>
    have h1 : startsNlNl [a] = false := rfl
    have h2 : nlRun [a] ≤ 1 := by
      rw [nlRun_cons]
      split
      · show nlRun [] + 1 ≤ 1
        show 0 + 1 ≤ 1
        omega
      · exact Nat.zero_le 1
    rw [h1]
    constructor
    · intro h; cases h
    · intro h; omega
  | a :: b :: r =>
    show (a = '\n' && b = '\n') = true ↔ _
    rw [nlRun_cons, nlRun_cons]
    by_cases ha : a = '\n' <;> by_cases hb : b = '\n' <;> simp [ha, hb]

theorem hasTripleNl_cons (c : Char) (x : Str) :
    hasTripleNl (c :: x) = ((c = '\n' && startsNlNl x) || hasTripleNl x) := by
  match x with
  | [] => simp [hasTripleNl, startsNlNl]
  | [b] => simp [hasTripleNl, startsNlNl]
  | b :: d :: r =>
    show ((c = '\n' && b = '\n' && d = '\n') || hasTripleNl (b :: d :: r)) = _
    show _ = ((c = '\n' && (b = '\n' && d = '\n')) || hasTripleNl (b :: d :: r))
    rw [Bool.and_assoc]

theorem hasTripleNl_cons_true (c : Char) (x : Str) (h : hasTripleNl x = true) :
    hasTripleNl (c :: x) = true := by
  rw [hasTripleNl_cons, h]
  simp

/-- The three-newline test is the infix test for a literal newline triple. -/
theorem hasTripleNl_iff (s : Str) :
    hasTripleNl s = true ↔ ['\n', '\n', '\n'] <:+: s := by
  constructor
  · intro h
    induction s with
    | nil => cases h
    | cons c x ih =>
      rw [hasTripleNl_cons] at h
      simp only [Bool.or_eq_true] at h
      rcases h with h1 | h1
      · have hc : c = '\n' := by
          rcases Bool.and_eq_true_iff.mp h1 with ⟨h2, _⟩
          simpa using h2
        have hx : startsNlNl x = true := (Bool.and_eq_true_iff.mp h1).2
        match x, hx with
        | a :: b :: r, hx =>
          have hab : ((a = '\n' : Bool) && (b = '\n' : Bool)) = true := hx
          have ha : a = '\n' := by simpa using (Bool.and_eq_true_iff.mp hab).1
          have hb : b = '\n' := by simpa using (Bool.and_eq_true_iff.mp hab).2
          subst hc ha hb
          exact ⟨[], r, by simp⟩
      · rcases ih h1 with ⟨u, v, huv⟩
        exact ⟨c :: u, v, by rw [← huv]; simp⟩
  · rintro ⟨u, v, huv⟩
    subst huv
    induction u with
    | nil =>
      simp only [List.nil_append, List.cons_append]
      rw [hasTripleNl_cons]
      have hs : startsNlNl ('\n' :: '\n' :: v) = true := by
        show ((('\n' : Char) = '\n' : Bool) && (('\n' : Char) = '\n' : Bool)) = true
        simp
      rw [hs]
      simp
    | cons a u2 ih =>
      simp only [List.cons_append]
      exact hasTripleNl_cons_true a _ (by simpa using ih)

theorem hasTripleNl_of_infix {l1 l2 : Str} (h : l1 <:+: l2)
    (h2 : hasTripleNl l2 = false) : hasTripleNl l1 = false := by
  by_contra hc
  have h1 : hasTripleNl l1 = true := by
    cases hv : hasTripleNl l1
    · exact absurd hv hc
    · rfl
  have := (hasTripleNl_iff l2).mpr (((hasTripleNl_iff l1).mp h1).trans h)
  rw [this] at h2
  cases h2

theorem hasTripleNl_reverse (s : Str) :
    hasTripleNl s.reverse = hasTripleNl s := by
  cases h : hasTripleNl s with
  | true =>
    have := (hasTripleNl_iff s).mp h
    have h2 : ['\n', '\n', '\n'] <:+: s.reverse := by
      have h3 : (['\n', '\n', '\n'] : Str).reverse <:+: s.reverse :=
        List.reverse_infix.mpr this
      simpa using h3
    exact (hasTripleNl_iff s.reverse).mpr h2
  | false =>
    cases h2 : hasTripleNl s.reverse with
    | false => rfl
    | true =>
      have := (hasTripleNl_iff s.reverse).mp h2
      have h3 : ['\n', '\n', '\n'] <:+: s := by
        have h4 : (['\n', '\n', '\n'] : Str).reverse <:+: s.reverse.reverse :=
          List.reverse_infix.mpr this
        simpa using h4
      rw [(hasTripleNl_iff s).mpr h3] at h
      cases h

theorem hasTripleNl_of_no_nl (s : Str) (h : ∀ c ∈ s, c ≠ '\n') :
    hasTripleNl s = false := by
  induction s with
  | nil => rfl
  | cons c x ih =>
    rw [hasTripleNl_cons, ih (fun d hd => h d (List.mem_cons_of_mem _ hd))]
    have hc : (c = '\n' : Bool) = false := by
      simpa using h c (List.mem_cons_self _ _)
    rw [hc]
    simp

/-- Appending to a string not ending with a newline cannot bridge runs. -/
theorem hasTripleNl_append_of (u v : Str) (hu : hasTripleNl u = false)
    (hv : hasTripleNl v = false) (hlast : u.getLast? ≠ some '\n') :
    hasTripleNl (u ++ v) = false := by
  induction u with
  | nil => simpa using hv
  | cons a u2 ih =>
    rw [List.cons_append, hasTripleNl_cons]
    cases u2 with
    | nil =>
      have ha : (a = '\n' : Bool) = false := by
        simp only [List.getLast?_singleton] at hlast
        simpa using fun hc => hlast (by rw [hc])
      simp only [List.nil_append, ha, Bool.false_and, Bool.false_or]
      exact hv
    | cons b u3 =>
      have hu2 : hasTripleNl (b :: u3) = false := by
        refine hasTripleNl_of_infix ?_ hu
        exact ⟨[a], [], by simp⟩
      have hlast2 : (b :: u3).getLast? ≠ some '\n' := by
        rwa [List.getLast?_cons_cons] at hlast
      rw [ih hu2 hlast2, Bool.or_false]
      cases u3 with
      | nil =>
        simp only [List.cons_append, List.nil_append]
        cases hv2 : startsNlNl (b :: v) with
        | false => simp
        | true =>
          have hb : b = '\n' := by
            cases v with
            | nil => cases hv2
            | cons w ws =>
              have := Bool.and_eq_true_iff.mp hv2
              simpa using this.1
          have : ([a, b] : Str).getLast? = some '\n' := by
            rw [hb]; rfl
          exact absurd this hlast
      | cons d u4 =>
        cases hab : (a = '\n' && startsNlNl ((b :: d :: u4) ++ v)) with
        | false => simp
        | true =>
          obtain ⟨ha, hrest⟩ := Bool.and_eq_true_iff.mp hab
          have hbd : ((b = '\n' : Bool) && (d = '\n' : Bool)) = true := hrest
          obtain ⟨hb', hd'⟩ := Bool.and_eq_true_iff.mp hbd
          have hfalse : hasTripleNl (a :: b :: d :: u4) = true := by
            rw [hasTripleNl_cons]
            have hs : startsNlNl (b :: d :: u4) = true := by
              show ((b = '\n' : Bool) && (d = '\n' : Bool)) = true
              rw [hb', hd']
              rfl
            rw [hs, ha]
            simp
          rw [hu] at hfalse
          cases hfalse

theorem hasTripleNl_cons_of (c : Char) (x : Str) (hx : hasTripleNl x = false)
    (h : ¬(c = '\n' ∧ startsNlNl x = true)) : hasTripleNl (c :: x) = false := by
  rw [hasTripleNl_cons, hx, Bool.or_false]
  cases hc : (c = '\n' : Bool) with
  | false => simp
  | true =>
    cases hs : startsNlNl x with
    | false => simp
    | true => exact absurd ⟨by simpa using hc, hs⟩ h

theorem startsNlNl_append_left (x y : Str) (h : 2 ≤ x.length) :
    startsNlNl (x ++ y) = startsNlNl x := by
  match x with
  | a :: b :: r => rfl
  | [] => simp at h
  | [a] => simp at h

theorem endsTwoNl_append (u v : Str) (h : 2 ≤ v.length) :
    endsTwoNl (u ++ v) = endsTwoNl v := by
  unfold endsTwoNl
  rw [List.reverse_append]
  exact startsNlNl_append_left v.reverse u.reverse (by simpa using h)

theorem endsTwoNl_of_getLast (s : Str) (c : Char) (h : s.getLast? = some c)
    (hc : c ≠ '\n') : endsTwoNl s = false := by
  unfold endsTwoNl
  have hh : s.reverse.head? = some c := by
    rw [List.head?_reverse]
    exact h
  match hr : s.reverse with
  | [] => rfl
  | [a] => rfl
  | a :: b :: rest =>
    rw [hr] at hh
    have ha : a = c := by simpa using hh
    subst ha
    show ((a = '\n' : Bool) && (b = '\n' : Bool)) = false
    have hf : (a = '\n' : Bool) = false := by simpa using hc
    rw [hf]
    simp

theorem endsTwoNl_short (s : Str) (h : s.length ≤ 1) : endsTwoNl s = false := by
  match s with
  | [] => rfl
  | [a] => rfl
  | a :: b :: r => simp at h

theorem endsTwoNl_of_suffix (k s : Str) (hk : k <:+ s)
    (hs : endsTwoNl s = false) : endsTwoNl k = false := by
  by_cases hlen : 2 ≤ k.length
  · obtain ⟨u, hu⟩ := hk
    rw [← hu, endsTwoNl_append u k hlen] at hs
    exact hs
  · exact endsTwoNl_short k (by omega)

theorem endsTwoNl_pair (a b : Char) : endsTwoNl [a, b] = (b = '\n' && a = '\n') := rfl

theorem strip_artifacts_cons_some (c : Char) (rest k : Str)
    (h : matchArtifact (c :: rest) = some k) :
    strip_artifacts (c :: rest) = strip_artifacts k := by
  have h1 : strip_artifacts (c :: rest) = stripArtifactsAux rest.length k := by
    show (match matchArtifact (c :: rest) with
      | some k2 => stripArtifactsAux rest.length k2
      | none => c :: stripArtifactsAux rest.length rest) = _
    rw [h]
  rw [h1]
  have hk := matchArtifact_length _ _ h
  simp only [List.length_cons] at hk
  exact stripArtifactsAux_eq rest.length k (by omega) k.length (Nat.le_refl _)

theorem strip_artifacts_cons_none (c : Char) (rest : Str)
    (h : matchArtifact (c :: rest) = none) :
    strip_artifacts (c :: rest) = c :: strip_artifacts rest := by
  show (match matchArtifact (c :: rest) with
    | some k2 => stripArtifactsAux rest.length k2
    | none => c :: stripArtifactsAux rest.length rest) = _
  rw [h]
  rfl

theorem mem_wsAlts_suffix : ∀ (l : Str), ∀ x ∈ wsAlts l, x <:+ l := by
  intro l
  induction l with
  | nil => intro x hx; simp only [wsAlts, List.mem_singleton] at hx; simp [hx]
  | cons c rest ih =>
    intro x hx
    unfold wsAlts at hx
    by_cases hc : isPySpace c
    · rw [if_pos hc] at hx
      rcases List.mem_append.mp hx with hx | hx
      · exact (ih x hx).trans (List.suffix_cons c rest)
      · simp only [List.mem_singleton] at hx; simp [hx]
    · rw [if_neg hc] at hx
      simp only [List.mem_singleton] at hx; simp [hx]

theorem mem_dashAlts_suffix : ∀ (l : Str), ∀ x ∈ dashAlts l, x <:+ l := by
  intro l
  induction l with
  | nil => intro x hx; cases hx
  | cons c rest ih =>
    intro x hx
    unfold dashAlts at hx
    by_cases hc : c = '-'
    · rw [if_pos hc] at hx
      rcases List.mem_append.mp hx with hx | hx
      · exact (ih x hx).trans (List.suffix_cons c rest)
      · simp only [List.mem_singleton] at hx
        rw [hx]
        exact List.suffix_cons c rest
    · rw [if_neg hc] at hx
      cases hx

theorem mem_digitAlts_suffix : ∀ (l : Str), ∀ x ∈ digitAlts l, x <:+ l := by
  intro l
  induction l with
  | nil => intro x hx; simp only [digitAlts, List.mem_singleton] at hx; simp [hx]
  | cons c rest ih =>
    intro x hx
    unfold digitAlts at hx
    by_cases hc : isPyDigit c
    · rw [if_pos hc] at hx
      rcases List.mem_append.mp hx with hx | hx
      · exact (ih x hx).trans (List.suffix_cons c rest)
      · simp only [List.mem_singleton] at hx; simp [hx]
    · rw [if_neg hc] at hx
      simp only [List.mem_singleton] at hx; simp [hx]

/-- The suffix returned by a successful artifact match is a suffix of the
scanned string. -/
theorem matchArtifact_suffix (l : Str) (k : Str) (h : matchArtifact l = some k) :
    k <:+ l := by
  unfold matchArtifact at h
  refine findSome?_prop _ (fun k2 => k2 <:+ l) _ ?_ k h
  intro a ha k2 h2
  have hal := mem_wsAlts_suffix l a ha
  refine findSome?_prop _ (fun k3 => k3 <:+ l) _ ?_ k2 h2
  intro b hb k3 h3
  have hbl := (mem_dashAlts_suffix a b hb).trans hal
  refine findSome?_prop _ (fun k4 => k4 <:+ l) _ ?_ k3 h3
  intro c hc k4 h4
  have hcl := (mem_wsAlts_suffix b c hc).trans hbl
  refine findSome?_prop _ (fun k5 => k5 <:+ l) _ ?_ k4 h4
  intro d hd k5 h5
  have hdl := (mem_dashAlts_suffix c d hd).trans hcl
  refine findSome?_prop _ (fun k6 => k6 <:+ l) _ ?_ k5 h5
  intro e he k6 h6
  have hel := (mem_wsAlts_suffix d e he).trans hdl
  refine findSome?_prop _ (fun k7 => k7 <:+ l) _ ?_ k6 h6
  intro f hf k7 h7
  have hfl := (mem_digitAlts_suffix e f hf).trans hel
  refine findSome?_prop _ (fun k8 => k8 <:+ l) _ ?_ k7 h7
  intro g hg k8 h8
  have hgl := (mem_wsAlts_suffix f g hg).trans hfl
  have hk8 : g = k8 := by
    by_cases hae : atEol g
    · rw [if_pos hae] at h8; simpa using h8
    · rw [if_neg hae] at h8; cases h8
  exact hk8 ▸ hgl

theorem findSome?_append_some {α β : Type} (f : α → Option β) :
    ∀ (A : List α) (B : List α) (b : β), A.findSome? f = some b →
    (A ++ B).findSome? f = some b := by
  intro A
  induction A with
  | nil => intro B b hb; cases hb
  | cons x xs ih =>
    intro B b hb
    rw [List.findSome?_cons] at hb
    rw [List.cons_append, List.findSome?_cons]
    cases hf : f x with
    | some v => rw [hf] at hb; rw [hb]
    | none =>
      rw [hf] at hb
      exact ih B b hb

theorem findSome?_append_none {α β : Type} (f : α → Option β) (A B : List α)
    (h : (A ++ B).findSome? f = none) : A.findSome? f = none := by
  cases hA : A.findSome? f with
  | none => rfl
  | some b => rw [findSome?_append_some f A B b hA] at h; cases h

/-- Leftmost matching: a whitespace character in front of a position where no
match starts cannot hide a match right after it. -/
theorem matchArtifact_cons_ws_none (c : Char) (rest : Str)
    (hc : isPySpace c = true) (h : matchArtifact (c :: rest) = none) :
    matchArtifact rest = none := by
  unfold matchArtifact at h ⊢
  have hws : wsAlts (c :: rest) = wsAlts rest ++ [c :: rest] := by
    show (if isPySpace c = true then wsAlts rest ++ [c :: rest] else [c :: rest]) = _
    rw [if_pos hc]
  rw [hws] at h
  exact findSome?_append_none _ _ _ h

/-- Where no match starts, the scan can only shorten the leading newline run. -/
theorem nlRun_strip (n : Nat) : ∀ (s : Str), s.length ≤ n →
    matchArtifact s = none → nlRun (strip_artifacts s) ≤ nlRun s := by
  induction n with
  | zero =>
    intro s hl _
    have : s = [] := List.length_eq_zero.mp (Nat.le_zero.mp hl)
    subst this
    exact Nat.le_refl _
  | succ n ih =>
    intro s hl hm
    cases s with
    | nil => exact Nat.le_refl _
    | cons c rest =>
      rw [strip_artifacts_cons_none c rest hm, nlRun_cons, nlRun_cons]
      by_cases hc : c = '\n'
      · rw [if_pos hc, if_pos hc]
        have hmr : matchArtifact rest = none :=
          matchArtifact_cons_ws_none c rest (by rw [hc]; decide) hm
        have := ih rest (by simp only [List.length_cons] at hl; omega) hmr
        omega
      · rw [if_neg hc, if_neg hc]

theorem strip_artifacts_eq_nil (x : Str) (h : strip_artifacts x = []) :
    x = [] ∨ matchArtifact x ≠ none := by
  cases x with
  | nil => exact Or.inl rfl
  | cons c rest =>
    cases hm : matchArtifact (c :: rest) with
    | some k => exact Or.inr (by simp [hm])
    | none =>
      rw [strip_artifacts_cons_none c rest hm] at h
      cases h

/-- The artifact-stripping substitution preserves the absence of triple
newline runs and of a double trailing newline. -/
theorem strip_artifacts_preserves (n : Nat) : ∀ (s : Str), s.length ≤ n →
    hasTripleNl s = false → endsTwoNl s = false →
    hasTripleNl (strip_artifacts s) = false ∧
    endsTwoNl (strip_artifacts s) = false := by
  induction n with
  | zero =>
    intro s hl _ _
    have : s = [] := List.length_eq_zero.mp (Nat.le_zero.mp hl)
    subst this
    exact ⟨rfl, rfl⟩
  | succ n ih =>
    intro s hl hTF hET
    cases s with
    | nil => exact ⟨rfl, rfl⟩
    | cons c rest =>
      simp only [List.length_cons] at hl
      cases hm : matchArtifact (c :: rest) with
      | some k =>
        rw [strip_artifacts_cons_some c rest k hm]
        have hsuf : k <:+ (c :: rest) := matchArtifact_suffix _ _ hm
        have hTFk : hasTripleNl k = false := hasTripleNl_of_infix hsuf.isInfix hTF
        have hETk := endsTwoNl_of_suffix k _ hsuf hET
        have hlen := matchArtifact_length _ _ hm
        simp only [List.length_cons] at hlen
        exact ih k (by omega) hTFk hETk
      | none =>
        rw [strip_artifacts_cons_none c rest hm]
        have hsufr : rest <:+ c :: rest := List.suffix_cons c rest
        have hTFr : hasTripleNl rest = false := hasTripleNl_of_infix hsufr.isInfix hTF
        have hETr := endsTwoNl_of_suffix rest _ hsufr hET
        obtain ⟨ihTF, ihET⟩ := ih rest (by omega) hTFr hETr
        constructor
        · apply hasTripleNl_cons_of c _ ihTF
          rintro ⟨hc, hs⟩
          subst hc
          have hmr : matchArtifact rest = none :=
            matchArtifact_cons_ws_none '\n' rest (by decide) hm
          have h4 := nlRun_strip rest.length rest (Nat.le_refl _) hmr
          have h2 : 2 ≤ nlRun (strip_artifacts rest) := (startsNlNl_iff_nlRun _).mp hs
          have h6 : startsNlNl rest = true := (startsNlNl_iff_nlRun rest).mpr (by omega)
          have h7 : hasTripleNl ('\n' :: rest) = true := by
            rw [hasTripleNl_cons, h6]
            simp
          rw [hTF] at h7
          cases h7
        · cases hsr : strip_artifacts rest with
          | nil => exact endsTwoNl_short [c] (by simp)
          | cons d tail =>
            cases tail with
            | cons e tl2 =>
              have heq := endsTwoNl_append [c] (d :: e :: tl2) (by simp)
              simp only [List.cons_append, List.nil_append] at heq
              rw [heq]
              rw [hsr] at ihET
              exact ihET
            | nil =>
              rw [endsTwoNl_pair]
              by_cases hc : c = '\n'
              · subst hc
                have hmr : matchArtifact rest = none :=
                  matchArtifact_cons_ws_none '\n' rest (by decide) hm
                have hd : d ≠ '\n' := by
                  intro hd
                  subst hd
                  cases rest with
                  | nil => rw [show strip_artifacts [] = [] from rfl] at hsr; cases hsr
                  | cons e rest2 =>
                    rw [strip_artifacts_cons_none e rest2 hmr] at hsr
                    have he : e = '\n' := by
                      have := List.cons.inj hsr
                      exact this.1
                    have hsr2 : strip_artifacts rest2 = [] := (List.cons.inj hsr).2
                    rcases strip_artifacts_eq_nil rest2 hsr2 with h0 | h0
                    · subst h0
                      rw [he] at hET
                      have hcontra : endsTwoNl ['\n', '\n'] = true := by decide
                      rw [hcontra] at hET
                      cases hET
                    · exact h0 (matchArtifact_cons_ws_none e rest2
                        (by rw [he]; decide) hmr)
                simp [hd]
              · simp [hc]

/-- The punctuation-tightening scan only deletes whitespace runs directly
before punctuation; it cannot create a triple newline run or a double
trailing newline. -/
theorem punctTightenAux_preserves : ∀ (s pend : Str),
    hasTripleNl (pend.reverse ++ s) = false →
    endsTwoNl (pend.reverse ++ s) = false →
    hasTripleNl (punctTightenAux pend s) = false ∧
    endsTwoNl (punctTightenAux pend s) = false := by
  intro s
  induction s with
  | nil =>
    intro pend hTF hET
    constructor
    · show hasTripleNl pend.reverse = false
      simpa using hTF
    · show endsTwoNl pend.reverse = false
      simpa using hET
  | cons c rest ih =>
    intro pend hTF hET
    by_cases hws : isPySpace c
    · have hstep : punctTightenAux pend (c :: rest) = punctTightenAux (c :: pend) rest := by
        show (if isPySpace c = true then punctTightenAux (c :: pend) rest else _) = _
        rw [if_pos hws]
      rw [hstep]
      apply ih (c :: pend)
      · rw [List.reverse_cons]
        rw [List.append_cons] at hTF
        exact hTF
      · rw [List.reverse_cons]
        rw [List.append_cons] at hET
        exact hET
    · have hcnl : c ≠ '\n' := fun h => hws (by rw [h]; decide)
      have hsuf : rest <:+ pend.reverse ++ c :: rest :=
        ⟨pend.reverse ++ [c], by rw [← List.append_cons]⟩
      have hTFr : hasTripleNl rest = false := hasTripleNl_of_infix hsuf.isInfix hTF
      have hETr := endsTwoNl_of_suffix rest _ hsuf hET
      obtain ⟨iTF, iET⟩ := ih [] (by simpa using hTFr) (by simpa using hETr)
      by_cases hp : c ∈ tightPunctChars
      · have hstep : punctTightenAux pend (c :: rest) = c :: punctTightenAux [] rest := by
          show (if isPySpace c = true then _
            else if c ∈ tightPunctChars then c :: punctTightenAux [] rest else _) = _
          rw [if_neg hws, if_pos hp]
        rw [hstep]
        constructor
        · exact hasTripleNl_cons_of c _ iTF (fun hcc => hcnl hcc.1)
        · cases haux : punctTightenAux [] rest with
          | nil => exact endsTwoNl_short [c] (by simp)
          | cons d tl =>
            cases tl with
            | nil =>
              rw [endsTwoNl_pair]
              have hcf : (c = '\n' : Bool) = false := by simpa using hcnl
              rw [hcf]
              simp
            | cons e tl2 =>
              have heq := endsTwoNl_append [c] (d :: e :: tl2) (by simp)
              simp only [List.cons_append, List.nil_append] at heq
              rw [heq]
              rw [haux] at iET
              exact iET
      · have hstep : punctTightenAux pend (c :: rest) =
            pend.reverse ++ c :: punctTightenAux [] rest := by
          show (if isPySpace c = true then _
            else if c ∈ tightPunctChars then _
            else pend.reverse ++ c :: punctTightenAux [] rest) = _
          rw [if_neg hws, if_neg hp]
        rw [hstep]
        have hTFu : hasTripleNl (pend.reverse ++ [c]) = false := by
          refine hasTripleNl_of_infix ?_ hTF
          exact ⟨[], rest, by simp⟩
        have hlastu : (pend.reverse ++ [c]).getLast? ≠ some '\n' := by
          rw [List.getLast?_concat]
          intro hcon
          exact hcnl (Option.some.inj hcon)
        constructor
        · rw [List.append_cons]
          exact hasTripleNl_append_of _ _ hTFu iTF hlastu
        · cases haux : punctTightenAux [] rest with
          | nil =>
            exact endsTwoNl_of_getLast _ c (List.getLast?_concat _) hcnl
          | cons d tl =>
            cases tl with
            | nil =>
              have heq := endsTwoNl_append pend.reverse [c, d] (by simp)
              rw [heq, endsTwoNl_pair]
              have hcf : (c = '\n' : Bool) = false := by simpa using hcnl
              rw [hcf]
              simp
            | cons e tl2 =>
              rw [List.append_cons]
              have heq := endsTwoNl_append (pend.reverse ++ [c]) (d :: e :: tl2) (by simp)
              rw [heq]
              rw [haux] at iET
              exact iET

/-- tighten_punctuation preserves the absence of triple newline runs and of
a double trailing newline. -/
theorem tighten_punctuation_preserves (s : Str)
    (hTF : hasTripleNl s = false) (hET : endsTwoNl s = false) :
    hasTripleNl (tighten_punctuation s) = false ∧
    endsTwoNl (tighten_punctuation s) = false :=
  punctTightenAux_preserves s [] (by simpa using hTF) (by simpa using hET)

/-- The blank-run collapse emits at most two newlines in a row: k counts the
newlines of the current run already emitted by the input scan. -/
theorem capNlAux_shape : ∀ (s : Str) (k : Nat),
    hasTripleNl (capNlAux k s) = false ∧
    (1 ≤ k → nlRun (capNlAux k s) ≤ 1) ∧
    (2 ≤ k → nlRun (capNlAux k s) = 0) := by
  intro s
  induction s with
  | nil =>
    intro k
    refine ⟨rfl, fun _ => ?_, fun _ => rfl⟩
    show nlRun [] ≤ 1
    show (0 : Nat) ≤ 1
    omega
  | cons c rest ih =>
    intro k
    by_cases hc : c = '\n'
    · subst hc
      have hstep : capNlAux k ('\n' :: rest) =
          if k < 2 then '\n' :: capNlAux (k + 1) rest else capNlAux (k + 1) rest := by
        show (if ('\n' : Char) = '\n' then _ else _) = _
        rw [if_pos rfl]
      by_cases hk : k < 2
      · rw [hstep, if_pos hk]
        obtain ⟨iTF, i1, i2⟩ := ih (k + 1)
        have hs : startsNlNl (capNlAux (k + 1) rest) = false := by
          cases h : startsNlNl (capNlAux (k + 1) rest) with
          | false => rfl
          | true =>
            have h2 := (startsNlNl_iff_nlRun _).mp h
            have h3 := i1 (by omega)
            omega
        refine ⟨?_, ?_, ?_⟩
        · exact hasTripleNl_cons_of '\n' _ iTF (fun hcc => by rw [hcc.2] at hs; cases hs)
        · intro h1k
          rw [nlRun_cons, if_pos rfl]
          have := i2 (by omega)
          omega
        · intro h2k
          exact absurd h2k (by omega)
      · rw [hstep, if_neg hk]
        obtain ⟨iTF, i1, i2⟩ := ih (k + 1)
        refine ⟨iTF, fun _ => ?_, fun _ => i2 (by omega)⟩
        have := i2 (by omega)
        omega
    · have hstep : capNlAux k (c :: rest) = c :: capNlAux 0 rest := by
        show (if c = '\n' then _ else c :: capNlAux 0 rest) = _
        rw [if_neg hc]
      rw [hstep]
      obtain ⟨iTF, _, _⟩ := ih 0
      refine ⟨?_, fun _ => ?_, fun _ => ?_⟩
      · exact hasTripleNl_cons_of c _ iTF (fun hcc => hc hcc.1)
      · rw [nlRun_cons, if_neg hc]
        omega
      · rw [nlRun_cons, if_neg hc]

theorem collapse_blank_runs_triple_free (m : Str) :
    hasTripleNl (collapse_blank_runs m) = false :=
  (capNlAux_shape m 0).1

theorem head?_dropWhile_false (p : Char → Bool) (s : Str) (c : Char)
    (h : (s.dropWhile p).head? = some c) : p c = false := by
  have hdw := List.head?_dropWhile_not p s
  rw [h] at hdw
  exact hdw

theorem pyLstrip_head_not_space (s : Str) (c : Char)
    (h : (pyLstrip s).head? = some c) : isPySpace c = false := by
  unfold pyLstrip at h
  exact head?_dropWhile_false isPySpace s c h

theorem pyRstrip_prefix_rel (s : Str) : pyRstrip s <+: s := by
  unfold pyRstrip
  have h : s.reverse.dropWhile isPySpace <:+ s.reverse :=
    List.dropWhile_suffix isPySpace
  have h2 := List.reverse_prefix.mpr h
  simpa using h2

theorem pyRstrip_getLast_not_space (s : Str) (c : Char)
    (h : (pyRstrip s).getLast? = some c) : isPySpace c = false := by
  unfold pyRstrip at h
  rw [List.getLast?_reverse] at h
  exact head?_dropWhile_false isPySpace s.reverse c h

theorem pyStrip_getLast_not_space (s : Str) (c : Char)
    (h : (pyStrip s).getLast? = some c) : isPySpace c = false := by
  unfold pyStrip at h
  exact pyRstrip_getLast_not_space (pyLstrip s) c h

theorem pyStrip_head_not_space (s : Str) (c : Char)
    (h : (pyStrip s).head? = some c) : isPySpace c = false := by
  unfold pyStrip at h
  obtain ⟨t, ht⟩ := pyRstrip_prefix_rel (pyLstrip s)
  have hL : (pyLstrip s).head? = some c := by
    rw [← ht]
    cases hx : pyRstrip (pyLstrip s) with
    | nil => rw [hx] at h; cases h
    | cons d ds =>
      rw [hx] at h
      simp only [List.head?_cons] at h
      simp only [List.cons_append, List.head?_cons]
      exact h
  exact pyLstrip_head_not_space s c hL

theorem pyStrip_infix_rel (s : Str) : pyStrip s <:+: s := by
  unfold pyStrip
  have h1 : pyRstrip (pyLstrip s) <+: pyLstrip s := pyRstrip_prefix_rel _
  have h2 : pyLstrip s <:+ s := List.dropWhile_suffix _
  exact h1.isInfix.trans h2.isInfix

/-- The string strip()+"\n" step yields a text with no triple newline run
and a single trailing newline. -/
theorem md2_shape (m : Str) :
    hasTripleNl (pyStrip (collapse_blank_runs m) ++ ['\n']) = false ∧
    endsTwoNl (pyStrip (collapse_blank_runs m) ++ ['\n']) = false := by
  have hTFt : hasTripleNl (pyStrip (collapse_blank_runs m)) = false :=
    hasTripleNl_of_infix (pyStrip_infix_rel _) (collapse_blank_runs_triple_free m)
  constructor
  · cases ht : pyStrip (collapse_blank_runs m) with
    | nil => decide
    | cons d ds =>
      refine hasTripleNl_append_of _ _ ?_ (by decide) ?_
      · rw [← ht]
        exact hTFt
      · intro hcon
        have hws := pyStrip_getLast_not_space (collapse_blank_runs m) '\n'
          (by rw [ht]; exact hcon)
        rw [show isPySpace '\n' = true by decide] at hws
        cases hws
  · unfold endsTwoNl
    rw [List.reverse_append]
    cases hr : (pyStrip (collapse_blank_runs m)).reverse with
    | nil => decide
    | cons d ds =>
      have hd : d ≠ '\n' := by
        have hh : (pyStrip (collapse_blank_runs m)).getLast? = some d := by
          rw [← List.head?_reverse, hr]
          rfl
        intro hdn
        have hws := pyStrip_getLast_not_space _ d hh
        rw [hdn, show isPySpace '\n' = true by decide] at hws
        cases hws
      show ((('\n' : Char) = '\n' : Bool) && (d = '\n' : Bool)) = false
      have hdf : (d = '\n' : Bool) = false := by simpa using hd
      rw [hdf]
      simp

/-- Scanner for newline-separated segments: state 0 at a segment start,
1 inside a segment that has seen only whitespace, 2 after a non-whitespace
character; none when a nonempty all-whitespace segment is closed. -/
def nbRun : Nat → Str → Option Nat
  | st, [] => some st
  | st, c :: r =>
      if c = '\n' then (if st = 1 then none else nbRun 0 r)
      else if isPySpace c then nbRun (if st = 2 then 2 else 1) r
      else nbRun 2 r

/-- No segment of the string is nonempty but all-whitespace (the scan
succeeds and does not end inside such a segment). -/
def nbOk (st : Nat) (s : Str) : Bool :=
  match nbRun st s with
  | some st2 => !(st2 = 1)
  | none => false

def noBlankSeg (s : Str) : Bool := nbOk 0 s

theorem nbRun_cons (st : Nat) (c : Char) (r : Str) :
    nbRun st (c :: r) =
      if c = '\n' then (if st = 1 then none else nbRun 0 r)
      else if isPySpace c then nbRun (if st = 2 then 2 else 1) r
      else nbRun 2 r := rfl

theorem nbRun_append : ∀ (x : Str) (st : Nat) (z : Str),
    nbRun st (x ++ z) = (nbRun st x).bind (fun st2 => nbRun st2 z) := by
  intro x
  induction x with
  | nil => intro st z; rfl
  | cons c r ih =>
    intro st z
    rw [List.cons_append, nbRun_cons, nbRun_cons st c r]
    by_cases hc : c = '\n'
    · rw [if_pos hc, if_pos hc]
      by_cases h1 : st = 1
      · rw [if_pos h1, if_pos h1]; rfl
      · rw [if_neg h1, if_neg h1]; exact ih 0 z
    · rw [if_neg hc, if_neg hc]
      by_cases hw : isPySpace c
      · rw [if_pos hw, if_pos hw]; exact ih _ z
      · rw [if_neg hw, if_neg hw]; exact ih 2 z

theorem noBlankSeg_append_nl (x z : Str) (hx : noBlankSeg x = true)
    (hz : noBlankSeg z = true) : noBlankSeg (x ++ '\n' :: z) = true := by
  unfold noBlankSeg nbOk at hx hz ⊢
  rw [nbRun_append]
  cases hrx : nbRun 0 x with
  | none => rw [hrx] at hx; cases hx
  | some st =>
    rw [hrx] at hx
    have hst : st ≠ 1 := by simpa using hx
    have hstep : nbRun st ('\n' :: z) = nbRun 0 z := by
      rw [nbRun_cons, if_pos rfl, if_neg hst]
    show (match (some st).bind (fun st2 => nbRun st2 ('\n' :: z)) with
      | some st2 => !(st2 = 1)
      | none => false) = true
    rw [Option.some_bind, hstep]
    exact hz

theorem nbOk_one_imp_zero : ∀ (r : Str), nbOk 1 r = true → nbOk 0 r = true := by
  intro r
  induction r with
  | nil => intro h; cases h
  | cons c rest ih =>
    intro h
    unfold nbOk at h ⊢
    rw [nbRun_cons] at h ⊢
    by_cases hc : c = '\n'
    · rw [if_pos hc] at h ⊢
      rw [if_pos rfl] at h
      cases h
    · rw [if_neg hc] at h ⊢
      by_cases hw : isPySpace c
      · rw [if_pos hw] at h ⊢
        simpa using h
      · rw [if_neg hw] at h ⊢
        exact h

theorem nbRun_two_of_nlFree : ∀ (e : Str), (∀ c ∈ e, c ≠ '\n') →
    nbRun 2 e = some 2 := by
  intro e
  induction e with
  | nil => intro _; rfl
  | cons c rest ih =>
    intro h
    rw [nbRun_cons]
    rw [if_neg (h c (List.mem_cons_self _ _))]
    by_cases hw : isPySpace c
    · rw [if_pos hw, if_pos rfl]
      exact ih (fun d hd => h d (List.mem_cons_of_mem _ hd))
    · rw [if_neg hw]
      exact ih (fun d hd => h d (List.mem_cons_of_mem _ hd))

theorem nbRun_nlFree_nonws : ∀ (e : Str) (st : Nat), (∀ c ∈ e, c ≠ '\n') →
    (∃ c ∈ e, isPySpace c = false) → nbRun st e = some 2 := by
  intro e
  induction e with
  | nil => intro st _ hex; rcases hex with ⟨c, hc, _⟩; cases hc
  | cons c rest ih =>
    intro st hnl hex
    rw [nbRun_cons, if_neg (hnl c (List.mem_cons_self _ _))]
    by_cases hw : isPySpace c
    · rcases hex with ⟨d, hd, hdw⟩
      have hdr : d ∈ rest := by
        rcases List.mem_cons.mp hd with h | h
        · rw [h] at hdw; rw [hdw] at hw; cases hw
        · exact h
      rw [if_pos hw]
      exact ih _ (fun x hx => hnl x (List.mem_cons_of_mem _ hx)) ⟨d, hdr, hdw⟩
    · rw [if_neg hw]
      exact nbRun_two_of_nlFree rest (fun x hx => hnl x (List.mem_cons_of_mem _ hx))

theorem mem_dropWhile_of_not (p : Char → Bool) : ∀ (l : Str) (c : Char),
    c ∈ l → p c = false → c ∈ l.dropWhile p := by
  intro l
  induction l with
  | nil => intro c hc _; cases hc
  | cons a rest ih =>
    intro c hc hp
    rw [List.dropWhile_cons]
    by_cases ha : p a
    · rw [if_pos ha]
      rcases List.mem_cons.mp hc with h | h
      · rw [h] at hp; rw [hp] at ha; cases ha
      · exact ih c h hp
    · rw [if_neg ha]
      exact hc

theorem mem_pyRstrip_of_nonws (e : Str) (c : Char) (hc : c ∈ e)
    (hw : isPySpace c = false) : c ∈ pyRstrip e := by
  unfold pyRstrip
  rw [List.mem_reverse]
  exact mem_dropWhile_of_not isPySpace e.reverse c (List.mem_reverse.mpr hc) hw

theorem pyStrip_ne_nil_of_mem_nonws (e : Str) (c : Char) (hc : c ∈ e)
    (hw : isPySpace c = false) : (pyStrip e).isEmpty = false := by
  unfold pyStrip
  have h1 : c ∈ pyLstrip e := mem_dropWhile_of_not isPySpace e c hc hw
  have h2 : c ∈ pyRstrip (pyLstrip e) := mem_pyRstrip_of_nonws _ c h1 hw
  cases hx : pyRstrip (pyLstrip e) with
  | nil => rw [hx] at h2; cases h2
  | cons d ds => rfl

theorem noBlankSeg_of_nlFree_nonblank (e : Str) (hnl : ∀ c ∈ e, c ≠ '\n')
    (hnb : (pyStrip e).isEmpty = false) : noBlankSeg e = true := by
  have hex : ∃ c ∈ e, isPySpace c = false := by
    by_contra hcon
    push_neg at hcon
    have hall : ∀ c ∈ e, isPySpace c = true := by
      intro c hc
      cases hv : isPySpace c with
      | true => rfl
      | false => exact absurd hv (hcon c hc)
    have hl : pyLstrip e = [] := by
      unfold pyLstrip
      rw [List.dropWhile_eq_nil_iff]
      exact hall
    unfold pyStrip at hnb
    rw [hl] at hnb
    cases hnb
  unfold noBlankSeg nbOk
  rw [nbRun_nlFree_nonws e 0 hnl hex]
  rfl

theorem noBlankSeg_nil : noBlankSeg [] = true := rfl

theorem nbRun_last_nonws : ∀ (p : Str) (z : Char), p.getLast? = some z →
    isPySpace z = false → ∀ st, nbRun st p = some 2 ∨ nbRun st p = none := by
  intro p
  induction p with
  | nil => intro z hz; cases hz
  | cons a rest ih =>
    intro z hz hw st
    cases rest with
    | nil =>
      have ha : a = z := by simpa using hz
      subst ha
      rw [nbRun_cons]
      have hanl : ¬ a = '\n' := by
        intro hcon
        rw [hcon] at hw
        rw [show isPySpace '\n' = true by decide] at hw
        cases hw
      rw [if_neg hanl, if_neg (by simpa using hw : ¬ isPySpace a = true)]
      exact Or.inl rfl
    | cons b rest2 =>
      have hz2 : (b :: rest2).getLast? = some z := by
        rw [List.getLast?_cons_cons] at hz
        exact hz
      rw [nbRun_cons]
      by_cases ha : a = '\n'
      · rw [if_pos ha]
        by_cases h1 : st = 1
        · rw [if_pos h1]; exact Or.inr rfl
        · rw [if_neg h1]; exact ih z hz2 hw 0
      · rw [if_neg ha]
        by_cases hwb : isPySpace a
        · rw [if_pos hwb]; exact ih z hz2 hw _
        · rw [if_neg hwb]; exact ih z hz2 hw 2

/-- A prefix that ends in a non-whitespace character inherits the absence of
blank segments. -/
theorem noBlankSeg_of_prefix (p s : Str) (hp : p <+: s)
    (hlast : ∀ z, p.getLast? = some z → isPySpace z = false)
    (hs : noBlankSeg s = true) : noBlankSeg p = true := by
  obtain ⟨t, ht⟩ := hp
  cases hzl : p.getLast? with
  | none =>
    rw [List.getLast?_eq_none_iff] at hzl
    rw [hzl]
    exact noBlankSeg_nil
  | some z =>
    have hzw := hlast z hzl
    rcases nbRun_last_nonws p z hzl hzw 0 with h2 | h2
    · unfold noBlankSeg nbOk
      rw [h2]
      rfl
    · unfold noBlankSeg nbOk at hs
      rw [← ht, nbRun_append, h2] at hs
      cases hs

theorem pyLstrip_noBlankSeg (s : Str) (h : noBlankSeg s = true) :
    noBlankSeg (pyLstrip s) = true := by
  unfold pyLstrip
  induction s with
  | nil => exact h
  | cons c rest ih =>
    rw [List.dropWhile_cons]
    by_cases hw : isPySpace c
    · rw [if_pos hw]
      apply ih
      unfold noBlankSeg nbOk at h ⊢
      rw [nbRun_cons] at h
      by_cases hc : c = '\n'
      · rw [if_pos hc, if_neg (by omega : ¬ (0 : Nat) = 1)] at h
        exact h
      · rw [if_neg hc, if_pos hw] at h
        have h1 : nbOk 1 rest = true := by
          unfold nbOk
          simpa using h
        have h0 := nbOk_one_imp_zero rest h1
        unfold nbOk at h0
        exact h0
    · rw [if_neg hw]
      exact h

theorem pyRstrip_noBlankSeg (s : Str) (h : noBlankSeg s = true) :
    noBlankSeg (pyRstrip s) = true := by
  refine noBlankSeg_of_prefix (pyRstrip s) s (pyRstrip_prefix_rel s) ?_ h
  intro z hz
  exact pyRstrip_getLast_not_space s z hz

theorem pyStrip_noBlankSeg (s : Str) (h : noBlankSeg s = true) :
    noBlankSeg (pyStrip s) = true := by
  unfold pyStrip
  exact pyRstrip_noBlankSeg _ (pyLstrip_noBlankSeg _ h)

/-- Deleting third-and-later newlines of a run never creates a blank
segment: the scanner states of input and output stay equal (any dropped
newline sits right after two emitted ones, where both states are 0). -/
theorem capNlAux_nbOk : ∀ (s : Str) (k : Nat) (st : Nat), (1 ≤ k → st = 0) →
    nbOk st s = true → nbOk st (capNlAux k s) = true := by
  intro s
  induction s with
  | nil => intro k st _ h; exact h
  | cons c rest ih =>
    intro k st hk h
    by_cases hc : c = '\n'
    · subst hc
      have hst : ¬ st = 1 := by
        intro h1
        unfold nbOk at h
        rw [nbRun_cons, if_pos rfl, if_pos h1] at h
        cases h
      have hin : nbOk 0 rest = true := by
        unfold nbOk at h ⊢
        rw [nbRun_cons, if_pos rfl, if_neg hst] at h
        exact h
      have hstep : capNlAux k ('\n' :: rest) =
          if k < 2 then '\n' :: capNlAux (k + 1) rest else capNlAux (k + 1) rest := by
        show (if ('\n' : Char) = '\n' then _ else _) = _
        rw [if_pos rfl]
      by_cases hlt : k < 2
      · rw [hstep, if_pos hlt]
        unfold nbOk
        rw [nbRun_cons, if_pos rfl, if_neg hst]
        have hout := ih (k + 1) 0 (fun _ => rfl) hin
        unfold nbOk at hout
        exact hout
      · rw [hstep, if_neg hlt]
        have hst0 : st = 0 := hk (by omega)
        subst hst0
        exact ih (k + 1) 0 (fun _ => rfl) hin
    · have hstep : capNlAux k (c :: rest) = c :: capNlAux 0 rest := by
        show (if c = '\n' then _ else c :: capNlAux 0 rest) = _
        rw [if_neg hc]
      rw [hstep]
      unfold nbOk at h ⊢
      rw [nbRun_cons, if_neg hc] at h ⊢
      by_cases hw : isPySpace c
      · rw [if_pos hw] at h ⊢
        have := ih 0 (if st = 2 then 2 else 1) (by omega) (by unfold nbOk; exact h)
        unfold nbOk at this
        exact this
      · rw [if_neg hw] at h ⊢
        have := ih 0 2 (by omega) (by unfold nbOk; exact h)
        unfold nbOk at this
        exact this

theorem collapse_blank_runs_noBlankSeg (m : Str) (h : noBlankSeg m = true) :
    noBlankSeg (collapse_blank_runs m) = true :=
  capNlAux_nbOk m 0 0 (by omega) h

/-- Structural form of the newline join used by the renderer. -/
def joinNl : List Str → Str
  | [] => []
  | [x] => x
  | x :: y :: r => x ++ '\n' :: joinNl (y :: r)

theorem intercalate_nl_eq_joinNl : ∀ (l : List Str),
    List.intercalate ['\n'] l = joinNl l := by
  intro l
  match l with
  | [] => rfl
  | [x] =>
    show (List.intersperse ['\n'] [x]).flatten = x
    simp [List.intercalate]
  | x :: y :: r =>
    show (List.intersperse ['\n'] (x :: y :: r)).flatten = x ++ '\n' :: joinNl (y :: r)
    rw [List.intersperse_cons₂]
    rw [show (x :: ['\n'] :: List.intersperse ['\n'] (y :: r)).flatten =
      x ++ ['\n'].append (List.intersperse ['\n'] (y :: r)).flatten from rfl]
    rw [← intercalate_nl_eq_joinNl (y :: r)]
    rfl

theorem joinNl_head_of_ne (y : Str) (r : List Str) (hy : y ≠ []) :
    (joinNl (y :: r)).head? = y.head? := by
  cases r with
  | nil => rfl
  | cons z r2 =>
    show (y ++ '\n' :: joinNl (z :: r2)).head? = y.head?
    cases y with
    | nil => exact absurd rfl hy
    | cons d ds => rfl

theorem startsNlNl_of_nlFree (x : Str) (h : ∀ c ∈ x, c ≠ '\n') :
    startsNlNl x = false := by
  match x with
  | [] => rfl
  | [a] => rfl
  | a :: b :: r =>
    show ((a = '\n' : Bool) && _) = false
    have ha : (a = '\n' : Bool) = false := by
      simpa using h a (List.mem_cons_self _ _)
    rw [ha]
    simp

/-- Head-of-list emptiness test. -/
def headEmptyB : List Str → Bool
  | e :: _ => e.isEmpty
  | [] => false

/-- Does the list contain two adjacent empty strings? -/
def hasAdjEmpty : List Str → Bool
  | a :: b :: r => (a.isEmpty && b.isEmpty) || hasAdjEmpty (b :: r)
  | _ => false

theorem hasAdjEmpty_cons (a : Str) (l : List Str) :
    hasAdjEmpty (a :: l) = ((a.isEmpty && headEmptyB l) || hasAdjEmpty l) := by
  match l with
  | [] => simp [hasAdjEmpty, headEmptyB]
  | b :: r => rfl

theorem hasAdjEmpty_iff (l : List Str) :
    hasAdjEmpty l = true ↔ ∃ u v, l = u ++ ([] : Str) :: ([] : Str) :: v := by
  constructor
  · intro h
    induction l with
    | nil => cases h
    | cons a l2 ih =>
      rw [hasAdjEmpty_cons] at h
      simp only [Bool.or_eq_true] at h
      rcases h with h1 | h1
      · obtain ⟨ha, hb⟩ := Bool.and_eq_true_iff.mp h1
        have ha2 : a = [] := by simpa using ha
        match l2, hb with
        | b :: r, hb =>
          have hb2 : b = [] := by
            have : b.isEmpty = true := hb
            simpa using this
          subst ha2 hb2
          exact ⟨[], r, rfl⟩
      · rcases ih h1 with ⟨u, v, huv⟩
        exact ⟨a :: u, v, by rw [huv]; rfl⟩
  · rintro ⟨u, v, huv⟩
    subst huv
    induction u with
    | nil => simp [hasAdjEmpty]
    | cons a u2 ih =>
      rw [List.cons_append, hasAdjEmpty_cons, ih]
      simp

theorem hasAdjEmpty_reverse (l : List Str) :
    hasAdjEmpty l.reverse = hasAdjEmpty l := by
  cases h : hasAdjEmpty l with
  | true =>
    rcases (hasAdjEmpty_iff l).mp h with ⟨u, v, huv⟩
    have : l.reverse = v.reverse ++ ([] : Str) :: ([] : Str) :: u.reverse := by
      rw [huv]
      simp
    exact (hasAdjEmpty_iff l.reverse).mpr ⟨v.reverse, u.reverse, this⟩
  | false =>
    cases h2 : hasAdjEmpty l.reverse with
    | false => rfl
    | true =>
      rcases (hasAdjEmpty_iff l.reverse).mp h2 with ⟨u, v, huv⟩
      have hl : l = v.reverse ++ ([] : Str) :: ([] : Str) :: u.reverse := by
        have := congrArg List.reverse huv
        simpa using this
      rw [(hasAdjEmpty_iff l).mpr ⟨v.reverse, u.reverse, hl⟩] at h
      cases h

/-- The newline join of newline-free lines without two adjacent empty lines
never starts with two newlines. -/
theorem startsNlNl_joinNl (l : List Str)
    (hnl : ∀ e ∈ l, ∀ c ∈ e, c ≠ '\n')
    (hadj : hasAdjEmpty l = false) : startsNlNl (joinNl l) = false := by
  match l with
  | [] => rfl
  | [x] => exact startsNlNl_of_nlFree x (hnl x (List.mem_cons_self _ _))
  | x :: y :: r =>
    show startsNlNl (x ++ '\n' :: joinNl (y :: r)) = false
    cases hx : x with
    | nil =>
      have hy : y ≠ [] := by
        intro hy0
        rw [hasAdjEmpty_cons] at hadj
        rw [hx, hy0] at hadj
        simp [headEmptyB] at hadj
      rw [List.nil_append]
      obtain ⟨d, ds, hyv⟩ : ∃ d ds, y = d :: ds := by
        cases y with
        | nil => exact absurd rfl hy
        | cons d ds => exact ⟨d, ds, rfl⟩
      have hd : d ≠ '\n' := by
        have h2 := hnl y (List.mem_cons_of_mem _ (List.mem_cons_self _ _))
        rw [hyv] at h2
        exact h2 d (List.mem_cons_self _ _)
      have hh : (joinNl (y :: r)).head? = some d := by
        rw [joinNl_head_of_ne y r hy, hyv]
        rfl
      cases hj : joinNl (y :: r) with
      | nil => rfl
      | cons e es =>
        rw [hj] at hh
        have he : e = d := by simpa using hh
        show ((('\n' : Char) = '\n' : Bool) && (e = '\n' : Bool)) = false
        have hef : (e = '\n' : Bool) = false := by
          rw [he]
          simpa using hd
        rw [hef]
        simp
    | cons d ds =>
      have hd : d ≠ '\n' := by
        have h2 := hnl x (List.mem_cons_self _ _)
        rw [hx] at h2
        exact h2 d (List.mem_cons_self _ _)
      have hdf : (d = '\n' : Bool) = false := by simpa using hd
      cases ds with
      | nil =>
        show ((d = '\n' : Bool) && ((('\n' : Char) = '\n' : Bool))) = false
        rw [hdf]
        simp
      | cons e es =>
        show ((d = '\n' : Bool) && (e = '\n' : Bool)) = false
        rw [hdf]
        simp

theorem hasAdjEmpty_tail (a : Str) (l : List Str)
    (h : hasAdjEmpty (a :: l) = false) : hasAdjEmpty l = false := by
  rw [hasAdjEmpty_cons] at h
  cases hb : hasAdjEmpty l with
  | false => rfl
  | true => rw [hb] at h; simp at h

/-- The newline join of newline-free lines without two adjacent empty lines
contains no triple newline run. -/
theorem joinNl_triple_free : ∀ (l : List Str), (∀ e ∈ l, ∀ c ∈ e, c ≠ '\n') →
    hasAdjEmpty l = false → hasTripleNl (joinNl l) = false := by
  intro l
  induction l with
  | nil => intro _ _; rfl
  | cons x l2 ih =>
    intro hnl hadj
    cases l2 with
    | nil => exact hasTripleNl_of_no_nl x (hnl x (List.mem_cons_self _ _))
    | cons y r =>
      show hasTripleNl (x ++ '\n' :: joinNl (y :: r)) = false
      have htail_nl : ∀ e ∈ y :: r, ∀ c ∈ e, c ≠ '\n' :=
        fun e he => hnl e (List.mem_cons_of_mem _ he)
      have htail_adj : hasAdjEmpty (y :: r) = false := hasAdjEmpty_tail x _ hadj
      have hJ := ih htail_nl htail_adj
      have hstarts := startsNlNl_joinNl (y :: r) htail_nl htail_adj
      have hconsTF : hasTripleNl ('\n' :: joinNl (y :: r)) = false := by
        apply hasTripleNl_cons_of _ _ hJ
        rintro ⟨_, hs⟩
        rw [hstarts] at hs
        cases hs
      cases hx : x with
      | nil => simpa using hconsTF
      | cons d ds =>
        refine hasTripleNl_append_of _ _ ?_ hconsTF ?_
        · rw [← hx]
          exact hasTripleNl_of_no_nl x (hnl x (List.mem_cons_self _ _))
        · intro hcon
          have hz : '\n' ∈ (d :: ds) := List.mem_of_mem_getLast? (by rw [hcon]; rfl)
          have hz2 : '\n' ∈ x := by rw [hx]; exact hz
          exact hnl x (List.mem_cons_self _ _) '\n' hz2 rfl

theorem joinNl_getLast : ∀ (l : List Str) (e : Str) (z : Char),
    l.getLast? = some e → e.getLast? = some z → (joinNl l).getLast? = some z := by
  intro l
  induction l with
  | nil => intro e z h _; cases h
  | cons x l2 ih =>
    intro e z h1 h2
    cases l2 with
    | nil =>
      have hx : x = e := by simpa using h1
      rw [show joinNl [x] = x from rfl, hx]
      exact h2
    | cons y r =>
      have h1b : (y :: r).getLast? = some e := by
        rw [List.getLast?_cons_cons] at h1
        exact h1
      have hJ := ih e z h1b h2
      show (x ++ '\n' :: joinNl (y :: r)).getLast? = some z
      rw [List.getLast?_append]
      have hcons : ('\n' :: joinNl (y :: r)).getLast? = some z := by
        cases hj : joinNl (y :: r) with
        | nil => rw [hj] at hJ; cases hJ
        | cons w ws =>
          rw [List.getLast?_cons_cons]
          rw [hj] at hJ
          exact hJ
      rw [hcons]
      rfl

theorem noBlankSeg_joinNl : ∀ (l : List Str), (∀ e ∈ l, noBlankSeg e = true) →
    noBlankSeg (joinNl l) = true := by
  intro l
  induction l with
  | nil => intro _; rfl
  | cons x l2 ih =>
    intro h
    cases l2 with
    | nil => exact h x (List.mem_cons_self _ _)
    | cons y r =>
      show noBlankSeg (x ++ '\n' :: joinNl (y :: r)) = true
      exact noBlankSeg_append_nl x (joinNl (y :: r))
        (h x (List.mem_cons_self _ _))
        (ih (fun e he => h e (List.mem_cons_of_mem _ he)))

/-- A character is clean when it is not a line boundary other than the
newline: on clean text Python str.splitlines is a pure newline split. -/
def cleanChar (c : Char) : Bool := !(decide (c ∈ lineBoundaryChars) && !(c = '\n'))

def cleanStr (s : Str) : Bool := s.all cleanChar

theorem cleanStr_of_subset (s t : Str) (hsub : ∀ c ∈ t, c ∈ s)
    (hs : cleanStr s = true) : cleanStr t = true := by
  rw [cleanStr, List.all_eq_true] at hs ⊢
  exact fun c hc => hs c (hsub c hc)

theorem mem_capNlAux : ∀ (s : Str) (k : Nat) (c : Char),
    c ∈ capNlAux k s → c ∈ s := by
  intro s
  induction s with
  | nil => intro k c hc; cases hc
  | cons d rest ih =>
    intro k c hc
    by_cases hd : d = '\n'
    · subst hd
      have hstep : capNlAux k ('\n' :: rest) =
          if k < 2 then '\n' :: capNlAux (k + 1) rest else capNlAux (k + 1) rest := by
        show (if ('\n' : Char) = '\n' then _ else _) = _
        rw [if_pos rfl]
      rw [hstep] at hc
      by_cases hk : k < 2
      · rw [if_pos hk] at hc
        rcases List.mem_cons.mp hc with h | h
        · rw [h]; exact List.mem_cons_self _ _
        · exact List.mem_cons_of_mem _ (ih _ c h)
      · rw [if_neg hk] at hc
        exact List.mem_cons_of_mem _ (ih _ c hc)
    · have hstep : capNlAux k (d :: rest) = d :: capNlAux 0 rest := by
        show (if d = '\n' then _ else d :: capNlAux 0 rest) = _
        rw [if_neg hd]
      rw [hstep] at hc
      rcases List.mem_cons.mp hc with h | h
      · rw [h]; exact List.mem_cons_self _ _
      · exact List.mem_cons_of_mem _ (ih _ c h)

theorem cleanStr_capNlAux (s : Str) (k : Nat) (h : cleanStr s = true) :
    cleanStr (capNlAux k s) = true :=
  cleanStr_of_subset s _ (fun c hc => mem_capNlAux s k c hc) h

theorem cleanStr_pyStrip (s : Str) (h : cleanStr s = true) :
    cleanStr (pyStrip s) = true :=
  cleanStr_of_subset s _ (fun _ hc => (pyStrip_infix_rel s).sublist.mem hc) h

theorem cleanStr_append_nl (t : Str) (h : cleanStr t = true) :
    cleanStr (t ++ ['\n']) = true := by
  unfold cleanStr at h ⊢
  rw [List.all_append, h]
  decide

/-- Closed-line split of a string assumed to be followed by one more
newline: every scanned line is emitted, including the final one. -/
def splitClosed (cur : Str) : Str → List Str
  | [] => [cur.reverse]
  | c :: rest =>
      if c = '\n' then cur.reverse :: splitClosed [] rest
      else splitClosed (c :: cur) rest

/-- Pure newline split with Python's trailing behaviour (no empty final
line after a trailing newline). -/
def splitNlAux (cur : Str) : Str → List Str
  | [] => if cur.isEmpty then [] else [cur.reverse]
  | c :: rest =>
      if c = '\n' then cur.reverse :: splitNlAux [] rest
      else splitNlAux (c :: cur) rest

/-- On clean text Python splitlines is the pure newline split. -/
theorem pySplitlinesAux_clean : ∀ (s : Str) (cur : Str), cleanStr s = true →
    pySplitlinesAux false cur s = splitNlAux cur s := by
  intro s
  induction s with
  | nil => intro cur _; rfl
  | cons c rest ih =>
    intro cur hclean
    have hcc : cleanChar c = true := by
      rw [cleanStr, List.all_eq_true] at hclean
      exact hclean c (List.mem_cons_self _ _)
    have hrest : cleanStr rest = true := by
      rw [cleanStr, List.all_eq_true] at hclean ⊢
      exact fun d hd => hclean d (List.mem_cons_of_mem _ hd)
    have hstep : pySplitlinesAux false cur (c :: rest) =
        if c = '\r' then cur.reverse :: pySplitlinesAux true [] rest
        else if c = '\n' then cur.reverse :: pySplitlinesAux false [] rest
        else if c ∈ lineBoundaryChars then cur.reverse :: pySplitlinesAux false [] rest
        else pySplitlinesAux false (c :: cur) rest := rfl
    have hstep2 : splitNlAux cur (c :: rest) =
        if c = '\n' then cur.reverse :: splitNlAux [] rest
        else splitNlAux (c :: cur) rest := rfl
    rw [hstep, hstep2]
    by_cases hr : c = '\r'
    · exfalso
      rw [hr] at hcc
      rw [show cleanChar '\r' = false by decide] at hcc
      cases hcc
    · rw [if_neg hr]
      by_cases hn : c = '\n'
      · rw [if_pos hn, if_pos hn, ih [] hrest]
      · rw [if_neg hn, if_neg hn]
        by_cases hb : c ∈ lineBoundaryChars
        · exfalso
          unfold cleanChar at hcc
          rw [decide_eq_true hb] at hcc
          have hnn : (c = '\n' : Bool) = false := by simpa using hn
          rw [hnn] at hcc
          cases hcc
        · rw [if_neg hb]
          exact ih (c :: cur) hrest

theorem splitNlAux_append_nl : ∀ (u : Str) (cur : Str) (v : Str),
    splitNlAux cur (u ++ '\n' :: v) = splitClosed cur u ++ splitNlAux [] v := by
  intro u
  induction u with
  | nil =>
    intro cur v
    show (if ('\n' : Char) = '\n' then cur.reverse :: splitNlAux [] v else _) =
      [cur.reverse] ++ splitNlAux [] v
    rw [if_pos rfl]
    rfl
  | cons c u2 ih =>
    intro cur v
    show (if c = '\n' then cur.reverse :: splitNlAux [] (u2 ++ '\n' :: v)
      else splitNlAux (c :: cur) (u2 ++ '\n' :: v)) =
      (if c = '\n' then cur.reverse :: splitClosed [] u2
       else splitClosed (c :: cur) u2) ++ splitNlAux [] v
    by_cases hc : c = '\n'
    · rw [if_pos hc, if_pos hc, ih []]
      rfl
    · rw [if_neg hc, if_neg hc, ih (c :: cur)]

theorem splitClosed_ne_nil : ∀ (u : Str) (cur : Str), splitClosed cur u ≠ [] := by
  intro u
  induction u with
  | nil => intro cur h; cases h
  | cons c u2 ih =>
    intro cur
    show (if c = '\n' then cur.reverse :: splitClosed [] u2
      else splitClosed (c :: cur) u2) ≠ []
    by_cases hc : c = '\n'
    · rw [if_pos hc]; exact fun h => List.noConfusion h
    · rw [if_neg hc]; exact ih (c :: cur)

theorem splitClosed_elems_nlFree : ∀ (u : Str) (cur : Str),
    (∀ c ∈ cur, c ≠ '\n') → ∀ e ∈ splitClosed cur u, ∀ c ∈ e, c ≠ '\n' := by
  intro u
  induction u with
  | nil =>
    intro cur hcur e he c hc
    simp only [splitClosed, List.mem_singleton] at he
    rw [he] at hc
    exact hcur c (List.mem_reverse.mp hc)
  | cons d u2 ih =>
    intro cur hcur e he c hc
    by_cases hd : d = '\n'
    · rw [show splitClosed cur (d :: u2) = cur.reverse :: splitClosed [] u2 by
        show (if d = '\n' then _ else _) = _
        rw [if_pos hd]] at he
      rcases List.mem_cons.mp he with h | h
      · rw [h] at hc
        exact hcur c (List.mem_reverse.mp hc)
      · exact ih [] (fun x hx => absurd hx (List.not_mem_nil x)) e h c hc
    · rw [show splitClosed cur (d :: u2) = splitClosed (d :: cur) u2 by
        show (if d = '\n' then _ else _) = _
        rw [if_neg hd]] at he
      refine ih (d :: cur) ?_ e he c hc
      intro x hx
      rcases List.mem_cons.mp hx with h | h
      · rw [h]; exact hd
      · exact hcur x h

theorem splitClosed_last : ∀ (u : Str) (cur : Str) (z : Char),
    u.getLast? = some z → z ≠ '\n' →
    ∃ e, (splitClosed cur u).getLast? = some e ∧ e.getLast? = some z := by
  intro u
  induction u with
  | nil => intro cur z hz; cases hz
  | cons c u2 ih =>
    intro cur z hz hznl
    cases u2 with
    | nil =>
      have hcz : c = z := by simpa using hz
      subst hcz
      have hstep : splitClosed cur [c] = [cur.reverse ++ [c]] := by
        show (if c = '\n' then _ else splitClosed (c :: cur) []) = _
        rw [if_neg hznl]
        show [(c :: cur).reverse] = _
        rw [List.reverse_cons]
      rw [hstep]
      exact ⟨cur.reverse ++ [c], rfl, List.getLast?_concat _⟩
    | cons d u3 =>
      have hz2 : (d :: u3).getLast? = some z := by
        rw [List.getLast?_cons_cons] at hz
        exact hz
      by_cases hc : c = '\n'
      · rw [show splitClosed cur (c :: d :: u3) = cur.reverse :: splitClosed [] (d :: u3) by
          show (if c = '\n' then _ else _) = _
          rw [if_pos hc]]
        obtain ⟨e, he1, he2⟩ := ih [] z hz2 hznl
        refine ⟨e, ?_, he2⟩
        cases hsc : splitClosed [] (d :: u3) with
        | nil => exact absurd hsc (splitClosed_ne_nil _ _)
        | cons w ws =>
          rw [List.getLast?_cons_cons]
          rw [hsc] at he1
          exact he1
      · rw [show splitClosed cur (c :: d :: u3) = splitClosed (c :: cur) (d :: u3) by
          show (if c = '\n' then _ else _) = _
          rw [if_neg hc]]
        exact ih (c :: cur) z hz2 hznl

theorem hasTripleNl_tail (c : Char) (x : Str) (h : hasTripleNl (c :: x) = false) :
    hasTripleNl x = false := by
  rw [hasTripleNl_cons] at h
  cases hx : hasTripleNl x with
  | false => rfl
  | true => rw [hx] at h; simp at h

/-- The closed-line split of a string with no triple newline run, not
starting with two newlines relative to the carried line, and not ending in
a newline, has no two adjacent empty lines; an empty first line arises only
from an empty carry and a leading newline. -/
theorem splitClosed_adjEmpty : ∀ (u : Str) (cur : Str),
    hasTripleNl u = false →
    ¬(cur = [] ∧ startsNlNl u = true) →
    u.getLast? ≠ some '\n' →
    hasAdjEmpty (splitClosed cur u) = false ∧
    ((splitClosed cur u).head? = some [] →
      cur = [] ∧ (u.head? = some '\n' ∨ u = [])) := by
  intro u
  induction u with
  | nil =>
    intro cur _ _ _
    constructor
    · rfl
    · intro h
      have h2 : some cur.reverse = some ([] : Str) := h
      have hrev : cur.reverse = [] := Option.some.inj h2
      exact ⟨by simpa using hrev, Or.inr rfl⟩
  | cons c u2 ih =>
    intro cur hTF hstart hlast
    by_cases hc : c = '\n'
    · subst hc
      have hstep : splitClosed cur ('\n' :: u2) = cur.reverse :: splitClosed [] u2 := by
        show (if ('\n' : Char) = '\n' then _ else _) = _
        rw [if_pos rfl]
      cases u2 with
      | nil =>
        exfalso
        exact hlast (by rfl)
      | cons d u3 =>
        have hTF2 : hasTripleNl (d :: u3) = false := hasTripleNl_tail _ _ hTF
        have hstart2 : startsNlNl (d :: u3) = false := by
          cases hs : startsNlNl (d :: u3) with
          | false => rfl
          | true =>
            have : hasTripleNl ('\n' :: d :: u3) = true := by
              rw [hasTripleNl_cons, hs]
              simp
            rw [hTF] at this
            cases this
        have hlast2 : (d :: u3).getLast? ≠ some '\n' := by
          rw [List.getLast?_cons_cons] at hlast
          exact hlast
        obtain ⟨adj2, hd2⟩ := ih [] hTF2 (fun hh => by rw [hstart2] at hh; cases hh.2) hlast2
        rw [hstep]
        constructor
        · rw [hasAdjEmpty_cons, adj2, Bool.or_false]
          cases hce : cur.reverse.isEmpty with
          | false => simp
          | true =>
            cases hhe : headEmptyB (splitClosed [] (d :: u3)) with
            | false => simp
            | true =>
              exfalso
              have hcur : cur = [] := by
                have : cur.reverse = [] := by simpa using hce
                simpa using this
              have hheadL : (splitClosed [] (d :: u3)).head? = some [] := by
                cases hsc : splitClosed [] (d :: u3) with
                | nil => exact absurd hsc (splitClosed_ne_nil _ _)
                | cons w ws =>
                  rw [hsc] at hhe
                  have hw1 : w.isEmpty = true := hhe
                  have hw : w = [] := by simpa using hw1
                  rw [hw]
                  rfl
              rcases hd2 hheadL with ⟨_, hor⟩
              rcases hor with hh | hh
              · have hdnl : d = '\n' := by simpa using hh
                apply hstart
                refine ⟨hcur, ?_⟩
                rw [hdnl]
                rfl
              · cases hh
        · intro hh
          rw [show (cur.reverse :: splitClosed [] (d :: u3)).head? = some cur.reverse
            from rfl] at hh
          have hcur : cur = [] := by
            have : cur.reverse = [] := by simpa using hh
            simpa using this
          exact ⟨hcur, Or.inl rfl⟩
    · have hstep : splitClosed cur (c :: u2) = splitClosed (c :: cur) u2 := by
        show (if c = '\n' then _ else _) = _
        rw [if_neg hc]
      rw [hstep]
      have hTF2 : hasTripleNl u2 = false := hasTripleNl_tail _ _ hTF
      have hlast2 : u2.getLast? ≠ some '\n' := by
        cases u2 with
        | nil => intro hcon; cases hcon
        | cons d u3 =>
          rw [List.getLast?_cons_cons] at hlast
          exact hlast
      obtain ⟨adj2, hd2⟩ := ih (c :: cur) hTF2 (fun hh => List.noConfusion hh.1) hlast2
      refine ⟨adj2, ?_⟩
      intro hh
      rcases hd2 hh with ⟨hcon, _⟩
      cases hcon

/-- Lines of the closed split of a blank-segment-free string are empty
whenever they are blank. -/
theorem splitClosed_good : ∀ (u : Str) (cur : Str) (st : Nat),
    ((st = 0 ∧ cur = []) ∨ (st = 1 ∧ ∀ c ∈ cur, isPySpace c = true) ∨
      (st = 2 ∧ ∃ c ∈ cur, isPySpace c = false)) →
    nbOk st u = true →
    ∀ e ∈ splitClosed cur u, (pyStrip e).isEmpty = true → e = [] := by
  intro u
  induction u with
  | nil =>
    intro cur st hinv hok e he hblank
    simp only [splitClosed, List.mem_singleton] at he
    subst he
    rcases hinv with ⟨_, hcur⟩ | ⟨h1, _⟩ | ⟨_, hex⟩
    · rw [hcur]; rfl
    · exfalso
      unfold nbOk at hok
      rw [show nbRun st [] = some st from rfl, h1] at hok
      simp at hok
    · exfalso
      rcases hex with ⟨d, hd, hdw⟩
      have := pyStrip_ne_nil_of_mem_nonws cur.reverse d (List.mem_reverse.mpr hd) hdw
      rw [hblank] at this
      cases this
  | cons c u2 ih =>
    intro cur st hinv hok e he hblank
    by_cases hc : c = '\n'
    · subst hc
      have hst : ¬ st = 1 := by
        intro h1
        unfold nbOk at hok
        rw [nbRun_cons, if_pos rfl, if_pos h1] at hok
        cases hok
      have hok2 : nbOk 0 u2 = true := by
        unfold nbOk at hok ⊢
        rw [nbRun_cons, if_pos rfl, if_neg hst] at hok
        exact hok
      have hstep : splitClosed cur ('\n' :: u2) = cur.reverse :: splitClosed [] u2 := by
        show (if ('\n' : Char) = '\n' then _ else _) = _
        rw [if_pos rfl]
      rw [hstep] at he
      rcases List.mem_cons.mp he with h | h
      · subst h
        rcases hinv with ⟨_, hcur⟩ | ⟨h1, _⟩ | ⟨_, hex⟩
        · rw [hcur]; rfl
        · exact absurd h1 hst
        · exfalso
          rcases hex with ⟨d, hd, hdw⟩
          have := pyStrip_ne_nil_of_mem_nonws cur.reverse d (List.mem_reverse.mpr hd) hdw
          rw [hblank] at this
          cases this
      · exact ih [] 0 (Or.inl ⟨rfl, rfl⟩) hok2 e h hblank
    · have hstep : splitClosed cur (c :: u2) = splitClosed (c :: cur) u2 := by
        show (if c = '\n' then _ else _) = _
        rw [if_neg hc]
      rw [hstep] at he
      by_cases hw : isPySpace c
      · have hok2 : nbOk (if st = 2 then 2 else 1) u2 = true := by
          unfold nbOk at hok ⊢
          rw [nbRun_cons, if_neg hc, if_pos hw] at hok
          exact hok
        by_cases h2 : st = 2
        · rw [if_pos h2] at hok2
          rcases hinv with ⟨h0, _⟩ | ⟨h1, _⟩ | ⟨_, hex⟩
          · rw [h0] at h2; cases h2
          · rw [h1] at h2; cases h2
          · rcases hex with ⟨d, hd, hdw⟩
            exact ih (c :: cur) 2 (Or.inr (Or.inr ⟨rfl, d,
              List.mem_cons_of_mem _ hd, hdw⟩)) hok2 e he hblank
        · rw [if_neg h2] at hok2
          have hinv2 : ∀ x ∈ c :: cur, isPySpace x = true := by
            intro x hx
            rcases List.mem_cons.mp hx with h | h
            · rw [h]; exact hw
            · rcases hinv with ⟨_, hcur⟩ | ⟨_, hall⟩ | ⟨h2c, _⟩
              · rw [hcur] at h; cases h
              · exact hall x h
              · exact absurd h2c h2
          exact ih (c :: cur) 1 (Or.inr (Or.inl ⟨rfl, hinv2⟩)) hok2 e he hblank
      · have hok2 : nbOk 2 u2 = true := by
          unfold nbOk at hok ⊢
          rw [nbRun_cons, if_neg hc, if_neg hw] at hok
          exact hok
        exact ih (c :: cur) 2 (Or.inr (Or.inr ⟨rfl, c, List.mem_cons_self _ _,
          by simpa using hw⟩)) hok2 e he hblank

/-- The orphan test of render._defragment_orphans: previous line blank, next
line blank, stripped line short and nonempty, not a heading. -/
def orphCond (maxLen : Nat) (prev : Option Str) (x : Str) (rest : List Str) : Bool :=
  (match prev with | some p => (pyStrip p).isEmpty | none => false) &&
  (match rest with | y :: _ => (pyStrip y).isEmpty | [] => false) &&
  decide (0 < (pyStrip x).length) && decide ((pyStrip x).length ≤ maxLen) &&
  !((pyStrip x).head? = some '#')

theorem defragAux_nil (maxLen : Nat) (revRes : List Str) (prev : Option Str)
    (skip : Bool) : defragAux maxLen revRes prev skip [] = revRes.reverse := by
  cases skip <;> rfl

theorem defragAux_skip_step (maxLen : Nat) (revRes : List Str) (prev : Option Str)
    (y : Str) (rest : List Str) :
    defragAux maxLen revRes prev true (y :: rest) =
      defragAux maxLen revRes (some y) false rest := rfl

theorem defragAux_cons (maxLen : Nat) (revRes : List Str) (prev : Option Str)
    (x : Str) (rest : List Str) :
    defragAux maxLen revRes prev false (x :: rest) =
      if orphCond maxLen prev x rest then
        (match attachOrphan x revRes with
         | some revRes2 => defragAux maxLen revRes2 prev true rest
         | none => defragAux maxLen (x :: revRes) (some x) false rest)
      else defragAux maxLen (x :: revRes) (some x) false rest := rfl

theorem exists_nonws_of_pyStrip_ne_nil (e : Str)
    (h : (pyStrip e).isEmpty = false) : ∃ c ∈ e, isPySpace c = false := by
  cases hx : pyStrip e with
  | nil => rw [hx] at h; cases h
  | cons d ds =>
    cases hz : (d :: ds).getLast? with
    | none =>
      rw [List.getLast?_eq_none_iff] at hz
      cases hz
    | some z =>
      have hzw : isPySpace z = false := by
        apply pyStrip_getLast_not_space e z
        rw [hx]
        exact hz
      have hzmem : z ∈ pyStrip e := by
        rw [hx]
        exact List.mem_of_mem_getLast? (by rw [hz]; rfl)
      exact ⟨z, (pyStrip_infix_rel e).sublist.mem hzmem, hzw⟩

theorem orphCond_rest (maxLen : Nat) (prev : Option Str) (x : Str)
    (rest : List Str) (h : orphCond maxLen prev x rest = true) :
    ∃ y ys, rest = y :: ys ∧ (pyStrip y).isEmpty = true := by
  unfold orphCond at h
  simp only [Bool.and_eq_true] at h
  obtain ⟨⟨⟨⟨_, hB⟩, _⟩, _⟩, _⟩ := h
  cases rest with
  | nil => cases hB
  | cons y ys => exact ⟨y, ys, rfl, hB⟩

/-- Attaching an orphan preserves the emptiness pattern of the collected
lines: blanks are kept and the receiving line stays nonempty. -/
theorem attachOrphan_pattern : ∀ (revRes : List Str) (x : Str) (r2 : List Str),
    attachOrphan x revRes = some r2 →
    hasAdjEmpty r2 = hasAdjEmpty revRes ∧ headEmptyB r2 = headEmptyB revRes := by
  intro revRes
  induction revRes with
  | nil => intro x r2 h; cases h
  | cons r rs ih =>
    intro x r2 h
    by_cases hb : (pyStrip r).isEmpty
    · rw [show attachOrphan x (r :: rs) = (attachOrphan x rs).map (fun rs2 => r :: rs2) by
        show (if (pyStrip r).isEmpty = true then _ else _) = _
        rw [if_pos hb]] at h
      cases hat : attachOrphan x rs with
      | none => rw [hat] at h; cases h
      | some rs2 =>
        rw [hat] at h
        have hr2 : r2 = r :: rs2 := by simpa using h.symm
        obtain ⟨hadj, hhead⟩ := ih x rs2 hat
        subst hr2
        constructor
        · rw [hasAdjEmpty_cons, hasAdjEmpty_cons, hadj, hhead]
        · rfl
    · rw [show attachOrphan x (r :: rs) =
          some (pyStrip (pyRstrip r ++ ' ' :: pyStrip x) :: rs) by
        show (if (pyStrip r).isEmpty = true then _ else _) = _
        rw [if_neg hb]] at h
      have hr2 : r2 = pyStrip (pyRstrip r ++ ' ' :: pyStrip x) :: rs := by
        simpa using h.symm
      subst hr2
      have hbf : (pyStrip r).isEmpty = false := by
        cases hv : (pyStrip r).isEmpty with
        | false => rfl
        | true => exact absurd hv hb
      obtain ⟨c, hcr, hcw⟩ := exists_nonws_of_pyStrip_ne_nil r hbf
      have hcnew : c ∈ pyRstrip r ++ ' ' :: pyStrip x :=
        List.mem_append.mpr (Or.inl (mem_pyRstrip_of_nonws r c hcr hcw))
      have hnew : (pyStrip (pyRstrip r ++ ' ' :: pyStrip x)).isEmpty = false :=
        pyStrip_ne_nil_of_mem_nonws _ c hcnew hcw
      have hnewE : (pyStrip (pyRstrip r ++ ' ' :: pyStrip x)).isEmpty = false →
          (pyStrip (pyRstrip r ++ ' ' :: pyStrip x)) ≠ [] := by
        intro hh hcon
        rw [hcon] at hh
        cases hh
      have hrne : r ≠ [] := by
        intro hcon
        rw [hcon] at hbf
        cases hbf
      have hrE : r.isEmpty = false := by
        cases r with
        | nil => exact absurd rfl hrne
        | cons a as => rfl
      have hnewEmp : (pyStrip (pyRstrip r ++ ' ' :: pyStrip x)).isEmpty = false := hnew
      have hnewIsE : (List.isEmpty (pyStrip (pyRstrip r ++ ' ' :: pyStrip x))) = false := by
        cases hv : pyStrip (pyRstrip r ++ ' ' :: pyStrip x) with
        | nil => exact absurd hv (hnewE hnew)
        | cons a as => rfl
      constructor
      · rw [hasAdjEmpty_cons, hasAdjEmpty_cons, hnewIsE, hrE]
      · show List.isEmpty _ = r.isEmpty
        rw [hnewIsE, hrE]

/-- Attaching an orphan introduces no newline characters. -/
theorem attachOrphan_nlFree : ∀ (revRes : List Str) (x : Str) (r2 : List Str),
    attachOrphan x revRes = some r2 → (∀ c ∈ x, c ≠ '\n') →
    (∀ e ∈ revRes, ∀ c ∈ e, c ≠ '\n') → ∀ e ∈ r2, ∀ c ∈ e, c ≠ '\n' := by
  intro revRes
  induction revRes with
  | nil => intro x r2 h; cases h
  | cons r rs ih =>
    intro x r2 h hx hall
    by_cases hb : (pyStrip r).isEmpty
    · rw [show attachOrphan x (r :: rs) = (attachOrphan x rs).map (fun rs2 => r :: rs2) by
        show (if (pyStrip r).isEmpty = true then _ else _) = _
        rw [if_pos hb]] at h
      cases hat : attachOrphan x rs with
      | none => rw [hat] at h; cases h
      | some rs2 =>
        rw [hat] at h
        have hr2 : r2 = r :: rs2 := by simpa using h.symm
        subst hr2
        intro e he c hc
        rcases List.mem_cons.mp he with h1 | h1
        · rw [h1] at hc
          exact hall r (List.mem_cons_self _ _) c hc
        · exact ih x rs2 hat hx
            (fun e2 he2 => hall e2 (List.mem_cons_of_mem _ he2)) e h1 c hc
    · rw [show attachOrphan x (r :: rs) =
          some (pyStrip (pyRstrip r ++ ' ' :: pyStrip x) :: rs) by
        show (if (pyStrip r).isEmpty = true then _ else _) = _
        rw [if_neg hb]] at h
      have hr2 : r2 = pyStrip (pyRstrip r ++ ' ' :: pyStrip x) :: rs := by
        simpa using h.symm
      subst hr2
      intro e he c hc
      rcases List.mem_cons.mp he with h1 | h1
      · rw [h1] at hc
        have hc2 : c ∈ pyRstrip r ++ ' ' :: pyStrip x :=
          (pyStrip_infix_rel _).sublist.mem hc
        rcases List.mem_append.mp hc2 with h2 | h2
        · exact hall r (List.mem_cons_self _ _) c
            ((pyRstrip_prefix_rel r).sublist.mem h2)
        · rcases List.mem_cons.mp h2 with h3 | h3
          · rw [h3]; decide
          · exact hx c ((pyStrip_infix_rel x).sublist.mem h3)
      · exact hall e (List.mem_cons_of_mem _ h1) c hc

/-- The defragmentation loop keeps the last line: it ends with the last
input line, which is never consumed when it is non-blank. -/
theorem defragAux_lastNB (maxLen : Nat) : ∀ (rem : List Str) (revRes : List Str)
    (prev : Option Str) (skip : Bool),
    (skip = true → ∃ y ys, rem = y :: ys ∧ (pyStrip y).isEmpty = true) →
    (∃ e, rem.getLast? = some e ∧ (pyStrip e).isEmpty = false) →
    ∃ e, (defragAux maxLen revRes prev skip rem).getLast? = some e ∧
      (pyStrip e).isEmpty = false := by
  intro rem
  induction rem with
  | nil =>
    intro revRes prev skip _ hlast
    rcases hlast with ⟨e, he, _⟩
    cases he
  | cons x rest ih =>
    intro revRes prev skip hskip hlast
    cases skip with
    | true =>
      obtain ⟨y, ys, hre, hyb⟩ := hskip rfl
      have hxy : x = y := (List.cons.inj hre).1
      have hrys : rest = ys := (List.cons.inj hre).2
      cases rest with
      | nil =>
        exfalso
        rcases hlast with ⟨e, he, henb⟩
        have hex : e = x := (show x = e by simpa using he).symm
        rw [hex, hxy, hyb] at henb
        cases henb
      | cons w ws =>
        rw [defragAux_skip_step]
        refine ih revRes (some x) false (fun h => Bool.noConfusion h) ?_
        rcases hlast with ⟨e, he, henb⟩
        rw [List.getLast?_cons_cons] at he
        exact ⟨e, he, henb⟩
    | false =>
      rw [defragAux_cons]
      have hrest_last : rest ≠ [] →
          ∃ e, rest.getLast? = some e ∧ (pyStrip e).isEmpty = false := by
        intro hne
        rcases hlast with ⟨e, he, henb⟩
        cases rest with
        | nil => exact absurd rfl hne
        | cons w ws =>
          rw [List.getLast?_cons_cons] at he
          exact ⟨e, he, henb⟩
      have hdirect : ∀ (rv : List Str),
          ∃ e, (defragAux maxLen (x :: rv) (some x) false rest).getLast? = some e ∧
            (pyStrip e).isEmpty = false := by
        intro rv
        cases rest with
        | nil =>
          rw [defragAux_nil]
          rcases hlast with ⟨e, he, henb⟩
          have hex : e = x := (show x = e by simpa using he).symm
          refine ⟨x, ?_, by rw [← hex]; exact henb⟩
          rw [List.getLast?_reverse]
          rfl
        | cons w ws =>
          exact ih (x :: rv) (some x) false (fun h => Bool.noConfusion h)
            (hrest_last (fun h => List.noConfusion h))
      by_cases horph : orphCond maxLen prev x rest = true
      · rw [if_pos horph]
        cases hat : attachOrphan x revRes with
        | some r2 =>
          obtain ⟨y, ys, hre, hyb⟩ := orphCond_rest maxLen prev x rest horph
          refine ih r2 prev true (fun _ => ⟨y, ys, hre, hyb⟩) ?_
          refine hrest_last ?_
          rw [hre]
          exact fun h => List.noConfusion h
        | none => exact hdirect revRes
      · rw [if_neg horph]
        exact hdirect revRes

/-- The defragmentation loop introduces no newline characters into lines. -/
theorem defragAux_nlFree (maxLen : Nat) : ∀ (rem revRes : List Str)
    (prev : Option Str) (skip : Bool),
    (∀ e ∈ revRes, ∀ c ∈ e, c ≠ '\n') → (∀ e ∈ rem, ∀ c ∈ e, c ≠ '\n') →
    ∀ e ∈ defragAux maxLen revRes prev skip rem, ∀ c ∈ e, c ≠ '\n' := by
  intro rem
  induction rem with
  | nil =>
    intro revRes prev skip hrev _ e he
    rw [defragAux_nil] at he
    exact hrev e (List.mem_reverse.mp he)
  | cons x rest ih =>
    intro revRes prev skip hrev hrem e he
    have hx : ∀ c ∈ x, c ≠ '\n' := hrem x (List.mem_cons_self _ _)
    have hrem2 : ∀ e2 ∈ rest, ∀ c ∈ e2, c ≠ '\n' :=
      fun e2 he2 => hrem e2 (List.mem_cons_of_mem _ he2)
    have hcons : ∀ e2 ∈ x :: revRes, ∀ c ∈ e2, c ≠ '\n' := by
      intro e2 he2
      rcases List.mem_cons.mp he2 with h | h
      · rw [h]; exact hx
      · exact hrev e2 h
    cases skip with
    | true =>
      rw [defragAux_skip_step] at he
      exact ih revRes (some x) false hrev hrem2 e he
    | false =>
      rw [defragAux_cons] at he
      by_cases horph : orphCond maxLen prev x rest = true
      · rw [if_pos horph] at he
        cases hat : attachOrphan x revRes with
        | some r2 =>
          rw [hat] at he
          exact ih r2 prev true (attachOrphan_nlFree revRes x r2 hat hx hrev)
            hrem2 e he
        | none =>
          rw [hat] at he
          exact ih (x :: revRes) (some x) false hcons hrem2 e he
      · rw [if_neg horph] at he
        exact ih (x :: revRes) (some x) false hcons hrem2 e he

/-- The defragmentation loop never creates two adjacent empty lines. -/
theorem defragAux_adjEmpty (maxLen : Nat) : ∀ (rem revRes : List Str)
    (prev : Option Str) (skip : Bool),
    hasAdjEmpty revRes = false →
    hasAdjEmpty rem = false →
    (skip = false → ¬(headEmptyB revRes = true ∧ headEmptyB rem = true)) →
    (∀ e ∈ rem, (pyStrip e).isEmpty = true → e = []) →
    (skip = true → ∃ y ys, rem = y :: ys ∧ (pyStrip y).isEmpty = true) →
    hasAdjEmpty (defragAux maxLen revRes prev skip rem) = false := by
  intro rem
  induction rem with
  | nil =>
    intro revRes prev skip hA _ _ _ _
    rw [defragAux_nil, hasAdjEmpty_reverse]
    exact hA
  | cons x rest ih =>
    intro revRes prev skip hA hB hC hD hskip
    have hB2 : hasAdjEmpty rest = false := hasAdjEmpty_tail x rest hB
    have hD2 : ∀ e ∈ rest, (pyStrip e).isEmpty = true → e = [] :=
      fun e he => hD e (List.mem_cons_of_mem _ he)
    have hBpair : ¬(x.isEmpty = true ∧ headEmptyB rest = true) := by
      rintro ⟨hxe, hre⟩
      cases rest with
      | nil => cases hre
      | cons w ws =>
        have hw : w.isEmpty = true := hre
        have : hasAdjEmpty (x :: w :: ws) = true := by
          show ((x.isEmpty && w.isEmpty) || _) = true
          rw [hxe, hw]
          simp
        rw [hB] at this
        cases this
    cases skip with
    | true =>
      obtain ⟨y, ys, hre, hyb⟩ := hskip rfl
      have hxy : x = y := (List.cons.inj hre).1
      have hxe : x = [] := by
        apply hD x (List.mem_cons_self _ _)
        rw [hxy]
        exact hyb
      rw [defragAux_skip_step]
      refine ih revRes (some x) false hA hB2 ?_ hD2 (fun h => Bool.noConfusion h)
      intro _
      rintro ⟨_, hre2⟩
      apply hBpair
      refine ⟨?_, hre2⟩
      rw [hxe]
      rfl
    | false =>
      have hCx : ¬(headEmptyB revRes = true ∧ x.isEmpty = true) := by
        rintro ⟨h1, h2⟩
        exact hC rfl ⟨h1, h2⟩
      have hconsA : hasAdjEmpty (x :: revRes) = false := by
        rw [hasAdjEmpty_cons, hA, Bool.or_false]
        cases hxe : x.isEmpty with
        | false => simp
        | true =>
          cases hhe : headEmptyB revRes with
          | false => simp
          | true => exact absurd ⟨hhe, hxe⟩ hCx
      have hconsC : ¬(headEmptyB (x :: revRes) = true ∧ headEmptyB rest = true) := by
        rintro ⟨h1, h2⟩
        exact hBpair ⟨h1, h2⟩
      rw [defragAux_cons]
      by_cases horph : orphCond maxLen prev x rest = true
      · rw [if_pos horph]
        cases hat : attachOrphan x revRes with
        | some r2 =>
          obtain ⟨hadj, _⟩ := attachOrphan_pattern revRes x r2 hat
          obtain ⟨y, ys, hre, hyb⟩ := orphCond_rest maxLen prev x rest horph
          refine ih r2 prev true (by rw [hadj]; exact hA) hB2
            (fun h => Bool.noConfusion h) hD2 (fun _ => ⟨y, ys, hre, hyb⟩)
        | none =>
          exact ih (x :: revRes) (some x) false hconsA hB2
            (fun _ => hconsC) hD2 (fun h => Bool.noConfusion h)
      · rw [if_neg horph]
        exact ih (x :: revRes) (some x) false hconsA hB2
          (fun _ => hconsC) hD2 (fun h => Bool.noConfusion h)

/-- A string free of any line-boundary character. -/
def bFree (e : Str) : Prop := ∀ c ∈ e, decide (c ∈ lineBoundaryChars) = false

theorem bFree_nlFree (e : Str) (h : bFree e) : ∀ c ∈ e, c ≠ '\n' := by
  intro c hc hcon
  have := h c hc
  rw [hcon] at this
  rw [show decide (('\n' : Char) ∈ lineBoundaryChars) = true by decide] at this
  cases this

theorem bFree_cleanStr (e : Str) (h : bFree e) : cleanStr e = true := by
  rw [cleanStr, List.all_eq_true]
  intro c hc
  unfold cleanChar
  rw [h c hc]
  rfl

/-- An acceptable markdown line: boundary-free, and blank only if empty. -/
def elemOK (e : Str) : Prop :=
  bFree e ∧ (e = [] ∨ (pyStrip e).isEmpty = false)

theorem elemOK_noBlankSeg (e : Str) (h : elemOK e) : noBlankSeg e = true := by
  rcases h.2 with h2 | h2
  · rw [h2]; exact noBlankSeg_nil
  · exact noBlankSeg_of_nlFree_nonblank e (bFree_nlFree e h.1) h2

theorem cleanStr_joinNl : ∀ (l : List Str), (∀ e ∈ l, cleanStr e = true) →
    cleanStr (joinNl l) = true := by
  intro l
  induction l with
  | nil => intro _; rfl
  | cons x l2 ih =>
    intro h
    cases l2 with
    | nil => exact h x (List.mem_cons_self _ _)
    | cons y r =>
      show cleanStr (x ++ '\n' :: joinNl (y :: r)) = true
      unfold cleanStr
      rw [List.all_append]
      have hx : cleanStr x = true := h x (List.mem_cons_self _ _)
      unfold cleanStr at hx
      rw [hx]
      have hrec := ih (fun e he => h e (List.mem_cons_of_mem _ he))
      unfold cleanStr at hrec
      show (true && List.all ('\n' :: joinNl (y :: r)) cleanChar) = true
      rw [List.all_cons, hrec]
      decide

theorem elemOK_pyStrip (w : Str) (h : bFree w) : elemOK (pyStrip w) := by
  constructor
  · intro c hc
    exact h c ((pyStrip_infix_rel w).sublist.mem hc)
  · by_cases hx : pyStrip w = []
    · exact Or.inl hx
    · refine Or.inr ?_
      have hne : (pyStrip w).isEmpty = false := by
        cases hv : pyStrip w with
        | nil => exact absurd hv hx
        | cons d ds => rfl
      obtain ⟨z, hz, hzw⟩ := exists_nonws_of_pyStrip_ne_nil w hne
      have hzl : z ∈ pyLstrip w := mem_dropWhile_of_not isPySpace w z hz hzw
      have hzp : z ∈ pyStrip w := mem_pyRstrip_of_nonws (pyLstrip w) z hzl hzw
      exact pyStrip_ne_nil_of_mem_nonws (pyStrip w) z hzp hzw

theorem intercalate_single (sep : Str) (x : Str) :
    List.intercalate sep [x] = x := by
  show (List.intersperse sep [x]).flatten = x
  simp [List.intercalate]

theorem intercalate_cons_cons (sep : Str) (x y : Str) (r : List Str) :
    List.intercalate sep (x :: y :: r) = x ++ sep ++ List.intercalate sep (y :: r) := by
  show (List.intersperse sep (x :: y :: r)).flatten = _
  rw [List.intersperse_cons₂]
  show x ++ (sep ++ (List.intersperse sep (y :: r)).flatten) = _
  rw [List.append_assoc]
  rfl

theorem mem_intercalate (sep : Str) : ∀ (l : List Str) (c : Char),
    c ∈ List.intercalate sep l → c ∈ sep ∨ ∃ e ∈ l, c ∈ e := by
  intro l
  induction l with
  | nil => intro c hc; cases hc
  | cons x l2 ih =>
    intro c hc
    cases l2 with
    | nil =>
      rw [intercalate_single] at hc
      exact Or.inr ⟨x, List.mem_cons_self _ _, hc⟩
    | cons y r =>
      rw [intercalate_cons_cons] at hc
      rcases List.mem_append.mp hc with h | h
      · rcases List.mem_append.mp h with h2 | h2
        · exact Or.inr ⟨x, List.mem_cons_self _ _, h2⟩
        · exact Or.inl h2
      · rcases ih c h with h2 | h2
        · exact Or.inl h2
        · rcases h2 with ⟨e, he, hce⟩
          exact Or.inr ⟨e, List.mem_cons_of_mem _ he, hce⟩

theorem pyRstripNl_prefix_rel (s : Str) : pyRstripNl s <+: s := by
  unfold pyRstripNl
  have h : s.reverse.dropWhile (fun c => c = '\n') <:+ s.reverse :=
    List.dropWhile_suffix _
  have h2 := List.reverse_prefix.mpr h
  simpa using h2

/-- Every line produced by the splitlines model is boundary-free. -/
theorem pySplitlinesAux_elems_bFree : ∀ (s : Str) (flag : Bool) (cur : Str),
    bFree cur → ∀ e ∈ pySplitlinesAux flag cur s, bFree e := by
  intro s
  induction s with
  | nil =>
    intro flag cur hcur e he
    unfold pySplitlinesAux at he
    by_cases hc : cur.isEmpty
    · rw [if_pos hc] at he; cases he
    · rw [if_neg hc] at he
      simp only [List.mem_singleton] at he
      rw [he]
      intro c hc2
      exact hcur c (List.mem_reverse.mp hc2)
  | cons c rest ih =>
    intro flag cur hcur e he
    have hrev : bFree cur.reverse := fun d hd => hcur d (List.mem_reverse.mp hd)
    have hstep : pySplitlinesAux flag cur (c :: rest) =
        if c = '\r' then cur.reverse :: pySplitlinesAux true [] rest
        else if c = '\n' then
          (if flag then pySplitlinesAux false cur rest
           else cur.reverse :: pySplitlinesAux false [] rest)
        else if c ∈ lineBoundaryChars then cur.reverse :: pySplitlinesAux false [] rest
        else pySplitlinesAux false (c :: cur) rest := rfl
    rw [hstep] at he
    by_cases hr : c = '\r'
    · rw [if_pos hr] at he
      rcases List.mem_cons.mp he with h | h
      · rw [h]; exact hrev
      · exact ih true [] (fun d hd => absurd hd (List.not_mem_nil d)) e h
    · rw [if_neg hr] at he
      by_cases hn : c = '\n'
      · rw [if_pos hn] at he
        cases flag with
        | true =>
          rw [if_pos rfl] at he
          exact ih false cur hcur e he
        | false =>
          rw [if_neg (fun h => Bool.noConfusion h)] at he
          rcases List.mem_cons.mp he with h | h
          · rw [h]; exact hrev
          · exact ih false [] (fun d hd => absurd hd (List.not_mem_nil d)) e h
      · rw [if_neg hn] at he
        by_cases hb : c ∈ lineBoundaryChars
        · rw [if_pos hb] at he
          rcases List.mem_cons.mp he with h | h
          · rw [h]; exact hrev
          · exact ih false [] (fun d hd => absurd hd (List.not_mem_nil d)) e h
        · rw [if_neg hb] at he
          refine ih false (c :: cur) ?_ e he
          intro d hd
          rcases List.mem_cons.mp hd with h | h
          · rw [h]; simpa using hb
          · exact hcur d h

theorem bFree_of_subset (s t : Str) (hsub : ∀ c ∈ t, c ∈ s) (hs : bFree s) :
    bFree t := fun c hc => hs c (hsub c hc)

def headSpace : Str → Bool
  | w :: _ => isPySpace w
  | [] => false

theorem normalize_list_line_eq (ln : Str) :
    normalize_list_line ln =
      match pyLstrip ln with
      | c :: rest =>
          if decide (c ∈ bulletGlyphs) && headSpace rest then
            "- ".toList ++ rest.dropWhile isPySpace
          else
            if !((pyLstrip ln).takeWhile isPyDigit).isEmpty &&
                punctThenSpace ((pyLstrip ln).dropWhile isPyDigit) then
              (pyLstrip ln).takeWhile isPyDigit ++ '.' :: ' ' ::
                (((pyLstrip ln).dropWhile isPyDigit).tail.dropWhile isPySpace)
            else if isPyAlpha c && punctThenSpace rest then
              "- ".toList ++ rest.tail.dropWhile isPySpace
            else pyStrip ln
      | [] => pyStrip ln := by
  unfold normalize_list_line
  cases pyLstrip ln with
  | nil => rfl
  | cons c rest => cases rest <;> rfl

theorem normalize_list_line_nil (ln : Str) (hv : pyLstrip ln = []) :
    normalize_list_line ln = pyStrip ln := by
  rw [normalize_list_line_eq, hv]

theorem normalize_list_line_cons (ln : Str) (c0 : Char) (rest : Str)
    (hv : pyLstrip ln = c0 :: rest) :
    normalize_list_line ln =
      if decide (c0 ∈ bulletGlyphs) && headSpace rest then
        "- ".toList ++ rest.dropWhile isPySpace
      else
        if !((c0 :: rest).takeWhile isPyDigit).isEmpty &&
            punctThenSpace ((c0 :: rest).dropWhile isPyDigit) then
          (c0 :: rest).takeWhile isPyDigit ++ '.' :: ' ' ::
            (((c0 :: rest).dropWhile isPyDigit).tail.dropWhile isPySpace)
        else if isPyAlpha c0 && punctThenSpace rest then
          "- ".toList ++ rest.tail.dropWhile isPySpace
        else pyStrip ln := by
  rw [normalize_list_line_eq, hv]

theorem normalize_list_line_bFree (ln : Str) (h : bFree ln) :
    bFree (normalize_list_line ln) := by
  have hs : bFree (pyLstrip ln) :=
    bFree_of_subset ln _ (fun c hc => (List.dropWhile_sublist _).mem hc) h
  have hstrip : bFree (pyStrip ln) :=
    bFree_of_subset ln _ (fun c hc => (pyStrip_infix_rel ln).sublist.mem hc) h
  cases hv : pyLstrip ln with
  | nil =>
    rw [normalize_list_line_nil ln hv]
    exact hstrip
  | cons c0 rest =>
    rw [normalize_list_line_cons ln c0 rest hv]
    rw [hv] at hs
    have hrest : bFree rest := fun d hd => hs d (List.mem_cons_of_mem _ hd)
    split
    · intro d hd
      rcases List.mem_append.mp hd with h2 | h2
      · rcases List.mem_cons.mp h2 with h3 | h3
        · rw [h3]; decide
        · rcases List.mem_cons.mp h3 with h4 | h4
          · rw [h4]; decide
          · cases h4
      · exact hrest d ((List.dropWhile_sublist _).mem h2)
    · split
      · intro d hd
        rcases List.mem_append.mp hd with h3 | h3
        · exact hs d ((List.takeWhile_sublist _).mem h3)
        · rcases List.mem_cons.mp h3 with h4 | h4
          · rw [h4]; decide
          · rcases List.mem_cons.mp h4 with h5 | h5
            · rw [h5]; decide
            · apply hs d
              refine (List.dropWhile_sublist isPyDigit).mem ?_
              refine (List.tail_sublist _).mem ?_
              exact (List.dropWhile_sublist isPySpace).mem h5
      · split
        · intro d hd
          rcases List.mem_append.mp hd with h4 | h4
          · rcases List.mem_cons.mp h4 with h5 | h5
            · rw [h5]; decide
            · rcases List.mem_cons.mp h5 with h6 | h6
              · rw [h6]; decide
              · cases h6
          · refine hrest d ?_
            refine (List.tail_sublist rest).mem ?_
            exact (List.dropWhile_sublist isPySpace).mem h4
        · exact hstrip

theorem para_filter_elems_bFree (t : Str) :
    ∀ l ∈ para_filter_lines t, bFree l := by
  unfold para_filter_lines
  have hlines : ∀ e ∈ pySplitlines t, bFree e :=
    pySplitlinesAux_elems_bFree t false []
      (fun d hd => absurd hd (List.not_mem_nil d))
  revert hlines
  generalize pySplitlines t = L
  intro hlines
  induction L with
  | nil => intro l hl; cases hl
  | cons ln L2 ih =>
    intro l hl
    have hln : bFree ln := hlines ln (List.mem_cons_self _ _)
    have hL2 : ∀ e ∈ L2, bFree e := fun e he => hlines e (List.mem_cons_of_mem _ he)
    rw [List.foldr_cons] at hl
    by_cases hb : (pyStrip ln).isEmpty
    · rw [if_pos hb] at hl
      rcases List.mem_cons.mp hl with h | h
      · rw [h]; intro c hc; cases hc
      · exact ih hL2 l h
    · rw [if_neg hb] at hl
      by_cases hn : render_is_footer_noise ln
      · rw [if_pos hn] at hl
        exact ih hL2 l hl
      · rw [if_neg hn] at hl
        rcases List.mem_cons.mp hl with h | h
        · rw [h]
          exact normalize_list_line_bFree ln hln
        · exact ih hL2 l h

theorem flushBuf_elems (out buf : List Str) (hout : ∀ e ∈ out, elemOK e)
    (hbuf : ∀ b ∈ buf, bFree b) : ∀ e ∈ flushBuf out buf, elemOK e := by
  intro e he
  unfold flushBuf at he
  by_cases hb : buf.isEmpty
  · rw [if_pos hb] at he
    exact hout e he
  · rw [if_neg hb] at he
    rcases List.mem_append.mp he with h | h
    · exact hout e h
    · simp only [List.mem_singleton] at h
      rw [h]
      apply elemOK_pyStrip
      intro c hc
      rcases mem_intercalate [' '] buf c hc with h2 | h2
      · rcases List.mem_cons.mp h2 with h3 | h3
        · rw [h3]; decide
        · cases h3
      · rcases h2 with ⟨w, hw, hcw⟩
        exact hbuf w hw c hcw

theorem unwrapAux_elems : ∀ (raws out buf : List Str),
    (∀ e ∈ out, elemOK e) → (∀ b ∈ buf, bFree b) → (∀ l ∈ raws, bFree l) →
    ∀ e ∈ unwrapAux out buf raws, elemOK e := by
  intro raws
  induction raws with
  | nil =>
    intro out buf hout hbuf _ e he
    exact flushBuf_elems out buf hout hbuf e he
  | cons raw rest ih =>
    intro out buf hout hbuf hraws e he
    have hraw : bFree raw := hraws raw (List.mem_cons_self _ _)
    have hrest : ∀ l ∈ rest, bFree l := fun l hl => hraws l (List.mem_cons_of_mem _ hl)
    have hline : bFree (pyRstripNl raw) :=
      bFree_of_subset raw _ (fun c hc => (pyRstripNl_prefix_rel raw).sublist.mem hc) hraw
    have hstep : unwrapAux out buf (raw :: rest) =
        if (pyStrip (pyRstripNl raw)).isEmpty then
          unwrapAux (flushBuf out buf ++ [[]]) [] rest
        else if endsTwoSpaces (pyRstripNl raw) then
          unwrapAux (flushBuf out (buf ++ [pyRstrip (pyRstripNl raw)])) [] rest
        else unwrapAux out (buf ++ [pyStrip (pyRstripNl raw)]) rest := rfl
    rw [hstep] at he
    by_cases h1 : (pyStrip (pyRstripNl raw)).isEmpty
    · rw [if_pos h1] at he
      refine ih _ [] ?_ (fun b hb => absurd hb (List.not_mem_nil b)) hrest e he
      intro e2 he2
      rcases List.mem_append.mp he2 with h2 | h2
      · exact flushBuf_elems out buf hout hbuf e2 h2
      · simp only [List.mem_singleton] at h2
        rw [h2]
        exact ⟨fun c hc => absurd hc (List.not_mem_nil c), Or.inl rfl⟩
    · rw [if_neg h1] at he
      by_cases h2 : endsTwoSpaces (pyRstripNl raw)
      · rw [if_pos h2] at he
        refine ih _ [] ?_ (fun b hb => absurd hb (List.not_mem_nil b)) hrest e he
        refine flushBuf_elems out _ hout ?_
        intro b hb
        rcases List.mem_append.mp hb with h3 | h3
        · exact hbuf b h3
        · simp only [List.mem_singleton] at h3
          rw [h3]
          exact bFree_of_subset (pyRstripNl raw) _
            (fun c hc => (pyRstrip_prefix_rel _).sublist.mem hc) hline
      · rw [if_neg h2] at he
        refine ih out _ hout ?_ hrest e he
        intro b hb
        rcases List.mem_append.mp hb with h3 | h3
        · exact hbuf b h3
        · simp only [List.mem_singleton] at h3
          rw [h3]
          exact bFree_of_subset (pyRstripNl raw) _
            (fun c hc => (pyStrip_infix_rel _).sublist.mem hc) hline

/-- A rendered paragraph has no blank newline segment and is clean. -/
theorem para_props (rendered : List Str) :
    noBlankSeg (para_of_rendered rendered) = true ∧
    cleanStr (para_of_rendered rendered) = true := by
  have hpara : para_of_rendered rendered =
      List.intercalate ['\n'] (unwrapAux [] []
        (para_filter_lines (fix_hyphenation
          (List.intercalate ['\n'] rendered)))) := rfl
  rw [hpara, intercalate_nl_eq_joinNl]
  have helems : ∀ e ∈ unwrapAux [] []
      (para_filter_lines (fix_hyphenation (List.intercalate ['\n'] rendered))),
      elemOK e := by
    apply unwrapAux_elems _ [] []
      (fun e he => absurd he (List.not_mem_nil e))
      (fun b hb => absurd hb (List.not_mem_nil b))
    exact para_filter_elems_bFree _
  constructor
  · exact noBlankSeg_joinNl _ (fun e he => elemOK_noBlankSeg e (helems e he))
  · exact cleanStr_joinNl _ (fun e he => bFree_cleanStr e (helems e he).1)

theorem collapseWsAux_chars : ∀ (s : Str) (b : Bool) (c : Char),
    c ∈ collapseWsAux b s → c = ' ' ∨ (isPySpace c = false ∧ c ∈ s) := by
  intro s
  induction s with
  | nil => intro b c hc; cases hc
  | cons d rest ih =>
    intro b c hc
    unfold collapseWsAux at hc
    by_cases hd : isPySpace d
    · rw [if_pos hd] at hc
      cases b with
      | true =>
        rw [if_pos rfl] at hc
        rcases ih true c hc with h | ⟨h1, h2⟩
        · exact Or.inl h
        · exact Or.inr ⟨h1, List.mem_cons_of_mem _ h2⟩
      | false =>
        rw [if_neg (fun h => Bool.noConfusion h)] at hc
        rcases List.mem_cons.mp hc with h | h
        · exact Or.inl h
        · rcases ih true c h with h2 | ⟨h1, h2⟩
          · exact Or.inl h2
          · exact Or.inr ⟨h1, List.mem_cons_of_mem _ h2⟩
    · rw [if_neg hd] at hc
      rcases List.mem_cons.mp hc with h | h
      · refine Or.inr ⟨?_, by rw [h]; exact List.mem_cons_self _ _⟩
        rw [h]
        cases hv : isPySpace d with
        | false => rfl
        | true => exact absurd hv hd
      · rcases ih false c h with h2 | ⟨h1, h2⟩
        · exact Or.inl h2
        · exact Or.inr ⟨h1, List.mem_cons_of_mem _ h2⟩

theorem mem_stripEdge (s : Str) (c : Char) (hc : c ∈ stripEdge s) : c ∈ s := by
  unfold stripEdge at hc
  rw [List.mem_reverse] at hc
  have h1 := (List.dropWhile_sublist _).mem hc
  rw [List.mem_reverse] at h1
  exact (List.dropWhile_sublist _).mem h1

theorem boundary_isPySpace : ∀ c ∈ lineBoundaryChars, isPySpace c = true := by
  decide

/-- A heading line (for a positive level) has no blank newline segment and
is clean: its text went through whitespace collapsing. -/
theorem heading_line_props (blk : Block) (level : Nat) (hlv : 1 ≤ level) :
    noBlankSeg (block_heading_line blk level) = true ∧
    cleanStr (block_heading_line blk level) = true := by
  have hX : ∀ c ∈ normalize_punctuation (stripEdge (collapseWs
      (escape_markdown (((block_entries blk).map (fun e => e.2.1)).headD [])))),
      c = ' ' ∨ isPySpace c = false := by
    intro c hc
    have hc2 : c ∈ collapseWs (escape_markdown
        (((block_entries blk).map (fun e => e.2.1)).headD [])) :=
      mem_stripEdge _ c hc
    rcases collapseWsAux_chars _ false c hc2 with h | ⟨h1, _⟩
    · exact Or.inl h
    · exact Or.inr h1
  have hbf : bFree (block_heading_line blk level) := by
    intro c hc
    unfold block_heading_line at hc
    rcases List.mem_append.mp hc with h | h
    · have := List.eq_of_mem_replicate h
      rw [this]
      decide
    · rcases List.mem_cons.mp h with h2 | h2
      · rw [h2]; decide
      · rcases hX c h2 with h3 | h3
        · rw [h3]; decide
        · cases hv : decide (c ∈ lineBoundaryChars) with
          | false => rfl
          | true =>
            have hmem : c ∈ lineBoundaryChars := of_decide_eq_true hv
            rw [boundary_isPySpace c hmem] at h3
            cases h3
  have hhash : ('#' : Char) ∈ block_heading_line blk level := by
    unfold block_heading_line
    refine List.mem_append.mpr (Or.inl ?_)
    rw [List.mem_replicate]
    exact ⟨by omega, rfl⟩
  refine ⟨?_, bFree_cleanStr _ hbf⟩
  refine noBlankSeg_of_nlFree_nonblank _ (bFree_nlFree _ hbf) ?_
  exact pyStrip_ne_nil_of_mem_nonws _ '#' hhash (by decide)

theorem block_heading_level_cases (blk : Block) (body : ℚ) (caps : Bool)
    (factor : ℚ) (lv : Nat)
    (h : block_heading_level blk body caps factor = some lv) : 1 ≤ lv := by
  unfold block_heading_level at h
  by_cases h1 : (block_heading_by_size blk body factor ||
      block_heading_by_caps blk caps) = true
  · rw [if_pos h1] at h
    have h2 := Option.some.inj h
    by_cases h3 : (decide (qmul body (Rat.divInt 8 5) ≤ block_avg_size blk body) ||
        block_heading_by_caps blk caps) = true
    · rw [if_pos h3] at h2
      omega
    · rw [if_neg h3] at h2
      omega
  · rw [if_neg h1] at h
    cases h

/-- Every line produced for a block has no blank newline segment and is
clean. -/
theorem block_to_lines_props (blk : Block) (body : ℚ) (caps : Bool)
    (factor : ℚ) : ∀ e ∈ block_to_lines blk body caps factor,
    noBlankSeg e = true ∧ cleanStr e = true := by
  intro e he
  unfold block_to_lines at he
  by_cases h1 : (block_entries blk).isEmpty
  · rw [if_pos h1] at he
    cases he
  · rw [if_neg h1] at he
    cases hlv : block_heading_level blk body caps factor with
    | some level =>
      rw [hlv] at he
      have hl1 := block_heading_level_cases blk body caps factor level hlv
      have hhead := heading_line_props blk level hl1
      have he2 : e ∈ (if (block_entries blk).length = 1 then
          [block_heading_line blk level, []]
        else if (pyStrip (para_of_rendered
            (((block_entries blk).map (fun e => e.1)).tail))).isEmpty then
          [block_heading_line blk level, []]
        else [block_heading_line blk level, [],
          para_of_rendered (((block_entries blk).map (fun e => e.1)).tail), []]) := he
      by_cases h2 : (block_entries blk).length = 1
      · rw [if_pos h2] at he2
        rcases List.mem_cons.mp he2 with h | h
        · rw [h]; exact hhead
        · rcases List.mem_cons.mp h with h3 | h3
          · rw [h3]; exact ⟨rfl, rfl⟩
          · cases h3
      · rw [if_neg h2] at he2
        by_cases h3 : (pyStrip (para_of_rendered
            (((block_entries blk).map (fun e => e.1)).tail))).isEmpty
        · rw [if_pos h3] at he2
          rcases List.mem_cons.mp he2 with h | h
          · rw [h]; exact hhead
          · rcases List.mem_cons.mp h with h4 | h4
            · rw [h4]; exact ⟨rfl, rfl⟩
            · cases h4
        · rw [if_neg h3] at he2
          rcases List.mem_cons.mp he2 with h | h
          · rw [h]; exact hhead
          · rcases List.mem_cons.mp h with h4 | h4
            · rw [h4]; exact ⟨rfl, rfl⟩
            · rcases List.mem_cons.mp h4 with h5 | h5
              · rw [h5]; exact para_props _
              · rcases List.mem_cons.mp h5 with h6 | h6
                · rw [h6]; exact ⟨rfl, rfl⟩
                · cases h6
    | none =>
      rw [hlv] at he
      have he2 : e ∈ [para_of_rendered ((block_entries blk).map (fun e => e.1)),
          ([] : Str)] := he
      rcases List.mem_cons.mp he2 with h | h
      · rw [h]; exact para_props _
      · rcases List.mem_cons.mp h with h2 | h2
        · rw [h2]; exact ⟨rfl, rfl⟩
        · cases h2

theorem page_md_lines_props (p : PageText) (body : ℚ) (caps : Bool)
    (factor : ℚ) : ∀ e ∈ page_md_lines p body caps factor,
    noBlankSeg e = true ∧ cleanStr e = true := by
  unfold page_md_lines
  induction p.blocks with
  | nil => intro e he; cases he
  | cons blk rest ih =>
    intro e he
    rw [List.foldr_cons] at he
    by_cases hb : blk.is_empty
    · rw [if_pos hb] at he
      exact ih e he
    · rw [if_neg hb] at he
      rcases List.mem_append.mp he with h | h
      · exact block_to_lines_props blk body caps factor e h
      · exact ih e h

theorem renderPagesAux_props (options : Options) (body_sizes : Option (List ℚ))
    (total : Nat) : ∀ (pages : List PageText) (i : Nat),
    ∀ e ∈ renderPagesAux options body_sizes total i pages,
    noBlankSeg e = true ∧ cleanStr e = true := by
  intro pages
  induction pages with
  | nil => intro i e he; cases he
  | cons p rest ih =>
    intro i e he
    unfold renderPagesAux at he
    rcases List.mem_append.mp he with h | h
    · rcases List.mem_append.mp h with h2 | h2
      · exact page_md_lines_props p _ _ _ e h2
      · by_cases hpb : (options.insert_page_breaks && decide (i < total - 1)) = true
        · rw [if_pos hpb] at h2
          rcases List.mem_cons.mp h2 with h3 | h3
          · rw [h3]; exact ⟨by decide, by decide⟩
          · rcases List.mem_cons.mp h3 with h4 | h4
            · rw [h4]; exact ⟨rfl, rfl⟩
            · cases h4
        · rw [if_neg hpb] at h2
          cases h2
    · exact ih (i + 1) e h

/-- Orphan defragmentation of the stripped-and-newline-terminated collapse
of a clean markdown text with no blank segments yields a text with no
triple newline run and no double trailing newline. -/
theorem defragment_orphans_props (m : Str) (maxLen : Nat)
    (hnb : noBlankSeg m = true) (hcl : cleanStr m = true) :
    hasTripleNl (defragment_orphans
      (pyStrip (collapse_blank_runs m) ++ ['\n']) maxLen) = false ∧
    endsTwoNl (defragment_orphans
      (pyStrip (collapse_blank_runs m) ++ ['\n']) maxLen) = false := by
  have hTFt : hasTripleNl (pyStrip (collapse_blank_runs m)) = false :=
    hasTripleNl_of_infix (pyStrip_infix_rel _) (collapse_blank_runs_triple_free m)
  have hnbt : noBlankSeg (pyStrip (collapse_blank_runs m)) = true :=
    pyStrip_noBlankSeg _ (collapse_blank_runs_noBlankSeg m hnb)
  have hclt : cleanStr (pyStrip (collapse_blank_runs m)) = true :=
    cleanStr_pyStrip _ (cleanStr_capNlAux m 0 hcl)
  have hcl2 : cleanStr (pyStrip (collapse_blank_runs m) ++ ['\n']) = true :=
    cleanStr_append_nl _ hclt
  have hsplit : pySplitlines (pyStrip (collapse_blank_runs m) ++ ['\n']) =
      splitClosed [] (pyStrip (collapse_blank_runs m)) := by
    show pySplitlinesAux false [] _ = _
    rw [pySplitlinesAux_clean _ [] hcl2]
    rw [splitNlAux_append_nl (pyStrip (collapse_blank_runs m)) [] []]
    rw [show splitNlAux [] [] = [] from rfl, List.append_nil]
  unfold defragment_orphans
  rw [hsplit, intercalate_nl_eq_joinNl]
  cases ht : pyStrip (collapse_blank_runs m) with
  | nil =>
    rw [show splitClosed [] ([] : Str) = [[]] from rfl]
    rw [defragAux_cons]
    have horph : orphCond maxLen none ([] : Str) ([] : List Str) = false := rfl
    rw [horph]
    simp only [Bool.false_eq_true, if_false]
    rw [defragAux_nil]
    exact ⟨rfl, rfl⟩
  | cons d ds =>
    have hd : d ≠ '\n' := by
      intro hcon
      have hh : (pyStrip (collapse_blank_runs m)).head? = some d := by
        rw [ht]; rfl
      have := pyStrip_head_not_space _ d hh
      rw [hcon, show isPySpace '\n' = true by decide] at this
      cases this
    have hstart : startsNlNl (d :: ds) = false := by
      cases ds with
      | nil => rfl
      | cons e es =>
        show ((d = '\n' : Bool) && _) = false
        have hdf : (d = '\n' : Bool) = false := by simpa using hd
        rw [hdf]
        simp
    obtain ⟨z, hz⟩ : ∃ z, (d :: ds).getLast? = some z := by
      cases hv : (d :: ds).getLast? with
      | some z => exact ⟨z, rfl⟩
      | none =>
        rw [List.getLast?_eq_none_iff] at hv
        cases hv
    have hzw : isPySpace z = false := by
      apply pyStrip_getLast_not_space (collapse_blank_runs m) z
      rw [ht]
      exact hz
    have hznl : z ≠ '\n' := by
      intro hcon
      rw [hcon, show isPySpace '\n' = true by decide] at hzw
      cases hzw
    have hlastne : (d :: ds).getLast? ≠ some '\n' := by
      rw [hz]
      intro hcon
      exact hznl (Option.some.inj hcon)
    rw [ht] at hTFt hnbt
    have hlines_adj := (splitClosed_adjEmpty (d :: ds) [] hTFt
      (fun hh => by rw [hstart] at hh; cases hh.2) hlastne).1
    have hlines_nl := splitClosed_elems_nlFree (d :: ds) []
      (fun c hc => absurd hc (List.not_mem_nil c))
    have hlines_good := splitClosed_good (d :: ds) [] 0 (Or.inl ⟨rfl, rfl⟩) hnbt
    obtain ⟨le0, hle1, hle2⟩ := splitClosed_last (d :: ds) [] z hz hznl
    have hlines_last : ∃ e, (splitClosed [] (d :: ds)).getLast? = some e ∧
        (pyStrip e).isEmpty = false := by
      refine ⟨le0, hle1, ?_⟩
      have hzin : z ∈ le0 := List.mem_of_mem_getLast? (by rw [hle2]; rfl)
      exact pyStrip_ne_nil_of_mem_nonws le0 z hzin hzw
    have hout_adj := defragAux_adjEmpty maxLen (splitClosed [] (d :: ds)) [] none
      false rfl hlines_adj
      (fun _ hpair => by cases hpair.1)
      hlines_good (fun hh => Bool.noConfusion hh)
    have hout_nl := defragAux_nlFree maxLen (splitClosed [] (d :: ds)) [] none
      false (fun e he => absurd he (List.not_mem_nil e)) hlines_nl
    have hout_last := defragAux_lastNB maxLen (splitClosed [] (d :: ds)) [] none
      false (fun hh => Bool.noConfusion hh) hlines_last
    constructor
    · exact joinNl_triple_free _ hout_nl hout_adj
    · obtain ⟨e, he1, he2⟩ := hout_last
      have hene : e ≠ [] := by
        intro hcon
        rw [hcon] at he2
        cases he2
      obtain ⟨z2, hz2⟩ : ∃ z2, e.getLast? = some z2 := by
        cases hv : e.getLast? with
        | some z2 => exact ⟨z2, rfl⟩
        | none =>
          rw [List.getLast?_eq_none_iff] at hv
          exact absurd hv hene
      have hein : e ∈ defragAux maxLen [] none false (splitClosed [] (d :: ds)) :=
        List.mem_of_mem_getLast? (by rw [he1]; rfl)
      have hz2nl : z2 ≠ '\n' :=
        hout_nl e hein z2 (List.mem_of_mem_getLast? (by rw [hz2]; rfl))
      exact endsTwoNl_of_getLast _ z2 (joinNl_getLast _ e z2 he1 hz2) hz2nl

/-- C1: counterexample to the claimed "exactly one trailing newline" output
contract.  An empty document with defragmentation enabled renders to the
empty string (the strip()+"\n" newline is the single line of the
defragmentation split and the final join adds no newline back), and a
"Hello" page followed by an empty page with page breaks enabled renders to
"Hello" (the artifact substitution deletes the trailing page rule together
with the preceding blank lines and the final newline).  Neither output ends
in a newline. -/
theorem render_document_trailing_newline_cex :
    render_document [] (plainOptions false true) none = [] ∧
    render_document [onePage ("Hello".toList), PageText.mk []]
      (plainOptions true false) none = "Hello".toList := by
  constructor
  · decide
  · decide

/-- C1 (amended): for every input and option set, the rendered document
contains no run of three or more consecutive newlines and ends with at most
one trailing newline. -/
theorem render_document_newline_shape (pages : List PageText) (options : Options)
    (body_sizes : Option (List ℚ)) :
    hasTripleNl (render_document pages options body_sizes) = false ∧
    endsTwoNl (render_document pages options body_sizes) = false := by
  have hprops := renderPagesAux_props options body_sizes pages.length pages 0
  have hmd1nb : noBlankSeg (List.intercalate ['\n']
      (renderPagesAux options body_sizes pages.length 0 pages)) = true := by
    rw [intercalate_nl_eq_joinNl]
    exact noBlankSeg_joinNl _ (fun e he => (hprops e he).1)
  have hmd1cl : cleanStr (List.intercalate ['\n']
      (renderPagesAux options body_sizes pages.length 0 pages)) = true := by
    rw [intercalate_nl_eq_joinNl]
    exact cleanStr_joinNl _ (fun e he => (hprops e he).2)
  have hmain : render_document pages options body_sizes =
      tighten_punctuation (strip_artifacts
        (if options.defragment_short then
          defragment_orphans (pyStrip (collapse_blank_runs (List.intercalate ['\n']
            (renderPagesAux options body_sizes pages.length 0 pages))) ++ ['\n'])
            options.orphan_max_len
         else pyStrip (collapse_blank_runs (List.intercalate ['\n']
            (renderPagesAux options body_sizes pages.length 0 pages))) ++ ['\n'])) := rfl
  rw [hmain]
  have h3 : hasTripleNl (if options.defragment_short then
        defragment_orphans (pyStrip (collapse_blank_runs (List.intercalate ['\n']
          (renderPagesAux options body_sizes pages.length 0 pages))) ++ ['\n'])
          options.orphan_max_len
       else pyStrip (collapse_blank_runs (List.intercalate ['\n']
          (renderPagesAux options body_sizes pages.length 0 pages))) ++ ['\n']) = false ∧
      endsTwoNl (if options.defragment_short then
        defragment_orphans (pyStrip (collapse_blank_runs (List.intercalate ['\n']
          (renderPagesAux options body_sizes pages.length 0 pages))) ++ ['\n'])
          options.orphan_max_len
       else pyStrip (collapse_blank_runs (List.intercalate ['\n']
          (renderPagesAux options body_sizes pages.length 0 pages))) ++ ['\n']) = false := by
    by_cases hdf : options.defragment_short
    · rw [if_pos hdf]
      exact defragment_orphans_props _ options.orphan_max_len hmd1nb hmd1cl
    · rw [if_neg hdf]
      exact md2_shape _
  obtain ⟨hTF3, hET3⟩ := h3
  obtain ⟨hTFs, hETs⟩ := strip_artifacts_preserves
    (List.length (if options.defragment_short then
        defragment_orphans (pyStrip (collapse_blank_runs (List.intercalate ['\n']
          (renderPagesAux options body_sizes pages.length 0 pages))) ++ ['\n'])
          options.orphan_max_len
       else pyStrip (collapse_blank_runs (List.intercalate ['\n']
          (renderPagesAux options body_sizes pages.length 0 pages))) ++ ['\n']))
    _ (Nat.le_refl _) hTF3 hET3
  exact tighten_punctuation_preserves _ hTFs hETs

end Pdfmd
